import Mathlib

/-!
The old-metadata loader of createrepo_c, `load_metadata.c`

A shallow embedding of `src/load_metadata.c` (old-metadata loader of createrepo_c)
together with theorems about it.

* C strings (`char *`, `xmlChar *`) are `Option String`; `none` is the `NULL` pointer.
* A parsed XML document is a list of `XmlNode` trees; an `xmlTextReader` walks the document
  in document order, element start tags, end tags and leaf nodes being separate positions.
  The embedding covers documents that libxml2 parses without error, so the reader calls
  return `1` (a node was read) or `0` (no more nodes).
* The `GHashTable` of old metadata is an association list keyed by string.
* `xmlNodeDump`, the libxml2 serializer, is a parameter `dump`; `none` is a negative
  return value.
* For `remove_old_metadata` the files that exist on disk are a list of paths without
  repeated `/`; `g_remove` deletes the file its argument names (repeated `/` in the argument
  count as one) when that file is in the list and may be removed, and fails otherwise.
-/

namespace LoadMetadata

/-! ## XML trees and the libxml2 text reader -/

/-- An XML node: an element with start and end tag, an empty element `<a/>`, a text node
or a comment. -/
inductive XmlNode where
  | element (name : String) (attrs : List (String × String)) (children : List XmlNode)
  | emptyElement (name : String) (attrs : List (String × String))
  | text (content : String)
  | comment (content : String)
  deriving Repr

namespace XmlNode

/-- Whether `node->type == XML_ELEMENT_NODE`. -/
def isElement : XmlNode → Bool
  | .element _ _ _ => true
  | .emptyElement _ _ => true
  | _ => false

/-- The `node->name` of a node. -/
def name : XmlNode → String
  | .element n _ _ => n
  | .emptyElement n _ => n
  | .text _ => "#text"
  | .comment _ => "#comment"

/-- The attribute list of a node. -/
def attrs : XmlNode → List (String × String)
  | .element _ a _ => a
  | .emptyElement _ a => a
  | _ => []

/-- The `node->children` of a node. -/
def children : XmlNode → List XmlNode
  | .element _ _ cs => cs
  | _ => []

end XmlNode

/-- The `xmlGetProp(node, name)` call: the value of the attribute, `NULL` when absent. -/
def xmlGetProp (node : XmlNode) (name : String) : Option String :=
  node.attrs.lookup name

/-- One position of the text reader: a node, and whether the position is the end tag of
that node. -/
structure ReaderNode where
  node : XmlNode
  isEnd : Bool
  deriving Repr

mutual
/-- The positions a reader visits inside one node, in document order. -/
def events : XmlNode → List ReaderNode
  | .element n a cs =>
      ⟨.element n a cs, false⟩ :: (eventsList cs ++ [⟨.element n a cs, true⟩])
  | .emptyElement n a => [⟨.emptyElement n a, false⟩]
  | .text s => [⟨.text s, false⟩]
  | .comment s => [⟨.comment s, false⟩]
/-- The positions a reader visits inside a list of sibling nodes. -/
def eventsList : List XmlNode → List ReaderNode
  | [] => []
  | c :: cs => events c ++ eventsList cs
end

/-- State of an `xmlTextReaderPtr`: the current position (`none` before the first read and
after the end of the document) and the positions still to come. -/
structure xmlTextReader where
  cur : Option ReaderNode
  remaining : List ReaderNode
  deriving Repr

/-- A fresh reader over a document (`xmlReaderForIO`, `xmlReaderForFile`). -/
def xmlReaderForDoc (doc : List XmlNode) : xmlTextReader :=
  ⟨none, eventsList doc⟩

/-- The `xmlTextReaderRead` call: move to the next position in document order. Returns
`1` when a node was read and `0` when there is none left. -/
def xmlTextReaderRead (r : xmlTextReader) : Int × xmlTextReader :=
  match r.remaining with
  | [] => (0, ⟨none, []⟩)
  | e :: es => (1, ⟨some e, es⟩)

/-- The `xmlTextReaderNext` call: move to the next position in document order, skipping the
subtree of the current node. On the start tag of a non-empty element libxml2 reads up to
the matching end tag and then once more; everywhere else it is a plain read. -/
def xmlTextReaderNext (r : xmlTextReader) : Int × xmlTextReader :=
  match r.cur with
  | some ⟨.element _ _ cs, false⟩ =>
      xmlTextReaderRead ⟨r.cur, r.remaining.drop ((eventsList cs).length + 1)⟩
  | _ => xmlTextReaderRead r

/-- The `xmlTextReaderName` call: qualified name of the current node, `NULL` without one. -/
def xmlTextReaderName (r : xmlTextReader) : Option String :=
  r.cur.map (fun e => e.node.name)

/-- The `xmlTextReaderNodeType` call: `1` element start, `15` element end, `3` text,
`8` comment, `0` no current node. -/
def xmlTextReaderNodeType (r : xmlTextReader) : Int :=
  match r.cur with
  | none => 0
  | some ⟨.element _ _ _, false⟩ => 1
  | some ⟨.element _ _ _, true⟩ => 15
  | some ⟨.emptyElement _ _, _⟩ => 1
  | some ⟨.text _, _⟩ => 3
  | some ⟨.comment _, _⟩ => 8

/-- The `xmlTextReaderExpand` call: the subtree of the current node. -/
def xmlTextReaderExpand (r : xmlTextReader) : Option XmlNode :=
  r.cur.map (fun e => e.node)

/-- The `xmlNodeDump` call followed by `g_strndup` of the buffer: the serialized node, or
`NULL` when the dump reports a negative length (also for a `NULL` node). -/
def xmlNodeDump (dump : XmlNode → Option String) (node : Option XmlNode) : Option String :=
  node.bind dump

/-! ## glib helpers -/

/-- The `g_strcmp0` call, which accepts `NULL`; callers only test the result against `0`. -/
def g_strcmp0 (str1 str2 : Option String) : Int :=
  if str1 = str2 then 0 else 1

/-- The `g_strrstr(haystack, "/")` call: the suffix of `haystack` that starts at the last
occurrence of `/`, `NULL` when there is none. -/
def g_strrstr_slash : List Char → Option (List Char)
  | [] => none
  | c :: cs =>
    match g_strrstr_slash cs with
    | some r => some r
    | none => if c = '/' then some (c :: cs) else none

/-- The `g_ascii_isspace` test. -/
def g_ascii_isspace (c : Char) : Bool :=
  c.toNat = 32 || (9 ≤ c.toNat && c.toNat ≤ 13)

/-- Value of a run of leading decimal digits, accumulated from `acc`. -/
def parseDigits : Nat → List Char → Nat
  | acc, [] => acc
  | acc, c :: cs => if c.isDigit then parseDigits (acc * 10 + (c.toNat - 48)) cs else acc

/-- The `g_ascii_strtoll(nptr, NULL, 10)` call: leading white space, an optional sign and
decimal digits; saturates at the `gint64` limits; `0` for a `NULL` argument or when there
are no digits. The callers keep the result in a `long`, taken to be 64 bits wide. -/
def g_ascii_strtoll (nptr : Option String) : Int :=
  match nptr with
  | none => 0
  | some s =>
    match s.data.dropWhile g_ascii_isspace with
    | '-' :: ds => max (-(parseDigits 0 ds : Int)) (-(2 : Int) ^ 63)
    | '+' :: ds => min (parseDigits 0 ds : Int) ((2 : Int) ^ 63 - 1)
    | ds => min (parseDigits 0 ds : Int) ((2 : Int) ^ 63 - 1)

/-! ## The old-metadata hash table -/

/-- The `struct PackageMetadata` record of `load_metadata.h`. -/
structure PackageMetadata where
  time_file : Int
  size_package : Int
  location_href : Option String
  location_base : Option String
  checksum_type : Option String
  primary_xml : Option String
  filelists_xml : Option String
  other_xml : Option String
  deriving DecidableEq, Repr

/-- A `GHashTable` from strings (`g_str_hash`, `g_str_equal`) to package records. -/
abbrev GHashTable := List (String × PackageMetadata)

/-- The `new_old_metadata_hashtable` function: an empty table. -/
def new_old_metadata_hashtable : GHashTable := []

/-- The `g_hash_table_lookup` call. -/
def g_hash_table_lookup (t : GHashTable) (key : String) : Option PackageMetadata :=
  t.lookup key

/-- The `g_hash_table_insert` call: a value stored under an existing key is replaced. -/
def g_hash_table_insert (t : GHashTable) (key : String) (value : PackageMetadata) :
    GHashTable :=
  (key, value) :: t.filter (fun e => e.1 != key)

/-! ## `process_node` -/

/-- The local variables of the child scan in `process_node`. -/
structure ScanState where
  location_href : Option String
  location_base : Option String
  checksum_type : Option String
  time_file : Int
  size : Int
  counter : Nat
  deriving DecidableEq, Repr

/-- The values the locals of `process_node` are initialised with. -/
def ScanState.init : ScanState :=
  ⟨none, none, none, -1, -1, 0⟩

/-- The `if`/`else if` chain of the scan, applied to one element child. -/
def scanElement (s : ScanState) (node : XmlNode) : ScanState :=
  if g_strcmp0 (some node.name) (some "location") = 0 then
    { s with location_href := xmlGetProp node "href"
             location_base := xmlGetProp node "base"
             counter := s.counter + 1 }
  else if g_strcmp0 (some node.name) (some "checksum") = 0 then
    { s with checksum_type := xmlGetProp node "type", counter := s.counter + 1 }
  else if g_strcmp0 (some node.name) (some "size") = 0 then
    { s with size := g_ascii_strtoll (xmlGetProp node "package"), counter := s.counter + 1 }
  else if g_strcmp0 (some node.name) (some "time") = 0 then
    { s with time_file := g_ascii_strtoll (xmlGetProp node "file")
             counter := s.counter + 1 }
  else s

/-- The `while (node)` loop of `process_node` over the children of the primary package
node: non-element nodes are stepped over, the loop stops once the counter is `4`. -/
def scanChildren : ScanState → List XmlNode → ScanState
  | s, [] => s
  | s, node :: rest =>
    if node.isElement then
      if (scanElement s node).counter = 4 then scanElement s node
      else scanChildren (scanElement s node) rest
    else scanChildren s rest

/-- The key of a record: the part of `location_href` after its last `/`, or all of it. -/
def keyOf (location_href : String) : String :=
  match g_strrstr_slash location_href.data with
  | none => location_href
  | some r => String.mk (r.drop 1)

/-- The `process_node` function. The hash table is returned instead of updated in place. -/
def process_node (dump : XmlNode → Option String) (metadata : GHashTable)
    (pri_reader fil_reader oth_reader : xmlTextReader) : GHashTable :=
  if xmlTextReaderNodeType pri_reader ≠ 1 ∨ xmlTextReaderNodeType fil_reader ≠ 1 ∨
      xmlTextReaderNodeType oth_reader ≠ 1 then
    metadata
  else
    let pri_pkg_node := xmlTextReaderExpand pri_reader
    let fil_pkg_node := xmlTextReaderExpand fil_reader
    let oth_pkg_node := xmlTextReaderExpand oth_reader
    let pri_pkg_xml := xmlNodeDump dump pri_pkg_node
    let fil_pkg_xml := xmlNodeDump dump fil_pkg_node
    let oth_pkg_xml := xmlNodeDump dump oth_pkg_node
    match pri_pkg_node, pri_pkg_xml, fil_pkg_xml, oth_pkg_xml with
    | some node, some _, some _, some _ =>
      let s := scanChildren ScanState.init node.children
      match s.location_href, s.checksum_type with
      | some location_href, some _ =>
        if s.counter ≠ 4 then metadata
        else
          let key := keyOf location_href
          if (g_hash_table_lookup metadata key).isSome then metadata
          else
            g_hash_table_insert metadata key
              { time_file := s.time_file
                size_package := s.size
                location_href := s.location_href
                location_base := s.location_base
                checksum_type := s.checksum_type
                primary_xml := pri_pkg_xml
                filelists_xml := fil_pkg_xml
                other_xml := oth_pkg_xml }
      | _, _ => metadata
    | _, _, _, _ => metadata

/-! ## `parse_xml_metadata` -/

/-- The variables of `parse_xml_metadata` that its `while` loop reads and writes. -/
structure LoopState where
  hashtable : GHashTable
  pri_ret : Int
  fil_ret : Int
  oth_ret : Int
  pri_reader : xmlTextReader
  fil_reader : xmlTextReader
  oth_reader : xmlTextReader

/-- One pass through the body of the `while` loop of `parse_xml_metadata`. -/
def loopBody (dump : XmlNode → Option String) (st : LoopState) : LoopState :=
  { hashtable := process_node dump st.hashtable st.pri_reader st.fil_reader st.oth_reader
    pri_ret := (xmlTextReaderNext st.pri_reader).1
    fil_ret := (xmlTextReaderNext st.fil_reader).1
    oth_ret := (xmlTextReaderNext st.oth_reader).1
    pri_reader := (xmlTextReaderNext st.pri_reader).2
    fil_reader := (xmlTextReaderNext st.fil_reader).2
    oth_reader := (xmlTextReaderNext st.oth_reader).2 }

/-- The loop `while (pri_ret && fil_ret && oth_ret) { ... }` of `parse_xml_metadata`, run
for at most `fuel` passes. -/
def parseLoop (dump : XmlNode → Option String) : Nat → LoopState → LoopState
  | 0, st => st
  | fuel + 1, st =>
    if st.pri_ret ≠ 0 ∧ st.fil_ret ≠ 0 ∧ st.oth_ret ≠ 0 then
      parseLoop dump fuel (loopBody dump st)
    else st

/-- What `parse_xml_metadata` leaves behind: its return value, the hash table and the
three readers. -/
structure ParseResult where
  ret : Int
  hashtable : GHashTable
  pri_reader : xmlTextReader
  fil_reader : xmlTextReader
  oth_reader : xmlTextReader

/-- The `parse_xml_metadata` function (all four pointer arguments non-`NULL`). Every pass
of the loop moves the primary reader forward, so `remaining.length + 1` passes are
enough for the loop to run to its end (`parseLoop_fuel`). -/
def parse_xml_metadata (dump : XmlNode → Option String) (hashtable : GHashTable)
    (pri_reader fil_reader oth_reader : xmlTextReader) : ParseResult :=
  -- Get root element
  let pri1 := xmlTextReaderRead pri_reader
  if g_strcmp0 (xmlTextReaderName pri1.2) (some "metadata") ≠ 0 then
    ⟨0, hashtable, pri1.2, fil_reader, oth_reader⟩
  else
  let fil1 := xmlTextReaderRead fil_reader
  if g_strcmp0 (xmlTextReaderName fil1.2) (some "filelists") ≠ 0 then
    ⟨0, hashtable, pri1.2, fil1.2, oth_reader⟩
  else
  let oth1 := xmlTextReaderRead oth_reader
  if g_strcmp0 (xmlTextReaderName oth1.2) (some "otherdata") ≠ 0 then
    ⟨0, hashtable, pri1.2, fil1.2, oth1.2⟩
  else
  -- Get first package element
  let pri2 := xmlTextReaderRead pri1.2
  if g_strcmp0 (xmlTextReaderName pri2.2) (some "package") ≠ 0 then
    ⟨0, hashtable, pri2.2, fil1.2, oth1.2⟩
  else
  let fil2 := xmlTextReaderRead fil1.2
  if g_strcmp0 (xmlTextReaderName fil2.2) (some "package") ≠ 0 then
    ⟨0, hashtable, pri2.2, fil2.2, oth1.2⟩
  else
  let oth2 := xmlTextReaderRead oth1.2
  if g_strcmp0 (xmlTextReaderName oth2.2) (some "package") ≠ 0 then
    ⟨0, hashtable, pri2.2, fil2.2, oth2.2⟩
  else
  let st := parseLoop dump (pri2.2.remaining.length + 1)
    ⟨hashtable, pri2.1, fil2.1, oth2.1, pri2.2, fil2.2, oth2.2⟩
  ⟨1, st.hashtable, st.pri_reader, st.fil_reader, st.oth_reader⟩

/-! ## `locate_metadata_via_repomd` -/

/-- The `g_str_has_suffix` call. -/
def g_str_has_suffix (str suffix : String) : Bool :=
  suffix.data.isSuffixOf str.data

/-- The `g_strconcat(string1, ..., NULL)` call: the arguments are concatenated up to the
first `NULL`. -/
def g_strconcat : List (Option String) → String
  | [] => ""
  | none :: _ => ""
  | some s :: rest => s ++ g_strconcat rest

/-- The `struct MetadataLocation` record of `load_metadata.h`. -/
structure MetadataLocation where
  pri_xml_href : Option String
  fil_xml_href : Option String
  oth_xml_href : Option String
  pri_sqlite_href : Option String
  fil_sqlite_href : Option String
  oth_sqlite_href : Option String
  groupfile_href : Option String
  cgroupfile_href : Option String
  repomd : Option String
  deriving DecidableEq, Repr

/-- What the function sees of the file system. `g_file_test path` is the result of
`g_file_test` with `G_FILE_TEST_EXISTS` or with `G_FILE_TEST_EXISTS|G_FILE_TEST_IS_DIR`
(glib answers `TRUE` when any of the tests holds, so both ask whether the path exists);
`xmlReaderForFile path` is a fresh reader over the document stored at `path`. -/
structure FileSystem where
  g_file_test : String → Bool
  xmlReaderForFile : String → xmlTextReader

/-- The loop `while (ret) { ret = xmlTextReaderRead(reader); ... if name is "data" break; }`
that looks for the first `data` element, run for at most `fuel` passes. -/
def findDataLoop : Nat → Int → xmlTextReader → Int × xmlTextReader
  | 0, ret, reader => (ret, reader)
  | fuel + 1, ret, reader =>
    if ret ≠ 0 then
      if g_strcmp0 (xmlTextReaderName (xmlTextReaderRead reader).2) (some "data") = 0 then
        xmlTextReaderRead reader
      else findDataLoop fuel (xmlTextReaderRead reader).1 (xmlTextReaderRead reader).2
    else (ret, reader)

/-- The inner loop `while (sub_node)` over the children of a `data` element: the `href` of
the last `location` element child, starting from `location_href`. -/
def scanLocation : Option String → List XmlNode → Option String
  | location_href, [] => location_href
  | location_href, sub_node :: rest =>
    if sub_node.isElement then
      if g_strcmp0 (some sub_node.name) (some "location") = 0 then
        scanLocation (xmlGetProp sub_node "href") rest
      else scanLocation location_href rest
    else scanLocation location_href rest

/-- The `if`/`else if` chain that stores the path under the field of its type. -/
def storeLocation (mdloc : MetadataLocation) (data_type : Option String)
    (full_location_href : String) : MetadataLocation :=
  if g_strcmp0 data_type (some "primary") = 0 then
    { mdloc with pri_xml_href := some full_location_href }
  else if g_strcmp0 data_type (some "filelists") = 0 then
    { mdloc with fil_xml_href := some full_location_href }
  else if g_strcmp0 data_type (some "other") = 0 then
    { mdloc with oth_xml_href := some full_location_href }
  else if g_strcmp0 data_type (some "primary_db") = 0 then
    { mdloc with pri_sqlite_href := some full_location_href }
  else if g_strcmp0 data_type (some "filelists_db") = 0 then
    { mdloc with fil_sqlite_href := some full_location_href }
  else if g_strcmp0 data_type (some "other_db") = 0 then
    { mdloc with oth_sqlite_href := some full_location_href }
  else if g_strcmp0 data_type (some "group") = 0 then
    { mdloc with groupfile_href := some full_location_href }
  else if g_strcmp0 data_type (some "group_gz") = 0 then
    { mdloc with cgroupfile_href := some full_location_href }
  else mdloc

/-- The part of the second `while (ret)` loop that handles an expanded element node: read
its type and location, build the absolute path and store it. -/
def processData (repopath : String) (repopath_ends_with_slash : Bool)
    (mdloc : MetadataLocation) (data_node : XmlNode) : MetadataLocation :=
  let data_type := xmlGetProp data_node "type"
  let location_href := scanLocation none data_node.children
  let full_location_href :=
    if repopath_ends_with_slash then g_strconcat [some repopath, location_href]
    else g_strconcat [some repopath, some "/", location_href]
  storeLocation mdloc data_type full_location_href

/-- The second `while (ret)` loop of `locate_metadata_via_repomd`, run for at most `fuel`
passes. A position with node type `1` always has a node to expand. -/
def dataLoop (repopath : String) (repopath_ends_with_slash : Bool) :
    Nat → Int → xmlTextReader → MetadataLocation → MetadataLocation
  | 0, _, _, mdloc => mdloc
  | fuel + 1, ret, reader, mdloc =>
    if ret ≠ 0 then
      if xmlTextReaderNodeType reader ≠ 1 then
        dataLoop repopath repopath_ends_with_slash fuel (xmlTextReaderNext reader).1
          (xmlTextReaderNext reader).2 mdloc
      else
        match xmlTextReaderExpand reader with
        | none => mdloc
        | some data_node =>
          dataLoop repopath repopath_ends_with_slash fuel (xmlTextReaderNext reader).1
            (xmlTextReaderNext reader).2
            (processData repopath repopath_ends_with_slash mdloc data_node)
    else mdloc

/-- The `locate_metadata_via_repomd` function (`repopath` non-`NULL`); `none` is the
`NULL` result. Every pass of either loop moves the reader forward, so
`remaining.length + 1` passes are enough for the loop to run to its end. -/
def locate_metadata_via_repomd (fs : FileSystem) (repopath : String) :
    Option MetadataLocation :=
  if !fs.g_file_test repopath then none
  else
  -- Check if repopath ends with slash
  let repopath_ends_with_slash := g_str_has_suffix repopath "/"
  -- Create path to repomd.xml and check if it exists
  let repomd :=
    if repopath_ends_with_slash then g_strconcat [some repopath, some "repodata/repomd.xml"]
    else g_strconcat [some repopath, some "/repodata/repomd.xml"]
  if !fs.g_file_test repomd then none
  else
  -- Parse repomd.xml
  let r1 := xmlTextReaderRead (fs.xmlReaderForFile repomd)
  if g_strcmp0 (xmlTextReaderName r1.2) (some "repomd") ≠ 0 then none
  else
  let r2 := xmlTextReaderRead r1.2
  if g_strcmp0 (xmlTextReaderName r2.2) (some "revision") ≠ 0 then none
  else
  -- Parse data elements
  let r3 := findDataLoop (r2.2.remaining.length + 1) r2.1 r2.2
  if r3.1 = 0 then none
  else
    some (dataLoop repopath repopath_ends_with_slash (r3.2.remaining.length + 1) r3.1 r3.2
      ⟨none, none, none, none, none, none, none, none, some repomd⟩)

/-! ## `get_list_of_md_locations` and `remove_old_metadata` -/

/-- One line `if (field) list = g_slist_prepend(list, field);`. -/
def prependField (list : List String) (field : Option String) : List String :=
  match field with
  | some path => path :: list
  | none => list

/-- The `get_list_of_md_locations` function: the non-`NULL` strings of the structure; the
empty list for a `NULL` structure. -/
def get_list_of_md_locations (ml : Option MetadataLocation) : List String :=
  match ml with
  | none => []
  | some ml =>
    let list : List String := []
    let list := prependField list ml.pri_xml_href
    let list := prependField list ml.fil_xml_href
    let list := prependField list ml.oth_xml_href
    let list := prependField list ml.pri_sqlite_href
    let list := prependField list ml.fil_sqlite_href
    let list := prependField list ml.oth_sqlite_href
    let list := prependField list ml.groupfile_href
    let list := prependField list ml.cgroupfile_href
    let list := prependField list ml.repomd
    list

/-- What `remove_old_metadata` sees of the disk besides the files it deletes: the file
tests and documents of `fs`, the names `g_dir_read_name` returns for a directory opened
with `g_dir_open` (`none` when the directory cannot be opened), and whether an existing
path may be removed. -/
structure Disk where
  fs : FileSystem
  g_dir_open : String → Option (List String)
  canRemove : String → Bool

/-- A path with every run of `/` reduced to a single `/`: a `/` that is followed by another
`/` is dropped. -/
def collapseSlashes : List Char → List Char
  | [] => []
  | c :: rest =>
    if c = '/' ∧ rest.head? = some '/' then collapseSlashes rest
    else c :: collapseSlashes rest

/-- The file a path names. Path resolution treats repeated `/` as one, so `a//b` and `a/b`
name the same file; a file is identified by its path without repeated `/`. -/
def fileOf (path : String) : String :=
  String.mk (collapseSlashes path.data)

/-- The `g_remove` call on the list `files` of the files that exist (each identified by
its path without repeated `/`): `0` and the file that `path` names is gone, or `-1` when
there is no such file or it may not be removed. -/
def g_remove (disk : Disk) (files : List String) (path : String) : Int × List String :=
  if fileOf path ∈ files ∧ disk.canRemove path = true then (0, files.erase (fileOf path))
  else (-1, files)

/-- The variables of `remove_old_metadata` during the removal: the counter, the files that
exist, and the paths of the `Removing:` debug messages, one per call of `g_remove`. -/
structure RemoveState where
  removed_files : Int
  files : List String
  attempted : List String
  deriving DecidableEq, Repr

/-- The block `g_debug(... Removing ...); if (g_remove(path) == -1) warning else
removed_files++`. -/
def removePath (disk : Disk) (st : RemoveState) (path : String) : RemoveState :=
  if (g_remove disk st.files path).1 = -1 then
    { removed_files := st.removed_files
      files := (g_remove disk st.files path).2
      attempted := st.attempted ++ [path] }
  else
    { removed_files := st.removed_files + 1
      files := (g_remove disk st.files path).2
      attempted := st.attempted ++ [path] }

/-- First phase of `remove_old_metadata`: remove all metadata listed in `repomd.xml`. -/
def removeListed (disk : Disk) (st : RemoveState) (repopath : String) : RemoveState :=
  match locate_metadata_via_repomd disk.fs repopath with
  | some ml => (get_list_of_md_locations (some ml)).foldl (removePath disk) st
  | none => st

/-- The test of the directory scan on a file name. -/
def isOldMetadataName (file : String) : Bool :=
  g_str_has_suffix file "primary.xml.gz" ||
  g_str_has_suffix file "filelists.xml.gz" ||
  g_str_has_suffix file "other.xml.gz" ||
  g_str_has_suffix file "primary.xml.bz2" ||
  g_str_has_suffix file "filelists.xml.bz2" ||
  g_str_has_suffix file "other.xml.bz2" ||
  g_str_has_suffix file "primary.xml" ||
  g_str_has_suffix file "filelists.xml" ||
  g_str_has_suffix file "other.xml" ||
  g_strcmp0 (some file) (some "repomd.xml") = 0

/-- One pass of the loop `while ((file = g_dir_read_name (repodir)))`. -/
def scanEntry (disk : Disk) (full_repopath : String) (st : RemoveState) (file : String) :
    RemoveState :=
  if isOldMetadataName file then
    removePath disk st (g_strconcat [some full_repopath, some file])
  else st

/-- Second phase of `remove_old_metadata`: list the directory and remove the files that
could belong to old metadata. -/
def scanDirectory (disk : Disk) (full_repopath : String) (st : RemoveState)
    (entries : List String) : RemoveState :=
  entries.foldl (scanEntry disk full_repopath) st

/-- The `remove_old_metadata` function (`repopath` non-`NULL`): the return value and the
state it leaves; `files` are the files that exist before the call. -/
def remove_old_metadata (disk : Disk) (files : List String) (repopath : String) :
    Int × RemoveState :=
  if !disk.fs.g_file_test repopath then (-1, ⟨0, files, []⟩)
  else
    match disk.g_dir_open (g_strconcat [some repopath, some "/repodata/"]) with
    | none => (-1, ⟨0, files, []⟩)
    | some entries =>
      -- Remove all metadata listed in repomd.xml
      let st := removeListed disk ⟨0, files, []⟩ repopath
      -- List dir and remove all files which could be related to an old metadata
      let st := scanDirectory disk (g_strconcat [some repopath, some "/repodata/"]) st entries
      (st.removed_files, st)

/-! ## Auxiliary definitions used in the statements and proofs -/

/-- The key and the record `process_node` has built for the three current nodes when it
reaches the lookup in the hash table; `none` when it returns before that. -/
def candidate (dump : XmlNode → Option String)
    (pri_reader fil_reader oth_reader : xmlTextReader) : Option (String × PackageMetadata) :=
  if xmlTextReaderNodeType pri_reader ≠ 1 ∨ xmlTextReaderNodeType fil_reader ≠ 1 ∨
      xmlTextReaderNodeType oth_reader ≠ 1 then
    none
  else
    match xmlTextReaderExpand pri_reader, xmlNodeDump dump (xmlTextReaderExpand pri_reader),
      xmlNodeDump dump (xmlTextReaderExpand fil_reader),
      xmlNodeDump dump (xmlTextReaderExpand oth_reader) with
    | some node, some pri_xml, some fil_xml, some oth_xml =>
      match (scanChildren ScanState.init node.children).location_href,
        (scanChildren ScanState.init node.children).checksum_type with
      | some location_href, some checksum_type =>
        if (scanChildren ScanState.init node.children).counter ≠ 4 then none
        else
          some (keyOf location_href,
            { time_file := (scanChildren ScanState.init node.children).time_file
              size_package := (scanChildren ScanState.init node.children).size
              location_href := some location_href
              location_base := (scanChildren ScanState.init node.children).location_base
              checksum_type := some checksum_type
              primary_xml := some pri_xml
              filelists_xml := some fil_xml
              other_xml := some oth_xml })
      | _, _ => none
    | _, _, _, _ => none

/-- Storing a candidate: nothing happens without a candidate or when its key is taken. -/
def storeCandidate (metadata : GHashTable) (c : Option (String × PackageMetadata)) :
    GHashTable :=
  match c with
  | none => metadata
  | some (key, value) =>
    if (g_hash_table_lookup metadata key).isSome then metadata else (key, value) :: metadata

/-- The positions of the subtree of a node that follow its start position. -/
def subEvents : XmlNode → List ReaderNode
  | .element n a cs => eventsList cs ++ [⟨.element n a cs, true⟩]
  | _ => []

/-- A reader placed on the start of node `c`, with the siblings `cs` after it and the
positions `tail` after those. -/
def readerOn (c : XmlNode) (cs : List XmlNode) (tail : List ReaderNode) : xmlTextReader :=
  ⟨some ⟨c, false⟩, subEvents c ++ (eventsList cs ++ tail)⟩

/-- What `process_node` does when the three readers stand on the start of the nodes of
`t`. -/
def processTriple (dump : XmlNode → Option String) (metadata : GHashTable)
    (t : XmlNode × XmlNode × XmlNode) : GHashTable :=
  process_node dump metadata (readerOn t.1 [] []) (readerOn t.2.1 [] []) (readerOn t.2.2 [] [])

/-- Lockstep processing of three lists of sibling nodes, position by position, up to the
end of the shortest list. -/
def processAll (dump : XmlNode → Option String) (metadata : GHashTable)
    (ps fs os : List XmlNode) : GHashTable :=
  (ps.zip (fs.zip os)).foldl (processTriple dump) metadata

/-- A document that consists of one root element. -/
def rootDoc (name : String) (attrs : List (String × String)) (children : List XmlNode) :
    List XmlNode :=
  [.element name attrs children]

/-- A reader that stands on the end tag of an element which nothing follows. -/
def AtLastEnd (r : xmlTextReader) : Prop :=
  ∃ n a cs, r = ⟨some ⟨.element n a cs, true⟩, []⟩

/-- A record with all three fragments present (non-`NULL`). -/
def HasAllFragments (r : PackageMetadata) : Prop :=
  r.primary_xml.isSome ∧ r.filelists_xml.isSome ∧ r.other_xml.isSome

/-! ## Sample data -/

/-- A serializer for the examples: only the tag of the node is written. -/
def sampleDump (node : XmlNode) : Option String :=
  some ("<" ++ node.name ++ "/>")

/-- A serializer for the examples that fails on every node. -/
def failingDump (_ : XmlNode) : Option String :=
  none

/-- A primary `package` element with the four fields and the given location href. -/
def samplePrimary (href : String) : XmlNode :=
  .element "package" [("type", "rpm")]
    [.element "name" [] [.text "foo"],
     .element "checksum" [("type", "sha256"), ("pkgid", "YES")] [.text "c0ffee"],
     .emptyElement "time" [("file", "1300000000"), ("build", "1299999999")],
     .emptyElement "size" [("package", "2048"), ("installed", "4096")],
     .emptyElement "location" [("href", href)]]

/-- A `package` element of a filelists or other document. -/
def samplePackage : XmlNode :=
  .element "package" [("pkgid", "c0ffee"), ("name", "foo")]
    [.emptyElement "version" [("epoch", "0"), ("ver", "1"), ("rel", "1")]]

/-- The record `process_node` builds from `samplePrimary href` and two `samplePackage`s
under `sampleDump`. -/
def sampleRecord (href : String) : PackageMetadata :=
  { time_file := 1300000000
    size_package := 2048
    location_href := some href
    location_base := none
    checksum_type := some "sha256"
    primary_xml := some "<package/>"
    filelists_xml := some "<package/>"
    other_xml := some "<package/>" }

/-! ## Well-formed primary package records -/

/-- Whether `c` is an element called `name`. -/
def isNamed (name : String) (c : XmlNode) : Bool :=
  c.isElement && c.name == name

/-- The `href` attribute of the (first) `location` child of a package element. -/
def hrefOf (node : XmlNode) : Option String :=
  (node.children.find? (isNamed "location")).bind (fun c => xmlGetProp c "href")

/-- The `type` attribute of the (first) `checksum` child of a package element. -/
def checksumTypeOf (node : XmlNode) : Option String :=
  (node.children.find? (isNamed "checksum")).bind (fun c => xmlGetProp c "type")

/-- The basename under which a package element is published. -/
def basenameOf (node : XmlNode) : Option String :=
  (hrefOf node).map keyOf

/-- Number of children that are elements named `location`, `checksum`, `size` or `time`. -/
def fieldCount (l : List XmlNode) : Nat :=
  l.countP (isNamed "location") + l.countP (isNamed "checksum") +
    l.countP (isNamed "size") + l.countP (isNamed "time")

/-- A complete primary package record: among its children there is exactly one `location`
element, one `checksum` element, one `size` element and one `time` element, the location
has an `href` and the checksum has a `type`. -/
def WellFormedPrimary (node : XmlNode) : Prop :=
  node.children.countP (isNamed "location") = 1 ∧
    node.children.countP (isNamed "checksum") = 1 ∧
    node.children.countP (isNamed "size") = 1 ∧
    node.children.countP (isNamed "time") = 1 ∧
    (hrefOf node).isSome ∧ (checksumTypeOf node).isSome

/-- The entries of the table that are stored under `key`. -/
def entriesFor (t : GHashTable) (key : String) : GHashTable :=
  t.filter (fun e => e.1 == key)

/-- The candidate of `process_node` when the three readers stand on the start of the
nodes of `t`. -/
def candidateOf (dump : XmlNode → Option String) (t : XmlNode × XmlNode × XmlNode) :
    Option (String × PackageMetadata) :=
  candidate dump (readerOn t.1 [] []) (readerOn t.2.1 [] []) (readerOn t.2.2 [] [])

/-- A record whose three fragments are present and not empty. -/
def HasNonemptyFragments (r : PackageMetadata) : Prop :=
  (∃ s, r.primary_xml = some s ∧ s ≠ "") ∧ (∃ s, r.filelists_xml = some s ∧ s ≠ "") ∧
    (∃ s, r.other_xml = some s ∧ s ≠ "")

/-- Two complete primary records with different basenames. -/
def samplePrimaries : List XmlNode :=
  [samplePrimary "a/foo.rpm", samplePrimary "b/bar.rpm"]

/-- Two complete primary records with the same basename `foo.rpm`. -/
def duplicatePrimaries : List XmlNode :=
  [samplePrimary "a/foo.rpm", samplePrimary "b/foo.rpm"]

/-- Two records of a filelists or other document. -/
def samplePackages : List XmlNode :=
  [samplePackage, samplePackage]

/-- Three complete primary records; the last two share the basename `foo.rpm`. -/
def threePrimaries : List XmlNode :=
  [samplePrimary "x/bar.rpm", samplePrimary "a/foo.rpm", samplePrimary "b/foo.rpm"]

/-- Three records of a filelists or other document. -/
def threePackages : List XmlNode :=
  [samplePackage, samplePackage, samplePackage]

/-- Three records of a filelists document with a comment after the first one. -/
def commentedPackages : List XmlNode :=
  [samplePackage, .comment " second package ", samplePackage, samplePackage]

/-- Three complete primary records with pairwise different basenames. -/
def distinctPrimaries : List XmlNode :=
  [samplePrimary "a/one.rpm", samplePrimary "b/two.rpm", samplePrimary "c/three.rpm"]

/-- A primary `package` element that has no `checksum` child. -/
def noChecksumPrimary : XmlNode :=
  .element "package" [("type", "rpm")]
    [.element "name" [] [.text "broken"],
     .emptyElement "time" [("file", "1300000000")],
     .emptyElement "size" [("package", "2048")],
     .emptyElement "location" [("href", "c/broken.rpm")]]

/-- A primary `package` element with two `location` children, a `checksum` and a `size`
child, and no `time` child. -/
def twoLocationsPrimary : XmlNode :=
  .element "package" [("type", "rpm")]
    [.emptyElement "location" [("href", "a/foo.rpm")],
     .emptyElement "location" [("href", "b/foo.rpm")],
     .element "checksum" [("type", "sha256"), ("pkgid", "YES")] [.text "c0ffee"],
     .emptyElement "size" [("package", "2048")]]

/-- Every key of `t` is a key of `u`. -/
def KeysSubset (t u : GHashTable) : Prop :=
  ∀ key, (g_hash_table_lookup t key).isSome = true → (g_hash_table_lookup u key).isSome = true

/-- What the second loop of `locate_metadata_via_repomd` does at one sibling node:
elements are processed, other nodes are stepped over. -/
def dataStep (repopath : String) (repopath_ends_with_slash : Bool) (mdloc : MetadataLocation)
    (node : XmlNode) : MetadataLocation :=
  if node.isElement then processData repopath repopath_ends_with_slash mdloc node else mdloc

/-- The path of the index document as `locate_metadata_via_repomd` builds it. -/
def repomdPath (repopath : String) : String :=
  if g_str_has_suffix repopath "/" then g_strconcat [some repopath, some "repodata/repomd.xml"]
  else g_strconcat [some repopath, some "/repodata/repomd.xml"]

/-- The field of a location that belongs to a metadata type; there is none for other
names. -/
def MetadataLocation.field (ml : MetadataLocation) (type : String) : Option String :=
  if type = "primary" then ml.pri_xml_href
  else if type = "filelists" then ml.fil_xml_href
  else if type = "other" then ml.oth_xml_href
  else if type = "primary_db" then ml.pri_sqlite_href
  else if type = "filelists_db" then ml.fil_sqlite_href
  else if type = "other_db" then ml.oth_sqlite_href
  else if type = "group" then ml.groupfile_href
  else if type = "group_gz" then ml.cgroupfile_href
  else none

/-- A file system in which every path exists and every file holds the document `doc`. -/
def sampleFs (doc : List XmlNode) : FileSystem :=
  ⟨fun _ => true, fun _ => xmlReaderForDoc doc⟩

/-- An index document that lists the primary and the filelists document. -/
def sampleIndex : List XmlNode :=
  rootDoc "repomd" [("xmlns", "http://linux.duke.edu/metadata/repo")]
    [.element "revision" [] [.text "1300000000"],
     .element "data" [("type", "filelists")]
       [.emptyElement "checksum" [("type", "sha256")],
        .emptyElement "location" [("href", "repodata/filelists.xml.gz")]],
     .element "data" [("type", "primary")]
       [.emptyElement "checksum" [("type", "sha256")],
        .emptyElement "location" [("href", "repodata/primary.xml.gz")],
        .emptyElement "timestamp" []]]

/-- The eight metadata types `locate_metadata_via_repomd` knows. -/
def knownTypes : List String :=
  ["primary", "filelists", "other", "primary_db", "filelists_db", "other_db", "group",
    "group_gz"]

/-- The repository path joined with a relative href: a `/` is put between them unless
the path already ends with one. -/
def joinRoot (repopath href : String) : String :=
  if g_str_has_suffix repopath "/" then repopath ++ href else repopath ++ "/" ++ href

/-- The nine string fields of a location, in the order of the structure. -/
def MetadataLocation.fields (ml : MetadataLocation) : List (Option String) :=
  [ml.pri_xml_href, ml.fil_xml_href, ml.oth_xml_href, ml.pri_sqlite_href, ml.fil_sqlite_href,
    ml.oth_sqlite_href, ml.groupfile_href, ml.cgroupfile_href, ml.repomd]

/-- The file names the directory scan is meant to pick: a name that ends with
`primary.xml`, `filelists.xml` or `other.xml`, each with nothing, `.gz` or `.bz2` after it,
or the name `repomd.xml`. -/
def IsRecognizedName (file : String) : Prop :=
  (∃ base ∈ ["primary.xml", "filelists.xml", "other.xml"], ∃ ext ∈ ["", ".gz", ".bz2"],
    g_str_has_suffix file (base ++ ext) = true) ∨ file = "repomd.xml"

/-- The nine suffixes the directory scan tests for, in the order of the source. -/
def recognizedSuffixes : List String :=
  ["primary.xml.gz", "filelists.xml.gz", "other.xml.gz", "primary.xml.bz2",
    "filelists.xml.bz2", "other.xml.bz2", "primary.xml", "filelists.xml", "other.xml"]

/-- A disk for the examples: the documents of `sampleFs sampleIndex`, the directory
listing `entries` for every directory, and no path protected from removal. -/
def sampleDisk (entries : List String) : Disk :=
  ⟨sampleFs sampleIndex, fun _ => some entries, fun _ => true⟩

/-- An index document that lists the primary document only. -/
def primaryOnlyIndex : List XmlNode :=
  rootDoc "repomd" [("xmlns", "http://linux.duke.edu/metadata/repo")]
    [.element "revision" [] [.text "1300000000"],
     .element "data" [("type", "primary")]
       [.emptyElement "checksum" [("type", "sha256")],
        .emptyElement "location" [("href", "repodata/primary.xml.gz")]]]

/-- A disk whose index document is `primaryOnlyIndex`, with the directory listing
`entries` and no path protected from removal. -/
def cleanerDisk (entries : List String) : Disk :=
  ⟨sampleFs primaryOnlyIndex, fun _ => some entries, fun _ => true⟩

/-! ## The streams of nodes of the three readers -/

/-- The readers a loop of the shape `while (ret) { ...; ret = xmlTextReaderNext(reader); }`
stands on, one per pass, for at most `fuel` passes. -/
def nextStream : Nat → Int → xmlTextReader → List xmlTextReader
  | 0, _, _ => []
  | fuel + 1, ret, reader =>
    if ret ≠ 0 then
      reader :: nextStream fuel (xmlTextReaderNext reader).1 (xmlTextReaderNext reader).2
    else []

/-- The stream of nodes of a reader: its position and the positions repeated calls of
`xmlTextReaderNext` move it to, up to the end of the document. -/
def nodeStream (ret : Int) (reader : xmlTextReader) : List xmlTextReader :=
  nextStream (reader.remaining.length + 1) ret reader

/-- The reader after `k` calls of `xmlTextReaderNext`. -/
def advance : Nat → xmlTextReader → xmlTextReader
  | 0, reader => reader
  | k + 1, reader => advance k (xmlTextReaderNext reader).2

/-- The result of the two calls of `xmlTextReaderRead` with which `parse_xml_metadata`
moves a fresh reader to the first child of the root. -/
def firstPackage (reader : xmlTextReader) : Int × xmlTextReader :=
  xmlTextReaderRead (xmlTextReaderRead reader).2

/-- The call of `process_node` on a triple of readers. -/
def processReaders (dump : XmlNode → Option String) (metadata : GHashTable)
    (t : xmlTextReader × xmlTextReader × xmlTextReader) : GHashTable :=
  process_node dump metadata t.1 t.2.1 t.2.2

/-- The positions the three readers of `parse_xml_metadata` take in lockstep: position `i`
of the stream of nodes of each reader, from the first child of the root on, up to the end
of the shortest stream. -/
def lockstepPositions (pri_reader fil_reader oth_reader : xmlTextReader) :
    List (xmlTextReader × xmlTextReader × xmlTextReader) :=
  (nodeStream (firstPackage pri_reader).1 (firstPackage pri_reader).2).zip
    ((nodeStream (firstPackage fil_reader).1 (firstPackage fil_reader).2).zip
      (nodeStream (firstPackage oth_reader).1 (firstPackage oth_reader).2))

/-- The readers placed on the start of each node of a list of siblings in turn, the
positions `tail` following the last sibling. -/
def siblingReaders : List XmlNode → List ReaderNode → List xmlTextReader
  | [], _ => []
  | c :: cs, tail => readerOn c cs tail :: siblingReaders cs tail

/-- A reader on the end tag of the root element, the last position of a document. -/
def rootEnd (root : XmlNode) : xmlTextReader :=
  ⟨some ⟨root, true⟩, []⟩

/-- The stream of nodes below a root element: a reader on each child of the root in turn,
then the reader on the end tag of the root. -/
def siblingStream (root : XmlNode) : List xmlTextReader :=
  siblingReaders root.children [⟨root, true⟩] ++ [rootEnd root]

/-! # Theorems -/

/-! ## Supporting lemmas: strings and the hash table -/

theorem g_strrstr_slash_eq_none {l : List Char} :
    g_strrstr_slash l = none ↔ '/' ∉ l := by
  induction l with
  | nil => simp [g_strrstr_slash]
  | cons c cs ih =>
    simp only [g_strrstr_slash, List.mem_cons, not_or]
    cases h : g_strrstr_slash cs with
    | none =>
      have h1 := ih.mp h
      by_cases hc : c = '/'
      · simp [hc]
      · simp [hc, h1]; exact fun h2 => hc h2.symm
    | some r =>
      have h1 : ¬ ('/' ∉ cs) := fun h2 => by simp [ih.mpr h2] at h
      simp; intro _; exact not_not.mp h1

theorem g_strrstr_slash_eq_some {l r : List Char} (h : g_strrstr_slash l = some r) :
    ∃ pre rest, l = pre ++ '/' :: rest ∧ r = '/' :: rest ∧ '/' ∉ rest := by
  induction l with
  | nil => simp [g_strrstr_slash] at h
  | cons c cs ih =>
    simp only [g_strrstr_slash] at h
    cases h1 : g_strrstr_slash cs with
    | none =>
      rw [h1] at h
      by_cases hc : c = '/'
      · simp [hc] at h
        exact ⟨[], cs, by simp [hc], h.symm, g_strrstr_slash_eq_none.mp h1⟩
      · simp [hc] at h
    | some r1 =>
      rw [h1] at h
      simp at h
      subst h
      obtain ⟨pre, rest, h2, h3, h4⟩ := ih h1
      exact ⟨c :: pre, rest, by simp [h2], h3, h4⟩

theorem lookup_filter_ne (t : GHashTable) (key : String)
    (h : g_hash_table_lookup t key = none) : t.filter (fun e => e.1 != key) = t := by
  induction t with
  | nil => rfl
  | cons e es ih =>
    obtain ⟨k, v⟩ := e
    simp only [g_hash_table_lookup, List.lookup_cons] at h
    by_cases hk : key == k
    · simp [hk] at h
    · simp only [hk] at h
      have hk2 : k ≠ key := fun h3 => by simp [h3] at hk
      simp only [List.filter_cons, bne_iff_ne, ne_eq, hk2, not_false_eq_true, decide_True,
        ite_true]
      rw [ih h]

/-! ## Supporting lemmas: `process_node` -/

theorem process_node_eq (dump : XmlNode → Option String) (metadata : GHashTable)
    (p f o : xmlTextReader) :
    process_node dump metadata p f o = storeCandidate metadata (candidate dump p f o) := by
  unfold process_node candidate storeCandidate
  by_cases hty : xmlTextReaderNodeType p ≠ 1 ∨ xmlTextReaderNodeType f ≠ 1 ∨
      xmlTextReaderNodeType o ≠ 1
  · simp only [hty, if_true]
  · simp only [hty, if_false]
    cases h0 : xmlTextReaderExpand p with
    | none => simp [xmlNodeDump]
    | some node =>
      cases h1 : xmlNodeDump dump (some node) with
      | none => simp
      | some a =>
        cases h2 : xmlNodeDump dump (xmlTextReaderExpand f) with
        | none => simp
        | some b =>
          cases h3 : xmlNodeDump dump (xmlTextReaderExpand o) with
          | none => simp
          | some c =>
            simp only []
            cases h4 : (scanChildren ScanState.init node.children).location_href with
            | none => simp
            | some href =>
              cases h5 : (scanChildren ScanState.init node.children).checksum_type with
              | none => simp
              | some ct =>
                simp only []
                by_cases h6 : (scanChildren ScanState.init node.children).counter ≠ 4
                · rw [if_pos h6, if_pos h6]
                · rw [if_neg h6, if_neg h6]
                  cases h7 : g_hash_table_lookup metadata (keyOf href) with
                  | none =>
                    simp [h7, g_hash_table_insert, lookup_filter_ne _ _ h7]
                  | some v => simp [h7]

/-! ## Supporting lemmas: the reader -/

theorem events_eq (c : XmlNode) : events c = ⟨c, false⟩ :: subEvents c := by
  cases c <;> simp [events, subEvents]

theorem length_le_eventsList (cs : List XmlNode) : cs.length ≤ (eventsList cs).length := by
  induction cs with
  | nil => simp [eventsList]
  | cons c cs ih =>
    simp only [eventsList, events_eq, List.length_append, List.length_cons]
    omega

theorem next_readerOn_cons (c c1 : XmlNode) (cs : List XmlNode) (tail : List ReaderNode) :
    xmlTextReaderNext (readerOn c (c1 :: cs) tail) = (1, readerOn c1 cs tail) := by
  cases c <;>
    simp [xmlTextReaderNext, readerOn, subEvents, xmlTextReaderRead, eventsList, events_eq]

theorem next_readerOn_nil (c : XmlNode) (e : ReaderNode) (tail : List ReaderNode) :
    xmlTextReaderNext (readerOn c [] (e :: tail)) = (1, ⟨some e, tail⟩) := by
  cases c <;>
    simp [xmlTextReaderNext, readerOn, subEvents, xmlTextReaderRead, eventsList]

theorem next_end (n : String) (a : List (String × String)) (cs : List XmlNode) :
    xmlTextReaderNext ⟨some ⟨.element n a cs, true⟩, []⟩ = (0, ⟨none, []⟩) := by
  simp [xmlTextReaderNext, xmlTextReaderRead]

theorem candidate_cur (dump : XmlNode → Option String) (p f o : xmlTextReader) :
    candidate dump p f o = candidate dump ⟨p.cur, []⟩ ⟨f.cur, []⟩ ⟨o.cur, []⟩ := rfl

theorem process_node_readerOn (dump : XmlNode → Option String) (metadata : GHashTable)
    (p f o : XmlNode) (ps fs os : List XmlNode) (tp tf tl : List ReaderNode) :
    process_node dump metadata (readerOn p ps tp) (readerOn f fs tf) (readerOn o os tl) =
      processTriple dump metadata (p, f, o) := by
  simp only [processTriple, process_node_eq]
  rw [candidate_cur, candidate_cur dump (readerOn p [] [])]
  rfl

/-! ## Supporting lemmas: the loop of `parse_xml_metadata` -/

theorem parseLoop_of_ret_zero (dump : XmlNode → Option String) (fuel : Nat) (st : LoopState)
    (h : st.pri_ret = 0 ∨ st.fil_ret = 0 ∨ st.oth_ret = 0) : parseLoop dump fuel st = st := by
  cases fuel with
  | zero => rfl
  | succ n =>
    have hc : ¬ (st.pri_ret ≠ 0 ∧ st.fil_ret ≠ 0 ∧ st.oth_ret ≠ 0) := by
      rcases h with h | h | h <;> simp [h]
    simp only [parseLoop, if_neg hc]

theorem candidate_of_type_ne (dump : XmlNode → Option String) (p f o : xmlTextReader)
    (h : xmlTextReaderNodeType p ≠ 1 ∨ xmlTextReaderNodeType f ≠ 1 ∨
      xmlTextReaderNodeType o ≠ 1) : candidate dump p f o = none := by
  simp only [candidate, if_pos h]

theorem AtLastEnd.type_ne {r : xmlTextReader} (h : AtLastEnd r) :
    xmlTextReaderNodeType r ≠ 1 := by
  obtain ⟨n, a, cs, rfl⟩ := h
  simp [xmlTextReaderNodeType]

theorem AtLastEnd.next {r : xmlTextReader} (h : AtLastEnd r) :
    (xmlTextReaderNext r).1 = 0 := by
  obtain ⟨n, a, cs, rfl⟩ := h
  rw [next_end]

theorem parseLoop_at_end (dump : XmlNode → Option String) (fuel : Nat) (st : LoopState)
    (h : AtLastEnd st.pri_reader ∨ AtLastEnd st.fil_reader ∨ AtLastEnd st.oth_reader) :
    (parseLoop dump fuel st).hashtable = st.hashtable := by
  cases fuel with
  | zero => rfl
  | succ n =>
    simp only [parseLoop]
    split
    · rw [parseLoop_of_ret_zero]
      · simp only [loopBody, process_node_eq]
        rw [candidate_of_type_ne]
        · rfl
        · rcases h with h | h | h
          · exact Or.inl h.type_ne
          · exact Or.inr (Or.inl h.type_ne)
          · exact Or.inr (Or.inr h.type_ne)
      · simp only [loopBody]
        rcases h with h | h | h
        · exact Or.inl h.next
        · exact Or.inr (Or.inl h.next)
        · exact Or.inr (Or.inr h.next)
    · rfl

theorem next_readerOn_last (c : XmlNode) (n : String) (a : List (String × String))
    (cs : List XmlNode) :
    (xmlTextReaderNext (readerOn c [] [⟨.element n a cs, true⟩])).1 = 1 ∧
      AtLastEnd (xmlTextReaderNext (readerOn c [] [⟨.element n a cs, true⟩])).2 := by
  rw [next_readerOn_nil]
  exact ⟨rfl, n, a, cs, rfl⟩

theorem parseLoop_children (dump : XmlNode → Option String)
    (np nf no : String) (ap af ao : List (String × String)) (kp kf ko : List XmlNode)
    (ps : List XmlNode) :
    ∀ (fs os : List XmlNode) (p f o : XmlNode) (metadata : GHashTable) (fuel : Nat),
      ps.length + 2 ≤ fuel →
      (parseLoop dump fuel
        ⟨metadata, 1, 1, 1, readerOn p ps [⟨.element np ap kp, true⟩],
          readerOn f fs [⟨.element nf af kf, true⟩],
          readerOn o os [⟨.element no ao ko, true⟩]⟩).hashtable =
        processAll dump metadata (p :: ps) (f :: fs) (o :: os) := by
  induction ps with
  | nil =>
    intro fs os p f o metadata fuel hfuel
    obtain ⟨k, rfl⟩ : ∃ k, fuel = k + 1 := ⟨fuel - 1, by omega⟩
    simp only [parseLoop]
    rw [if_pos (by decide)]
    rw [parseLoop_at_end]
    · simp only [loopBody, process_node_readerOn, processAll]
      cases fs <;> cases os <;> simp
    · exact Or.inl (next_readerOn_last _ _ _ _).2
  | cons p1 ps ih =>
    intro fs os p f o metadata fuel hfuel
    obtain ⟨k, rfl⟩ : ∃ k, fuel = k + 1 := ⟨fuel - 1, by omega⟩
    simp only [parseLoop]
    rw [if_pos (by decide)]
    cases fs with
    | nil =>
      rw [parseLoop_at_end]
      · simp only [loopBody, process_node_readerOn, processAll]
        simp
      · exact Or.inr (Or.inl (next_readerOn_last _ _ _ _).2)
    | cons f1 fs =>
      cases os with
      | nil =>
        rw [parseLoop_at_end]
        · simp only [loopBody, process_node_readerOn, processAll]
          simp
        · exact Or.inr (Or.inr (next_readerOn_last _ _ _ _).2)
      | cons o1 os =>
        simp only [loopBody, process_node_readerOn, next_readerOn_cons]
        rw [ih fs os p1 f1 o1 _ k (by simp only [List.length_cons] at hfuel; omega)]
        simp [processAll]

theorem read_rootDoc (n : String) (a : List (String × String)) (cs : List XmlNode) :
    xmlTextReaderRead (xmlReaderForDoc (rootDoc n a cs)) =
      (1, ⟨some ⟨.element n a cs, false⟩, eventsList cs ++ [⟨.element n a cs, true⟩]⟩) := by
  simp [xmlTextReaderRead, xmlReaderForDoc, rootDoc, eventsList, events]

theorem read_children (c : XmlNode) (cs : List XmlNode) (cur : Option ReaderNode)
    (tail : List ReaderNode) :
    xmlTextReaderRead ⟨cur, eventsList (c :: cs) ++ tail⟩ = (1, readerOn c cs tail) := by
  simp [xmlTextReaderRead, eventsList, events_eq, readerOn]

theorem name_readerOn (c : XmlNode) (cs : List XmlNode) (tail : List ReaderNode) :
    xmlTextReaderName (readerOn c cs tail) = some c.name := rfl

theorem name_element (n : String) (a : List (String × String)) (cs : List XmlNode)
    (b : Bool) (rest : List ReaderNode) :
    xmlTextReaderName ⟨some ⟨.element n a cs, b⟩, rest⟩ = some n := rfl

theorem head_name {cs : List XmlNode} {s : String}
    (h : cs.head?.map XmlNode.name = some s) : ∃ c rest, cs = c :: rest ∧ c.name = s := by
  cases cs with
  | nil => simp at h
  | cons c rest => exact ⟨c, rest, rfl, by simpa using h⟩

theorem parse_rootDoc (dump : XmlNode → Option String) (metadata : GHashTable)
    (ap af ao : List (String × String)) (ps fs os : List XmlNode)
    (hp : ps.head?.map XmlNode.name = some "package")
    (hf : fs.head?.map XmlNode.name = some "package")
    (ho : os.head?.map XmlNode.name = some "package") :
    (parse_xml_metadata dump metadata (xmlReaderForDoc (rootDoc "metadata" ap ps))
        (xmlReaderForDoc (rootDoc "filelists" af fs))
        (xmlReaderForDoc (rootDoc "otherdata" ao os))).ret = 1 ∧
      (parse_xml_metadata dump metadata (xmlReaderForDoc (rootDoc "metadata" ap ps))
        (xmlReaderForDoc (rootDoc "filelists" af fs))
        (xmlReaderForDoc (rootDoc "otherdata" ao os))).hashtable =
        processAll dump metadata ps fs os := by
  obtain ⟨p, ps, rfl, hpn⟩ := head_name hp
  obtain ⟨f, fs, rfl, hfn⟩ := head_name hf
  obtain ⟨o, os, rfl, hon⟩ := head_name ho
  simp only [parse_xml_metadata, read_rootDoc, read_children, name_readerOn, name_element,
    hpn, hfn, hon, g_strcmp0, if_true, ne_eq, not_true_eq_false, if_false, true_and]
  apply parseLoop_children
  simp only [readerOn, List.length_append, List.length_cons]
  have := length_le_eventsList ps
  omega

/-! ## The key of a record (C6) and record atomicity (C7) -/

theorem keyOf_spec (href : String) :
    ('/' ∉ (keyOf href).data) ∧ ('/' ∉ href.data → keyOf href = href) ∧
      ('/' ∈ href.data → ∃ q : String, href = q ++ "/" ++ keyOf href) := by
  unfold keyOf
  cases h : g_strrstr_slash href.data with
  | none =>
    have h1 := g_strrstr_slash_eq_none.mp h
    exact ⟨h1, fun _ => rfl, fun h2 => absurd h2 h1⟩
  | some r =>
    obtain ⟨pre, rest, h1, h2, h3⟩ := g_strrstr_slash_eq_some h
    subst h2
    refine ⟨by simpa using h3, fun h4 => ?_, fun _ => ⟨String.mk pre, ?_⟩⟩
    · rw [h1] at h4
      simp at h4
    · apply String.ext
      simp [String.data_append, h1]

theorem mem_process_node (dump : XmlNode → Option String) (metadata : GHashTable)
    (p f o : xmlTextReader) (e : String × PackageMetadata)
    (hin : e ∈ process_node dump metadata p f o) (hnew : e ∉ metadata) :
    candidate dump p f o = some e := by
  rw [process_node_eq] at hin
  unfold storeCandidate at hin
  cases hc : candidate dump p f o with
  | none => rw [hc] at hin; exact absurd hin hnew
  | some c =>
    obtain ⟨k, v⟩ := c
    rw [hc] at hin
    simp only at hin
    split at hin
    · exact absurd hin hnew
    · rcases List.mem_cons.mp hin with h | h
      · rw [h]
      · exact absurd h hnew

theorem candidate_some (dump : XmlNode → Option String) (p f o : xmlTextReader)
    (k : String) (r : PackageMetadata) (h : candidate dump p f o = some (k, r)) :
    ∃ node href ct, xmlTextReaderExpand p = some node ∧
      (scanChildren ScanState.init node.children).location_href = some href ∧
      (scanChildren ScanState.init node.children).checksum_type = some ct ∧
      (scanChildren ScanState.init node.children).counter = 4 ∧
      k = keyOf href ∧
      r = { time_file := (scanChildren ScanState.init node.children).time_file
            size_package := (scanChildren ScanState.init node.children).size
            location_href := some href
            location_base := (scanChildren ScanState.init node.children).location_base
            checksum_type := some ct
            primary_xml := xmlNodeDump dump (xmlTextReaderExpand p)
            filelists_xml := xmlNodeDump dump (xmlTextReaderExpand f)
            other_xml := xmlNodeDump dump (xmlTextReaderExpand o) } ∧
      (xmlNodeDump dump (xmlTextReaderExpand p)).isSome ∧
      (xmlNodeDump dump (xmlTextReaderExpand f)).isSome ∧
      (xmlNodeDump dump (xmlTextReaderExpand o)).isSome := by
  unfold candidate at h
  split at h
  · simp at h
  · split at h
    · rename_i node a b c h0 h1 h2 h3
      split at h
      · rename_i href ct h4 h5
        split at h
        · simp at h
        · rename_i h6
          simp only [Option.some.injEq, Prod.mk.injEq] at h
          refine ⟨node, href, ct, h0, h4, h5, by simpa using h6, h.1.symm, ?_, ?_, ?_, ?_⟩
          · rw [← h.2, h1, h2, h3]
          · simp [h1]
          · simp [h2]
          · simp [h3]
      · simp at h
    · simp at h

theorem parseLoop_invariant (dump : XmlNode → Option String) (P : GHashTable → Prop)
    (hstep : ∀ h p f o, P h → P (process_node dump h p f o)) (fuel : Nat) :
    ∀ st : LoopState, P st.hashtable → P (parseLoop dump fuel st).hashtable := by
  induction fuel with
  | zero => intro st h; exact h
  | succ n ih =>
    intro st h
    simp only [parseLoop]
    split
    · exact ih _ (hstep _ _ _ _ h)
    · exact h

theorem parse_invariant (dump : XmlNode → Option String) (P : GHashTable → Prop)
    (hstep : ∀ h p f o, P h → P (process_node dump h p f o)) (metadata : GHashTable)
    (p f o : xmlTextReader) (h : P metadata) :
    P (parse_xml_metadata dump metadata p f o).hashtable := by
  unfold parse_xml_metadata
  simp only []
  repeat' split
  all_goals first
    | exact h
    | exact parseLoop_invariant dump P hstep _ _ h

/-- C6: the key under which `process_node` stores a record is the basename of the record's
location href: the part after the last `/`, or the whole href when it has no `/`. The key
contains no `/`, and the href is a prefix ending in `/` followed by the key. -/
theorem process_node_key_is_basename (dump : XmlNode → Option String)
    (metadata : GHashTable) (pri_reader fil_reader oth_reader : xmlTextReader)
    (key : String) (record : PackageMetadata)
    (hin : (key, record) ∈ process_node dump metadata pri_reader fil_reader oth_reader)
    (hnew : (key, record) ∉ metadata) :
    ∃ href, record.location_href = some href ∧ key = keyOf href ∧ '/' ∉ key.data ∧
      ('/' ∉ href.data → key = href) ∧
      ('/' ∈ href.data → ∃ q : String, href = q ++ "/" ++ key) := by
  have hc := mem_process_node dump metadata _ _ _ _ hin hnew
  obtain ⟨node, href, ct, -, -, -, -, hk, hr, -⟩ := candidate_some dump _ _ _ _ _ hc
  refine ⟨href, by rw [hr], hk, ?_⟩
  rw [hk]
  exact keyOf_spec href

theorem process_node_key_is_basename_witness :
    (("foo.rpm", sampleRecord "a/b/foo.rpm") ∈
        process_node sampleDump [] (readerOn (samplePrimary "a/b/foo.rpm") [] [])
          (readerOn samplePackage [] []) (readerOn samplePackage [] [])) ∧
      (("foo.rpm", sampleRecord "a/b/foo.rpm") ∉ ([] : GHashTable)) ∧
      ∃ href, (sampleRecord "a/b/foo.rpm").location_href = some href ∧
        "foo.rpm" = keyOf href ∧ '/' ∉ ("foo.rpm" : String).data ∧
        ('/' ∉ href.data → "foo.rpm" = href) ∧
        ('/' ∈ href.data → ∃ q : String, href = q ++ "/" ++ "foo.rpm") :=
  ⟨by decide, by simp,
    process_node_key_is_basename sampleDump [] (readerOn (samplePrimary "a/b/foo.rpm") [] [])
      (readerOn samplePackage [] []) (readerOn samplePackage [] []) "foo.rpm"
      (sampleRecord "a/b/foo.rpm") (by decide) (by simp)⟩

/-- C7: record atomicity. When every record of the table has its three fragments, so has
every record of the table after `process_node` and after `parse_xml_metadata`; and when
the serialization of one of the three current nodes fails, `process_node` leaves the table
as it is. -/
theorem process_node_atomic (dump : XmlNode → Option String) (metadata : GHashTable)
    (pri_reader fil_reader oth_reader : xmlTextReader)
    (hinv : ∀ e ∈ metadata, HasAllFragments e.2) :
    (∀ e ∈ process_node dump metadata pri_reader fil_reader oth_reader,
        HasAllFragments e.2) ∧
      (∀ e ∈ (parse_xml_metadata dump metadata pri_reader fil_reader oth_reader).hashtable,
        HasAllFragments e.2) ∧
      ((xmlNodeDump dump (xmlTextReaderExpand pri_reader) = none ∨
          xmlNodeDump dump (xmlTextReaderExpand fil_reader) = none ∨
          xmlNodeDump dump (xmlTextReaderExpand oth_reader) = none) →
        process_node dump metadata pri_reader fil_reader oth_reader = metadata) := by
  have hstep : ∀ (h : GHashTable) (p f o : xmlTextReader),
      (∀ e ∈ h, HasAllFragments e.2) → ∀ e ∈ process_node dump h p f o,
        HasAllFragments e.2 := by
    intro h p f o hh e he
    by_cases hmem : e ∈ h
    · exact hh e hmem
    · have hc := mem_process_node dump h p f o e he hmem
      obtain ⟨k, r⟩ := e
      obtain ⟨node, href, ct, -, -, -, -, -, hr, h1, h2, h3⟩ := candidate_some dump _ _ _ _ _ hc
      simp only [HasAllFragments, hr]
      exact ⟨h1, h2, h3⟩
  refine ⟨hstep _ _ _ _ hinv, ?_, ?_⟩
  · exact parse_invariant dump (fun h => ∀ e ∈ h, HasAllFragments e.2) hstep _ _ _ _ hinv
  · intro hfail
    rw [process_node_eq]
    have : candidate dump pri_reader fil_reader oth_reader = none := by
      cases hc : candidate dump pri_reader fil_reader oth_reader with
      | none => rfl
      | some c =>
        obtain ⟨k, r⟩ := c
        obtain ⟨node, href, ct, -, -, -, -, -, -, h1, h2, h3⟩ := candidate_some dump _ _ _ _ _ hc
        rcases hfail with h | h | h
        · rw [h] at h1; simp at h1
        · rw [h] at h2; simp at h2
        · rw [h] at h3; simp at h3
    rw [this]
    rfl

theorem process_node_atomic_witness :
    (∀ e ∈ [("bar.rpm", sampleRecord "x/bar.rpm")], HasAllFragments e.2) ∧
      (∀ e ∈ process_node sampleDump [("bar.rpm", sampleRecord "x/bar.rpm")]
          (readerOn (samplePrimary "a/b/foo.rpm") [] []) (readerOn samplePackage [] [])
          (readerOn samplePackage [] []),
        HasAllFragments e.2) ∧
      (∀ e ∈ (parse_xml_metadata sampleDump [("bar.rpm", sampleRecord "x/bar.rpm")]
          (readerOn (samplePrimary "a/b/foo.rpm") [] []) (readerOn samplePackage [] [])
          (readerOn samplePackage [] [])).hashtable,
        HasAllFragments e.2) ∧
      ((xmlNodeDump sampleDump
            (xmlTextReaderExpand (readerOn (samplePrimary "a/b/foo.rpm") [] [])) = none ∨
          xmlNodeDump sampleDump (xmlTextReaderExpand (readerOn samplePackage [] [])) = none ∨
          xmlNodeDump sampleDump (xmlTextReaderExpand (readerOn samplePackage [] [])) = none) →
        process_node sampleDump [("bar.rpm", sampleRecord "x/bar.rpm")]
          (readerOn (samplePrimary "a/b/foo.rpm") [] []) (readerOn samplePackage [] [])
          (readerOn samplePackage [] []) = [("bar.rpm", sampleRecord "x/bar.rpm")]) :=
  ⟨by simp [HasAllFragments, sampleRecord],
    process_node_atomic sampleDump [("bar.rpm", sampleRecord "x/bar.rpm")]
      (readerOn (samplePrimary "a/b/foo.rpm") [] []) (readerOn samplePackage [] [])
      (readerOn samplePackage [] []) (by simp [HasAllFragments, sampleRecord])⟩

/-! ## Supporting lemmas: the child scan -/

theorem g_strcmp0_eq_zero (a b : Option String) : g_strcmp0 a b = 0 ↔ a = b := by
  unfold g_strcmp0
  split <;> simp_all

theorem scanElement_counter (s : ScanState) (c : XmlNode) (hc : c.isElement = true) :
    (scanElement s c).counter = s.counter +
      ((if isNamed "location" c then 1 else 0) + (if isNamed "checksum" c then 1 else 0) +
        (if isNamed "size" c then 1 else 0) + (if isNamed "time" c then 1 else 0)) := by
  simp only [scanElement, g_strcmp0_eq_zero, Option.some.injEq, isNamed, hc, Bool.true_and,
    beq_iff_eq]
  by_cases h1 : c.name = "location"
  · simp [h1]
  · by_cases h2 : c.name = "checksum"
    · simp [h2]
    · by_cases h3 : c.name = "size"
      · simp [h3]
      · by_cases h4 : c.name = "time"
        · simp [h4]
        · simp [h1, h2, h3, h4]

theorem scanElement_href (s : ScanState) (c : XmlNode) (hc : c.isElement = true) :
    (scanElement s c).location_href =
      if isNamed "location" c then xmlGetProp c "href" else s.location_href := by
  simp only [scanElement, g_strcmp0_eq_zero, Option.some.injEq, isNamed, hc, Bool.true_and,
    beq_iff_eq]
  by_cases h1 : c.name = "location"
  · simp [h1]
  · simp only [h1, if_false]
    split_ifs <;> rfl

theorem scanElement_type (s : ScanState) (c : XmlNode) (hc : c.isElement = true) :
    (scanElement s c).checksum_type =
      if isNamed "checksum" c then xmlGetProp c "type" else s.checksum_type := by
  simp only [scanElement, g_strcmp0_eq_zero, Option.some.injEq, isNamed, hc, Bool.true_and,
    beq_iff_eq]
  by_cases h1 : c.name = "location"
  · simp [h1]
  · by_cases h2 : c.name = "checksum"
    · simp [h2]
    · simp only [h1, h2, if_false]
      split_ifs <;> rfl

theorem isNamed_of_not_element (name : String) (c : XmlNode) (hc : c.isElement = false) :
    isNamed name c = false := by
  simp [isNamed, hc]

theorem fieldCount_cons (c : XmlNode) (l : List XmlNode) :
    fieldCount (c :: l) = fieldCount l +
      ((if isNamed "location" c then 1 else 0) + (if isNamed "checksum" c then 1 else 0) +
        (if isNamed "size" c then 1 else 0) + (if isNamed "time" c then 1 else 0)) := by
  simp only [fieldCount, List.countP_cons]
  omega

theorem scanChildren_complete (h ct : String) (l : List XmlNode) :
    ∀ s : ScanState, s.counter + fieldCount l = 4 → 1 ≤ fieldCount l →
      (∀ c ∈ l, isNamed "location" c = true → xmlGetProp c "href" = some h) →
      (∀ c ∈ l, isNamed "checksum" c = true → xmlGetProp c "type" = some ct) →
      (scanChildren s l).counter = 4 ∧
        (scanChildren s l).location_href =
          (if 0 < l.countP (isNamed "location") then some h else s.location_href) ∧
        (scanChildren s l).checksum_type =
          (if 0 < l.countP (isNamed "checksum") then some ct else s.checksum_type) := by
  induction l with
  | nil => intro s _ h1; simp [fieldCount] at h1
  | cons c l ih =>
    intro s hsum hpos hloc hchk
    have hloc1 : ∀ c ∈ l, isNamed "location" c = true → xmlGetProp c "href" = some h :=
      fun x hx => hloc x (List.mem_cons_of_mem _ hx)
    have hchk1 : ∀ c ∈ l, isNamed "checksum" c = true → xmlGetProp c "type" = some ct :=
      fun x hx => hchk x (List.mem_cons_of_mem _ hx)
    cases hc : c.isElement with
    | false =>
      have hcount : fieldCount (c :: l) = fieldCount l := by
        simp [fieldCount_cons, isNamed_of_not_element _ c hc]
      rw [hcount] at hsum hpos
      simp only [scanChildren, hc, Bool.false_eq_true, if_false, List.countP_cons,
        isNamed_of_not_element _ c hc, add_zero]
      exact ih s hsum hpos hloc1 hchk1
    | true =>
      have hcnt := scanElement_counter s c hc
      have hhref := scanElement_href s c hc
      have htype := scanElement_type s c hc
      rw [fieldCount_cons] at hsum hpos
      simp only [scanChildren, hc, if_true]
      by_cases hstop : (scanElement s c).counter = 4
      · simp only [hstop, if_true, List.countP_cons]
        have hzero : fieldCount l = 0 := by omega
        have hl0 : l.countP (isNamed "location") = 0 := by
          simp only [fieldCount] at hzero; omega
        have hc0 : l.countP (isNamed "checksum") = 0 := by
          simp only [fieldCount] at hzero; omega
        refine ⟨trivial, ?_, ?_⟩
        · rw [hhref, hl0]
          cases hn : isNamed "location" c with
          | false => simp
          | true => simp [hloc c (List.mem_cons_self _ _) hn]
        · rw [htype, hc0]
          cases hn : isNamed "checksum" c with
          | false => simp
          | true => simp [hchk c (List.mem_cons_self _ _) hn]
      · simp only [hstop, if_false, List.countP_cons]
        obtain ⟨h1, h2, h3⟩ := ih (scanElement s c) (by omega) (by omega) hloc1 hchk1
        refine ⟨h1, ?_, ?_⟩
        · rw [h2, hhref]
          cases hn : isNamed "location" c with
          | false => simp
          | true =>
            simp only [if_true, hloc c (List.mem_cons_self _ _) hn]
            split_ifs <;> first | rfl | omega
        · rw [h3, htype]
          cases hn : isNamed "checksum" c with
          | false => simp
          | true =>
            simp only [if_true, hchk c (List.mem_cons_self _ _) hn]
            split_ifs <;> first | rfl | omega

theorem find_of_countP_one {p : XmlNode → Bool} {l : List XmlNode} (h : l.countP p = 1) :
    ∃ x, l.find? p = some x ∧ ∀ c ∈ l, p c = true → c = x := by
  induction l with
  | nil => simp at h
  | cons c l ih =>
    rw [List.countP_cons] at h
    cases hp : p c with
    | true =>
      simp only [hp, if_true] at h
      have h0 : l.countP p = 0 := by omega
      refine ⟨c, by simp [List.find?_cons, hp], ?_⟩
      intro x hx hpx
      rcases List.mem_cons.mp hx with rfl | hx
      · rfl
      · have := List.countP_eq_zero.mp h0 x hx
        simp [hpx] at this
    | false =>
      simp only [hp, Bool.false_eq_true, if_false, add_zero] at h
      obtain ⟨x, hx1, hx2⟩ := ih h
      refine ⟨x, by simp [List.find?_cons, hp, hx1], ?_⟩
      intro y hy hpy
      rcases List.mem_cons.mp hy with rfl | hy
      · simp [hp] at hpy
      · exact hx2 y hy hpy

theorem scanChildren_wellFormed {node : XmlNode} (hwf : WellFormedPrimary node) :
    (scanChildren ScanState.init node.children).counter = 4 ∧
      (scanChildren ScanState.init node.children).location_href = hrefOf node ∧
      (scanChildren ScanState.init node.children).checksum_type = checksumTypeOf node ∧
      (hrefOf node).isSome ∧ (checksumTypeOf node).isSome := by
  obtain ⟨h1, h2, h3, h4, h5, h6⟩ := hwf
  obtain ⟨x, hx1, hx2⟩ := find_of_countP_one h1
  obtain ⟨y, hy1, hy2⟩ := find_of_countP_one h2
  obtain ⟨h, hh⟩ := Option.isSome_iff_exists.mp h5
  obtain ⟨ct, hct⟩ := Option.isSome_iff_exists.mp h6
  have hxh : xmlGetProp x "href" = some h := by
    simpa [hrefOf, hx1] using hh
  have hyc : xmlGetProp y "type" = some ct := by
    simpa [checksumTypeOf, hy1] using hct
  obtain ⟨r1, r2, r3⟩ := scanChildren_complete h ct node.children ScanState.init
    (by simp [fieldCount, h1, h2, h3, h4, ScanState.init])
    (by simp [fieldCount, h1, h2, h3, h4])
    (fun c hc hn => by rw [hx2 c hc hn]; exact hxh)
    (fun c hc hn => by rw [hy2 c hc hn]; exact hyc)
  refine ⟨r1, ?_, ?_, h5, h6⟩
  · rw [r2, h1, hh]; simp
  · rw [r3, h2, hct]; simp

/-! ## Supporting lemmas: folding `process_node` over the records -/

theorem processTriple_eq (dump : XmlNode → Option String) (metadata : GHashTable)
    (t : XmlNode × XmlNode × XmlNode) :
    processTriple dump metadata t = storeCandidate metadata (candidateOf dump t) := by
  simp only [processTriple, process_node_eq, candidateOf]

theorem processAll_eq (dump : XmlNode → Option String) (metadata : GHashTable)
    (ps fs os : List XmlNode) :
    processAll dump metadata ps fs os =
      ((ps.zip (fs.zip os)).map (candidateOf dump)).foldl storeCandidate metadata := by
  simp only [processAll, List.foldl_map]
  congr 1
  funext h t
  exact processTriple_eq dump h t

theorem lookup_eq_entriesFor (t : GHashTable) (key : String) :
    g_hash_table_lookup t key = ((entriesFor t key).head?).map Prod.snd := by
  induction t with
  | nil => rfl
  | cons e es ih =>
    obtain ⟨k, v⟩ := e
    simp only [g_hash_table_lookup, List.lookup_cons, entriesFor, List.filter_cons] at ih ⊢
    by_cases hk : key = k
    · subst hk; simp
    · have hk2 : ¬ k = key := fun h => hk h.symm
      simp only [beq_iff_eq, hk, hk2, if_false]
      split
      · rename_i h; simp [hk] at h
      · exact ih

theorem lookup_eq_none_iff (t : GHashTable) (key : String) :
    g_hash_table_lookup t key = none ↔ entriesFor t key = [] := by
  rw [lookup_eq_entriesFor]
  cases entriesFor t key <;> simp

theorem entriesFor_storeCandidate (t : GHashTable) (c : Option (String × PackageMetadata))
    (key : String) :
    entriesFor (storeCandidate t c) key =
      if entriesFor t key = [] then
        match c with
        | some (k, v) => if k = key then [(k, v)] else []
        | none => []
      else entriesFor t key := by
  cases c with
  | none => simp only [storeCandidate]; split_ifs with h <;> simp [h]
  | some c =>
    obtain ⟨k, v⟩ := c
    simp only [storeCandidate]
    by_cases hk : k = key
    · subst hk
      cases hl : g_hash_table_lookup t k with
      | none =>
        have h0 := (lookup_eq_none_iff t k).mp hl
        rw [if_pos h0]
        simp only [Option.isSome_none, Bool.false_eq_true, if_false, if_true]
        simp only [entriesFor, List.filter_cons, beq_self_eq_true, if_true] at h0 ⊢
        rw [h0]
      | some v0 =>
        have : entriesFor t k ≠ [] := fun h => by
          rw [(lookup_eq_none_iff t k).mpr h] at hl; simp at hl
        simp [this]
    · split_ifs with h1 h2 h2
      · simp [h2]
      · rfl
      · simp [entriesFor, hk, List.filter_cons]
        simpa [entriesFor] using h2
      · simp [entriesFor, hk, List.filter_cons]

theorem foldl_store_of_entries (cs : List (Option (String × PackageMetadata)))
    (key : String) :
    ∀ t : GHashTable, entriesFor t key ≠ [] →
      entriesFor (cs.foldl storeCandidate t) key = entriesFor t key := by
  induction cs with
  | nil => intro t _; rfl
  | cons c cs ih =>
    intro t ht
    have h1 : entriesFor (storeCandidate t c) key = entriesFor t key := by
      rw [entriesFor_storeCandidate, if_neg ht]
    rw [List.foldl_cons, ih _ (by rw [h1]; exact ht), h1]

theorem foldl_store_of_no_key (cs : List (Option (String × PackageMetadata)))
    (key : String) (hcs : ∀ c ∈ cs, ∀ e, c = some e → e.1 ≠ key) :
    ∀ t : GHashTable, entriesFor t key = [] →
      entriesFor (cs.foldl storeCandidate t) key = [] := by
  induction cs with
  | nil => intro t ht; exact ht
  | cons c cs ih =>
    intro t ht
    rw [List.foldl_cons]
    apply ih (fun c1 h1 => hcs c1 (List.mem_cons_of_mem _ h1))
    rw [entriesFor_storeCandidate, if_pos ht]
    cases c with
    | none => rfl
    | some e =>
      obtain ⟨k, v⟩ := e
      have := hcs (some (k, v)) (List.mem_cons_self _ _) (k, v) rfl
      simp only at this
      simp [this]

theorem foldl_store_distinct (cands : List (String × PackageMetadata)) :
    ∀ t : GHashTable, (cands.map Prod.fst).Nodup →
      (∀ c ∈ cands, g_hash_table_lookup t c.1 = none) →
      (cands.map some).foldl storeCandidate t = cands.reverse ++ t := by
  induction cands with
  | nil => intro t _ _; rfl
  | cons c cands ih =>
    intro t hnd hnew
    obtain ⟨k, v⟩ := c
    simp only [List.map_cons, List.nodup_cons] at hnd
    have hk : g_hash_table_lookup t k = none := hnew (k, v) (List.mem_cons_self _ _)
    have hstep : storeCandidate t (some (k, v)) = (k, v) :: t := by
      simp [storeCandidate, hk]
    simp only [List.map_cons, List.foldl_cons, hstep]
    rw [ih ((k, v) :: t) hnd.2]
    · simp
    · intro c hc
      have hne : c.1 ≠ k := fun h => hnd.1 (by rw [← h]; exact List.mem_map_of_mem _ hc)
      have := hnew c (List.mem_cons_of_mem _ hc)
      simp only [g_hash_table_lookup, List.lookup_cons] at this ⊢
      have hb : (c.1 == k) = false := by simpa using hne
      rw [hb]
      exact this

theorem nodeType_readerOn {n : XmlNode} (h : n.isElement = true) (cs : List XmlNode)
    (tail : List ReaderNode) : xmlTextReaderNodeType (readerOn n cs tail) = 1 := by
  cases n <;> simp_all [xmlTextReaderNodeType, readerOn, XmlNode.isElement]

theorem isElement_of_isNamed {name : String} {n : XmlNode} (h : isNamed name n = true) :
    n.isElement = true := by
  simp only [isNamed, Bool.and_eq_true] at h
  exact h.1

theorem WellFormedPrimary.isElement {p : XmlNode} (h : WellFormedPrimary p) :
    p.isElement = true := by
  cases p with
  | element n a cs => rfl
  | emptyElement n a => rfl
  | text s => have := h.1; simp [XmlNode.children] at this
  | comment s => have := h.1; simp [XmlNode.children] at this

theorem candidateOf_wellFormed (dump : XmlNode → Option String) (p f o : XmlNode)
    (hwf : WellFormedPrimary p) (hf : f.isElement = true) (ho : o.isElement = true)
    (a b c : String) (ha : dump p = some a) (hb : dump f = some b) (hc : dump o = some c) :
    ∃ k v, basenameOf p = some k ∧ candidateOf dump (p, f, o) = some (k, v) ∧
      v.location_href = hrefOf p ∧ v.primary_xml = some a ∧ v.filelists_xml = some b ∧
      v.other_xml = some c := by
  obtain ⟨h1, h2, h3, h4, h5⟩ := scanChildren_wellFormed hwf
  obtain ⟨href, hh⟩ := Option.isSome_iff_exists.mp h4
  obtain ⟨ct, hct⟩ := Option.isSome_iff_exists.mp h5
  rw [hh] at h2
  rw [hct] at h3
  have hty : ¬ (xmlTextReaderNodeType (readerOn p [] []) ≠ 1 ∨
      xmlTextReaderNodeType (readerOn f [] []) ≠ 1 ∨
      xmlTextReaderNodeType (readerOn o [] []) ≠ 1) := by
    simp [nodeType_readerOn hwf.isElement, nodeType_readerOn hf, nodeType_readerOn ho]
  refine ⟨keyOf href,
    { time_file := (scanChildren ScanState.init p.children).time_file
      size_package := (scanChildren ScanState.init p.children).size
      location_href := some href
      location_base := (scanChildren ScanState.init p.children).location_base
      checksum_type := some ct
      primary_xml := some a
      filelists_xml := some b
      other_xml := some c }, by simp [basenameOf, hh], ?_, ?_⟩
  · simp only [candidateOf, candidate, if_neg hty]
    simp only [xmlTextReaderExpand, readerOn, Option.map, xmlNodeDump, Option.bind, ha, hb, hc,
      h1, h2, h3, ne_eq, not_true_eq_false, if_false]
  · simp [hh]

theorem processAll_cons (dump : XmlNode → Option String) (metadata : GHashTable)
    (p f o : XmlNode) (ps fs os : List XmlNode) :
    processAll dump metadata (p :: ps) (f :: fs) (o :: os) =
      processAll dump (processTriple dump metadata (p, f, o)) ps fs os := by
  simp [processAll]

theorem processAll_wellFormed (dump : XmlNode → Option String) (ps : List XmlNode) :
    ∀ (fs os : List XmlNode) (metadata : GHashTable),
      fs.length = ps.length → os.length = ps.length →
      (∀ p ∈ ps, WellFormedPrimary p) →
      (∀ n ∈ fs ++ os, n.isElement = true) →
      (∀ n ∈ ps ++ fs ++ os, ∃ s, dump n = some s ∧ s ≠ "") →
      (ps.map basenameOf).Nodup →
      (∀ p ∈ ps, ∀ k, basenameOf p = some k → g_hash_table_lookup metadata k = none) →
      (processAll dump metadata ps fs os).length = metadata.length + ps.length ∧
        ∀ e ∈ processAll dump metadata ps fs os, e ∈ metadata ∨ HasNonemptyFragments e.2 := by
  induction ps with
  | nil =>
    intro fs os metadata _ _ _ _ _ _ _
    simp only [processAll, List.zip_nil_left, List.foldl_nil, List.length_nil, add_zero,
      true_and]
    exact fun e he => Or.inl he
  | cons p ps ih =>
    intro fs os metadata hfl hol hwf hel hdump hnd hnew
    obtain ⟨f, fs, rfl⟩ : ∃ f fs1, fs = f :: fs1 := by
      cases fs with
      | nil => simp at hfl
      | cons f fs1 => exact ⟨f, fs1, rfl⟩
    obtain ⟨o, os, rfl⟩ : ∃ o os1, os = o :: os1 := by
      cases os with
      | nil => simp at hol
      | cons o os1 => exact ⟨o, os1, rfl⟩
    obtain ⟨a, ha, ha0⟩ := hdump p (by simp)
    obtain ⟨b, hb, hb0⟩ := hdump f (by simp)
    obtain ⟨c, hc, hc0⟩ := hdump o (by simp)
    obtain ⟨k, v, hk, hcand, -, hv1, hv2, hv3⟩ :=
      candidateOf_wellFormed dump p f o (hwf p (List.mem_cons_self _ _))
        (hel f (by simp)) (hel o (by simp)) a b c ha hb hc
    have hstep : processTriple dump metadata (p, f, o) = (k, v) :: metadata := by
      rw [processTriple_eq, hcand]
      simp [storeCandidate, hnew p (List.mem_cons_self _ _) k hk]
    rw [processAll_cons, hstep]
    simp only [List.map_cons, List.nodup_cons] at hnd
    obtain ⟨h1, h2⟩ := ih fs os ((k, v) :: metadata) (by simpa using hfl) (by simpa using hol)
      (fun q hq => hwf q (List.mem_cons_of_mem _ hq))
      (fun n hn => hel n (by
        rcases List.mem_append.mp hn with h | h
        · exact List.mem_append.mpr (Or.inl (List.mem_cons_of_mem _ h))
        · exact List.mem_append.mpr (Or.inr (List.mem_cons_of_mem _ h))))
      (fun n hn => hdump n (by
        simp only [List.mem_append, List.mem_cons] at hn ⊢
        tauto))
      hnd.2
      (fun q hq k1 hk1 => by
        have hne : k1 ≠ k := by
          intro h
          apply hnd.1
          rw [hk, ← h, ← hk1]
          exact List.mem_map_of_mem _ hq
        have := hnew q (List.mem_cons_of_mem _ hq) k1 hk1
        simp only [g_hash_table_lookup, List.lookup_cons] at this ⊢
        have hb1 : (k1 == k) = false := by simpa using hne
        rw [hb1]
        exact this)
    refine ⟨by simp only [List.length_cons] at h1 ⊢; omega, ?_⟩
    intro e he
    rcases h2 e he with h | h
    · rcases List.mem_cons.mp h with h | h
      · right
        rw [h]
        exact ⟨⟨a, hv1, ha0⟩, ⟨b, hv2, hb0⟩, ⟨c, hv3, hc0⟩⟩
      · exact Or.inl h
    · exact Or.inr h

/-- C1 (as amended): for every `N ≥ 1` and every three documents that consist of one root
element each (`metadata`, `filelists` and `otherdata`, nothing before the root) whose
children are exactly `N` `package` elements and no other node, the primary ones complete
and with pairwise distinct basenames, and the serialization of each package element giving
a non-empty string, extraction into an empty table returns `1` and the table has exactly
`N` entries, each with a non-empty primary, filelists and other fragment. -/
theorem extraction_complete (dump : XmlNode → Option String)
    (ap af ao : List (String × String)) (ps fs os : List XmlNode) (N : Nat)
    (hN : 1 ≤ N) (hps : ps.length = N) (hfs : fs.length = N) (hos : os.length = N)
    (hpkg : ∀ n ∈ ps ++ fs ++ os, isNamed "package" n = true)
    (hwf : ∀ p ∈ ps, WellFormedPrimary p)
    (hdistinct : (ps.map basenameOf).Nodup)
    (hdump : ∀ n ∈ ps ++ fs ++ os, ∃ s, dump n = some s ∧ s ≠ "") :
    (parse_xml_metadata dump new_old_metadata_hashtable
        (xmlReaderForDoc (rootDoc "metadata" ap ps))
        (xmlReaderForDoc (rootDoc "filelists" af fs))
        (xmlReaderForDoc (rootDoc "otherdata" ao os))).ret = 1 ∧
      (parse_xml_metadata dump new_old_metadata_hashtable
        (xmlReaderForDoc (rootDoc "metadata" ap ps))
        (xmlReaderForDoc (rootDoc "filelists" af fs))
        (xmlReaderForDoc (rootDoc "otherdata" ao os))).hashtable.length = N ∧
      ∀ e ∈ (parse_xml_metadata dump new_old_metadata_hashtable
        (xmlReaderForDoc (rootDoc "metadata" ap ps))
        (xmlReaderForDoc (rootDoc "filelists" af fs))
        (xmlReaderForDoc (rootDoc "otherdata" ao os))).hashtable,
        HasNonemptyFragments e.2 := by
  have hhead : ∀ l : List XmlNode, l.length = N → (∀ n ∈ l, isNamed "package" n = true) →
      l.head?.map XmlNode.name = some "package" := by
    intro l hl hn
    cases l with
    | nil => simp at hl; omega
    | cons c cs =>
      have := hn c (List.mem_cons_self _ _)
      simp only [isNamed, Bool.and_eq_true, beq_iff_eq] at this
      simp [this.2]
  obtain ⟨h1, h2⟩ := parse_rootDoc dump new_old_metadata_hashtable ap af ao ps fs os
    (hhead ps hps (fun n hn => hpkg n (by simp [hn])))
    (hhead fs hfs (fun n hn => hpkg n (by simp [hn])))
    (hhead os hos (fun n hn => hpkg n (by simp [hn])))
  obtain ⟨h3, h4⟩ := processAll_wellFormed dump ps fs os new_old_metadata_hashtable
    (by rw [hfs, hps]) (by rw [hos, hps]) hwf
    (fun n hn => isElement_of_isNamed (hpkg n (by
      simp only [List.mem_append] at hn ⊢
      tauto)))
    hdump hdistinct (fun _ _ _ _ => rfl)
  refine ⟨h1, ?_, ?_⟩
  · rw [h2, h3, hps]
    simp [new_old_metadata_hashtable]
  · intro e he
    rw [h2] at he
    rcases h4 e he with h | h
    · simp [new_old_metadata_hashtable] at h
    · exact h

theorem sampleDump_nonempty (n : XmlNode) : ∃ s, sampleDump n = some s ∧ s ≠ "" := by
  refine ⟨_, rfl, fun h => ?_⟩
  have := congrArg String.data h
  simp [String.data_append] at this

theorem wellFormed_samplePrimary (href : String) : WellFormedPrimary (samplePrimary href) := by
  simp [WellFormedPrimary, samplePrimary, XmlNode.children, isNamed, XmlNode.isElement,
    XmlNode.name, hrefOf, checksumTypeOf, xmlGetProp, XmlNode.attrs, List.countP_cons,
    List.find?_cons, List.lookup]

theorem extraction_complete_witness :
    1 ≤ 2 ∧ samplePrimaries.length = 2 ∧ samplePackages.length = 2 ∧
      (∀ n ∈ samplePrimaries ++ samplePackages ++ samplePackages,
        isNamed "package" n = true) ∧
      (∀ p ∈ samplePrimaries, WellFormedPrimary p) ∧
      (samplePrimaries.map basenameOf).Nodup ∧
      (parse_xml_metadata sampleDump new_old_metadata_hashtable
        (xmlReaderForDoc (rootDoc "metadata" [] samplePrimaries))
        (xmlReaderForDoc (rootDoc "filelists" [] samplePackages))
        (xmlReaderForDoc (rootDoc "otherdata" [] samplePackages))).ret = 1 ∧
      (parse_xml_metadata sampleDump new_old_metadata_hashtable
        (xmlReaderForDoc (rootDoc "metadata" [] samplePrimaries))
        (xmlReaderForDoc (rootDoc "filelists" [] samplePackages))
        (xmlReaderForDoc (rootDoc "otherdata" [] samplePackages))).hashtable.length = 2 ∧
      ∀ e ∈ (parse_xml_metadata sampleDump new_old_metadata_hashtable
        (xmlReaderForDoc (rootDoc "metadata" [] samplePrimaries))
        (xmlReaderForDoc (rootDoc "filelists" [] samplePackages))
        (xmlReaderForDoc (rootDoc "otherdata" [] samplePackages))).hashtable,
        HasNonemptyFragments e.2 :=
  ⟨by decide, rfl, rfl, by decide,
    fun p hp => by
      simp only [samplePrimaries, List.mem_cons, List.mem_singleton, List.not_mem_nil,
        or_false] at hp
      rcases hp with rfl | rfl <;> exact wellFormed_samplePrimary _,
    by decide,
    extraction_complete sampleDump [] [] [] samplePrimaries samplePackages samplePackages 2
      (by decide) rfl rfl rfl (by decide)
      (fun p hp => by
        simp only [samplePrimaries, List.mem_cons, List.mem_singleton, List.not_mem_nil,
          or_false] at hp
        rcases hp with rfl | rfl <;> exact wellFormed_samplePrimary _)
      (by decide) (fun n _ => sampleDump_nonempty n)⟩

/-- C1 as stated fails on the code in three ways. With `N = 0` (three documents whose roots
have no `package` child) `parse_xml_metadata` returns `0`: the check of the first
`package` element fails. With `N = 2` and the two primary records `a/foo.rpm` and
`b/foo.rpm`, both complete, the table ends with one entry, not two. With `N = 3` complete
records of different basenames and a comment after the first record of the filelists
document, the table ends with two entries and has none for `two.rpm`: the comment takes the
place of a record in the lockstep. -/
theorem extraction_complete_counterexample :
    (parse_xml_metadata sampleDump new_old_metadata_hashtable
        (xmlReaderForDoc (rootDoc "metadata" [] []))
        (xmlReaderForDoc (rootDoc "filelists" [] []))
        (xmlReaderForDoc (rootDoc "otherdata" [] []))).ret = 0 ∧
      ((∀ p ∈ duplicatePrimaries, WellFormedPrimary p) ∧ duplicatePrimaries.length = 2 ∧
        (parse_xml_metadata sampleDump new_old_metadata_hashtable
          (xmlReaderForDoc (rootDoc "metadata" [] duplicatePrimaries))
          (xmlReaderForDoc (rootDoc "filelists" [] samplePackages))
          (xmlReaderForDoc (rootDoc "otherdata" [] samplePackages))).hashtable.length = 1) ∧
      ((∀ p ∈ distinctPrimaries, WellFormedPrimary p) ∧
        (distinctPrimaries.map basenameOf).Nodup ∧
        (distinctPrimaries.filter (isNamed "package")).length = 3 ∧
        (commentedPackages.filter (isNamed "package")).length = 3 ∧
        (threePackages.filter (isNamed "package")).length = 3 ∧
        (parse_xml_metadata sampleDump new_old_metadata_hashtable
          (xmlReaderForDoc (rootDoc "metadata" [] distinctPrimaries))
          (xmlReaderForDoc (rootDoc "filelists" [] commentedPackages))
          (xmlReaderForDoc (rootDoc "otherdata" [] threePackages))).ret = 1 ∧
        (parse_xml_metadata sampleDump new_old_metadata_hashtable
          (xmlReaderForDoc (rootDoc "metadata" [] distinctPrimaries))
          (xmlReaderForDoc (rootDoc "filelists" [] commentedPackages))
          (xmlReaderForDoc (rootDoc "otherdata" [] threePackages))).hashtable.length = 2 ∧
        g_hash_table_lookup
          (parse_xml_metadata sampleDump new_old_metadata_hashtable
            (xmlReaderForDoc (rootDoc "metadata" [] distinctPrimaries))
            (xmlReaderForDoc (rootDoc "filelists" [] commentedPackages))
            (xmlReaderForDoc (rootDoc "otherdata" [] threePackages))).hashtable
          "two.rpm" = none) :=
  ⟨by decide,
    ⟨fun p hp => by
      simp only [duplicatePrimaries, List.mem_cons, List.mem_singleton, List.not_mem_nil,
        or_false] at hp
      rcases hp with rfl | rfl <;> exact wellFormed_samplePrimary _,
    rfl, by decide⟩,
    fun p hp => by
      simp only [distinctPrimaries, List.mem_cons, List.mem_singleton, List.not_mem_nil,
        or_false] at hp
      rcases hp with rfl | rfl | rfl <;> exact wellFormed_samplePrimary _,
    by decide, by decide, by decide, by decide, by decide, by decide, by decide⟩

theorem split_at_index {α : Type} (l : List α) :
    ∀ (i : Nat) (x : α), l[i]? = some x →
      ∃ pre post, l = pre ++ x :: post ∧ pre.length = i := by
  induction l with
  | nil => intro i x h; simp at h
  | cons a l ih =>
    intro i x h
    cases i with
    | zero =>
      simp only [List.getElem?_cons_zero, Option.some.injEq] at h
      exact ⟨[], l, by simp [h], rfl⟩
    | succ n =>
      rw [List.getElem?_cons_succ] at h
      obtain ⟨pre, post, h1, h2⟩ := ih n x h
      exact ⟨a :: pre, post, by simp [h1], by simp [h2]⟩

/-- C2: duplicate basenames are first-write-wins. Take three documents and a key that is
not in the table. When the records at position `i` resolve to that key and no earlier
position does, then after extraction the table has exactly one entry under the key, it is
the record built at position `i`, a lookup returns it, and no other record (such as the one
of a later position with the same basename) is stored under the key. In general
`process_node` leaves the table as it is whenever the key of its candidate is already
present. -/
theorem duplicate_basename_first_wins (dump : XmlNode → Option String)
    (metadata : GHashTable) (ap af ao : List (String × String)) (ps fs os : List XmlNode)
    (i : Nat) (ti : XmlNode × XmlNode × XmlNode) (key : String) (first : PackageMetadata)
    (hp : ps.head?.map XmlNode.name = some "package")
    (hf : fs.head?.map XmlNode.name = some "package")
    (ho : os.head?.map XmlNode.name = some "package")
    (hi : (ps.zip (fs.zip os))[i]? = some ti) (hci : candidateOf dump ti = some (key, first))
    (hfirst : ∀ m t e, m < i → (ps.zip (fs.zip os))[m]? = some t →
      candidateOf dump t = some e → e.1 ≠ key)
    (hnew : g_hash_table_lookup metadata key = none) :
    (parse_xml_metadata dump metadata (xmlReaderForDoc (rootDoc "metadata" ap ps))
        (xmlReaderForDoc (rootDoc "filelists" af fs))
        (xmlReaderForDoc (rootDoc "otherdata" ao os))).ret = 1 ∧
      entriesFor (parse_xml_metadata dump metadata (xmlReaderForDoc (rootDoc "metadata" ap ps))
        (xmlReaderForDoc (rootDoc "filelists" af fs))
        (xmlReaderForDoc (rootDoc "otherdata" ao os))).hashtable key = [(key, first)] ∧
      g_hash_table_lookup
        (parse_xml_metadata dump metadata (xmlReaderForDoc (rootDoc "metadata" ap ps))
          (xmlReaderForDoc (rootDoc "filelists" af fs))
          (xmlReaderForDoc (rootDoc "otherdata" ao os))).hashtable key = some first ∧
      (∀ later : PackageMetadata, later ≠ first →
        (key, later) ∉ (parse_xml_metadata dump metadata
          (xmlReaderForDoc (rootDoc "metadata" ap ps))
          (xmlReaderForDoc (rootDoc "filelists" af fs))
          (xmlReaderForDoc (rootDoc "otherdata" ao os))).hashtable) ∧
      ∀ (h : GHashTable) (p f o : xmlTextReader) (v : PackageMetadata),
        candidate dump p f o = some (key, v) → (g_hash_table_lookup h key).isSome = true →
        process_node dump h p f o = h := by
  obtain ⟨h1, h2⟩ := parse_rootDoc dump metadata ap af ao ps fs os hp hf ho
  obtain ⟨pre, post, hsplit, hlen⟩ := split_at_index _ i ti hi
  have hentries : entriesFor (processAll dump metadata ps fs os) key = [(key, first)] := by
    rw [processAll_eq, hsplit, List.map_append, List.foldl_append, List.map_cons,
      List.foldl_cons]
    have hpre : entriesFor ((pre.map (candidateOf dump)).foldl storeCandidate metadata) key
        = [] := by
      apply foldl_store_of_no_key
      · intro c hc e he
        obtain ⟨t, ht, rfl⟩ := List.mem_map.mp hc
        obtain ⟨m, hm⟩ := List.mem_iff_getElem?.mp ht
        have hmlt : m < pre.length := by
          obtain ⟨hlt, -⟩ := List.getElem?_eq_some.mp hm
          exact hlt
        apply hfirst m t e (by omega) _ he
        rw [hsplit, List.getElem?_append_left hmlt]
        exact hm
      · exact (lookup_eq_none_iff _ _).mp hnew
    rw [foldl_store_of_entries]
    · rw [entriesFor_storeCandidate, if_pos hpre, hci]
      simp
    · rw [entriesFor_storeCandidate, if_pos hpre, hci]
      simp
  refine ⟨h1, by rw [h2]; exact hentries, ?_, ?_, ?_⟩
  · rw [h2, lookup_eq_entriesFor, hentries]
    rfl
  · intro later hne hmem
    rw [h2] at hmem
    have : (key, later) ∈ entriesFor (processAll dump metadata ps fs os) key := by
      simp only [entriesFor, List.mem_filter, beq_self_eq_true, and_true]
      exact hmem
    rw [hentries] at this
    simp only [List.mem_singleton, Prod.mk.injEq, true_and] at this
    exact hne this
  · intro h p f o v hc hl
    rw [process_node_eq, hc]
    simp [storeCandidate, hl]

theorem duplicate_basename_first_wins_witness :
    (threePrimaries.zip (threePackages.zip threePackages))[1]? =
        some (samplePrimary "a/foo.rpm", samplePackage, samplePackage) ∧
      candidateOf sampleDump (samplePrimary "a/foo.rpm", samplePackage, samplePackage) =
        some ("foo.rpm", sampleRecord "a/foo.rpm") ∧
      candidateOf sampleDump (samplePrimary "b/foo.rpm", samplePackage, samplePackage) =
        some ("foo.rpm", sampleRecord "b/foo.rpm") ∧
      entriesFor (parse_xml_metadata sampleDump []
        (xmlReaderForDoc (rootDoc "metadata" [] threePrimaries))
        (xmlReaderForDoc (rootDoc "filelists" [] threePackages))
        (xmlReaderForDoc (rootDoc "otherdata" [] threePackages))).hashtable "foo.rpm" =
        [("foo.rpm", sampleRecord "a/foo.rpm")] :=
  ⟨rfl, by decide, by decide,
    (duplicate_basename_first_wins sampleDump [] [] [] [] threePrimaries threePackages
      threePackages 1 (samplePrimary "a/foo.rpm", samplePackage, samplePackage) "foo.rpm"
      (sampleRecord "a/foo.rpm") rfl rfl rfl rfl (by decide)
      (fun m t e hm ht hc => by
        obtain rfl : m = 0 := by omega
        have ht0 : t = (samplePrimary "x/bar.rpm", samplePackage, samplePackage) := by
          simpa [threePrimaries, threePackages] using ht.symm
        have hc0 : candidateOf sampleDump
            (samplePrimary "x/bar.rpm", samplePackage, samplePackage) =
            some ("bar.rpm", sampleRecord "x/bar.rpm") := by decide
        rw [ht0, hc0] at hc
        simp only [Option.some.injEq] at hc
        rw [← hc]
        decide)
      rfl).2.1⟩

theorem scanChildren_no_checksum (l : List XmlNode) :
    ∀ s : ScanState, (∀ c ∈ l, isNamed "checksum" c = false) →
      (scanChildren s l).checksum_type = s.checksum_type := by
  induction l with
  | nil => intro s _; rfl
  | cons c l ih =>
    intro s h
    have hl : ∀ x ∈ l, isNamed "checksum" x = false :=
      fun x hx => h x (List.mem_cons_of_mem _ hx)
    cases hc : c.isElement with
    | false =>
      simp only [scanChildren, hc, Bool.false_eq_true, if_false]
      exact ih s hl
    | true =>
      have ht : (scanElement s c).checksum_type = s.checksum_type := by
        rw [scanElement_type s c hc, h c (List.mem_cons_self _ _)]
        simp
      simp only [scanChildren, hc, if_true]
      split
      · exact ht
      · rw [ih _ hl, ht]

theorem candidateOf_no_checksum (dump : XmlNode → Option String) (bad f o : XmlNode)
    (hbad : ∀ c ∈ bad.children, isNamed "checksum" c = false) :
    candidateOf dump (bad, f, o) = none := by
  cases hc : candidateOf dump (bad, f, o) with
  | none => rfl
  | some e =>
    obtain ⟨k, r⟩ := e
    obtain ⟨node, href, ct, h0, -, h2, -⟩ := candidate_some dump _ _ _ _ _ hc
    have hnode : node = bad := by
      simp only [xmlTextReaderExpand, readerOn, Option.map, Option.some.injEq] at h0
      exact h0.symm
    rw [hnode, scanChildren_no_checksum _ _ hbad] at h2
    simp [ScanState.init] at h2

/-- C3: a primary package element without a `checksum` child is left out and the readers
stay aligned. Take three documents whose records before the incomplete one are equally
many. Extraction returns `1`, and the table is the one obtained by processing the records
before that position and then the records after it, position by position: the position of
the incomplete record adds nothing. At that position `process_node` returns the table
unchanged, and the pass through the loop body moves each of the three readers to its next
record. -/
theorem missing_checksum_is_skipped (dump : XmlNode → Option String)
    (metadata : GHashTable) (ap af ao : List (String × String))
    (pre_p pre_f pre_o post_p post_f post_o : List XmlNode) (bad xf xo : XmlNode)
    (hlen_f : pre_f.length = pre_p.length) (hlen_o : pre_o.length = pre_p.length)
    (hp : (pre_p ++ bad :: post_p).head?.map XmlNode.name = some "package")
    (hf : (pre_f ++ xf :: post_f).head?.map XmlNode.name = some "package")
    (ho : (pre_o ++ xo :: post_o).head?.map XmlNode.name = some "package")
    (hbad : ∀ c ∈ bad.children, isNamed "checksum" c = false) :
    (parse_xml_metadata dump metadata
        (xmlReaderForDoc (rootDoc "metadata" ap (pre_p ++ bad :: post_p)))
        (xmlReaderForDoc (rootDoc "filelists" af (pre_f ++ xf :: post_f)))
        (xmlReaderForDoc (rootDoc "otherdata" ao (pre_o ++ xo :: post_o)))).ret = 1 ∧
      (parse_xml_metadata dump metadata
        (xmlReaderForDoc (rootDoc "metadata" ap (pre_p ++ bad :: post_p)))
        (xmlReaderForDoc (rootDoc "filelists" af (pre_f ++ xf :: post_f)))
        (xmlReaderForDoc (rootDoc "otherdata" ao (pre_o ++ xo :: post_o)))).hashtable =
        processAll dump (processAll dump metadata pre_p pre_f pre_o) post_p post_f post_o ∧
      (∀ (h : GHashTable) (rp rf ro : List XmlNode) (tp tf tl : List ReaderNode),
        process_node dump h (readerOn bad rp tp) (readerOn xf rf tf) (readerOn xo ro tl) = h) ∧
      ∀ (h : GHashTable) (np nf no : XmlNode) (rp rf ro : List XmlNode)
        (tp tf tl : List ReaderNode),
        loopBody dump ⟨h, 1, 1, 1, readerOn bad (np :: rp) tp, readerOn xf (nf :: rf) tf,
            readerOn xo (no :: ro) tl⟩ =
          ⟨h, 1, 1, 1, readerOn np rp tp, readerOn nf rf tf, readerOn no ro tl⟩ := by
  obtain ⟨h1, h2⟩ := parse_rootDoc dump metadata ap af ao _ _ _ hp hf ho
  have hskip : ∀ (h : GHashTable) (rp rf ro : List XmlNode) (tp tf tl : List ReaderNode),
      process_node dump h (readerOn bad rp tp) (readerOn xf rf tf) (readerOn xo ro tl)
        = h := by
    intro h rp rf ro tp tf tl
    rw [process_node_readerOn, processTriple_eq, candidateOf_no_checksum dump bad xf xo hbad]
    rfl
  refine ⟨h1, ?_, hskip, ?_⟩
  · rw [h2]
    have hz : (pre_p ++ bad :: post_p).zip ((pre_f ++ xf :: post_f).zip (pre_o ++ xo :: post_o))
        = pre_p.zip (pre_f.zip pre_o) ++ (bad, xf, xo) :: post_p.zip (post_f.zip post_o) := by
      rw [List.zip_append (by rw [hlen_f, hlen_o]), List.zip_append]
      · rfl
      · simp [List.length_zip, hlen_f, hlen_o]
    simp only [processAll, hz, List.foldl_append, List.foldl_cons]
    rw [processTriple_eq, candidateOf_no_checksum dump bad xf xo hbad]
    rfl
  · intro h np nf no rp rf ro tp tf tl
    simp only [loopBody, hskip, next_readerOn_cons]

theorem missing_checksum_is_skipped_witness :
    (∀ c ∈ noChecksumPrimary.children, isNamed "checksum" c = false) ∧
      (parse_xml_metadata sampleDump []
        (xmlReaderForDoc (rootDoc "metadata" []
          ([samplePrimary "x/bar.rpm"] ++ noChecksumPrimary :: [samplePrimary "a/foo.rpm"])))
        (xmlReaderForDoc (rootDoc "filelists" []
          ([samplePackage] ++ samplePackage :: [samplePackage])))
        (xmlReaderForDoc (rootDoc "otherdata" []
          ([samplePackage] ++ samplePackage :: [samplePackage])))).ret = 1 ∧
      (parse_xml_metadata sampleDump []
        (xmlReaderForDoc (rootDoc "metadata" []
          ([samplePrimary "x/bar.rpm"] ++ noChecksumPrimary :: [samplePrimary "a/foo.rpm"])))
        (xmlReaderForDoc (rootDoc "filelists" []
          ([samplePackage] ++ samplePackage :: [samplePackage])))
        (xmlReaderForDoc (rootDoc "otherdata" []
          ([samplePackage] ++ samplePackage :: [samplePackage])))).hashtable =
        processAll sampleDump
          (processAll sampleDump [] [samplePrimary "x/bar.rpm"] [samplePackage] [samplePackage])
          [samplePrimary "a/foo.rpm"] [samplePackage] [samplePackage] :=
  ⟨by decide,
    (missing_checksum_is_skipped sampleDump [] [] [] [] [samplePrimary "x/bar.rpm"]
      [samplePackage] [samplePackage] [samplePrimary "a/foo.rpm"] [samplePackage]
      [samplePackage] noChecksumPrimary samplePackage samplePackage rfl rfl rfl rfl rfl
      (by decide)).1,
    (missing_checksum_is_skipped sampleDump [] [] [] [] [samplePrimary "x/bar.rpm"]
      [samplePackage] [samplePackage] [samplePrimary "a/foo.rpm"] [samplePackage]
      [samplePackage] noChecksumPrimary samplePackage samplePackage rfl rfl rfl rfl rfl
      (by decide)).2.1⟩

/-! ## Failure of the structure checks (C4) -/

/-- C5, evaluation at the failing input: the primary package element has two `location`
children, one `checksum` and one `size` child and no `time` child. The counter of the scan
reaches `4`, so `process_node` stores a record (with `time_file = -1`) although the `time`
field was not found. -/
theorem process_node_stores_without_time :
    (∀ c ∈ twoLocationsPrimary.children, isNamed "time" c = false) ∧
      process_node sampleDump [] (readerOn twoLocationsPrimary [] [])
        (readerOn samplePackage [] []) (readerOn samplePackage [] []) =
        [("foo.rpm",
          { time_file := -1
            size_package := 2048
            location_href := some "b/foo.rpm"
            location_base := none
            checksum_type := some "sha256"
            primary_xml := some "<package/>"
            filelists_xml := some "<package/>"
            other_xml := some "<package/>" })] := by
  decide

/-! ## Idempotence (C8) -/

theorem KeysSubset.refl (t : GHashTable) : KeysSubset t t := fun _ h => h

theorem KeysSubset.trans {t u w : GHashTable} (h1 : KeysSubset t u) (h2 : KeysSubset u w) :
    KeysSubset t w := fun k h => h2 k (h1 k h)

theorem keysSubset_storeCandidate (t : GHashTable) (c : Option (String × PackageMetadata)) :
    KeysSubset t (storeCandidate t c) := by
  intro key h
  cases c with
  | none => exact h
  | some e =>
    obtain ⟨k, v⟩ := e
    simp only [storeCandidate]
    split
    · exact h
    · simp only [g_hash_table_lookup, List.lookup_cons] at h ⊢
      split
      · rfl
      · exact h

theorem lookup_storeCandidate_self (t : GHashTable) (k : String) (v : PackageMetadata) :
    (g_hash_table_lookup (storeCandidate t (some (k, v))) k).isSome = true := by
  simp only [storeCandidate]
  split
  · assumption
  · simp [g_hash_table_lookup, List.lookup_cons]

theorem keysSubset_parseLoop (dump : XmlNode → Option String) (fuel : Nat) (st : LoopState) :
    KeysSubset st.hashtable (parseLoop dump fuel st).hashtable :=
  parseLoop_invariant dump (fun t => KeysSubset st.hashtable t)
    (fun h p f o hh => hh.trans (by
      rw [process_node_eq]; exact keysSubset_storeCandidate _ _))
    fuel st (KeysSubset.refl _)

theorem parseLoop_saturated (dump : XmlNode → Option String) (fuel : Nat) :
    ∀ (st : LoopState) (u : GHashTable),
      KeysSubset (parseLoop dump fuel st).hashtable u →
      parseLoop dump fuel { st with hashtable := u } =
        { parseLoop dump fuel st with hashtable := u } := by
  induction fuel with
  | zero => intro st u _; rfl
  | succ n ih =>
    intro st u hsub
    simp only [parseLoop] at hsub ⊢
    split
    · rename_i hcond
      rw [if_pos hcond] at hsub
      have hu : process_node dump u st.pri_reader st.fil_reader st.oth_reader = u := by
        rw [process_node_eq]
        cases hc : candidate dump st.pri_reader st.fil_reader st.oth_reader with
        | none => rfl
        | some e =>
          obtain ⟨k, v⟩ := e
          have h1 : (g_hash_table_lookup (loopBody dump st).hashtable k).isSome = true := by
            simp only [loopBody, process_node_eq, hc]
            exact lookup_storeCandidate_self _ _ _
          have h2 := hsub k (keysSubset_parseLoop dump n (loopBody dump st) k h1)
          simp [storeCandidate, h2]
      have hbody : loopBody dump { st with hashtable := u } =
          { loopBody dump st with hashtable := u } := by
        simp only [loopBody, hu]
      rw [hbody]
      exact ih (loopBody dump st) u hsub
    · rfl

/-- C8: extraction is idempotent. For every table and every three readers, a second run of
`parse_xml_metadata` on the same readers, started from the table the first run produced,
returns the same value and leaves that table exactly as it is. -/
theorem parse_idempotent (dump : XmlNode → Option String) (metadata : GHashTable)
    (pri_reader fil_reader oth_reader : xmlTextReader) :
    (parse_xml_metadata dump
        (parse_xml_metadata dump metadata pri_reader fil_reader oth_reader).hashtable
        pri_reader fil_reader oth_reader).ret =
        (parse_xml_metadata dump metadata pri_reader fil_reader oth_reader).ret ∧
      (parse_xml_metadata dump
        (parse_xml_metadata dump metadata pri_reader fil_reader oth_reader).hashtable
        pri_reader fil_reader oth_reader).hashtable =
        (parse_xml_metadata dump metadata pri_reader fil_reader oth_reader).hashtable := by
  unfold parse_xml_metadata
  simp only []
  split_ifs <;> try exact ⟨rfl, rfl⟩
  refine ⟨rfl, ?_⟩
  simp only []
  have := parseLoop_saturated dump ((xmlTextReaderRead (xmlTextReaderRead pri_reader).2).2.remaining.length + 1)
    ⟨metadata, (xmlTextReaderRead (xmlTextReaderRead pri_reader).2).1,
      (xmlTextReaderRead (xmlTextReaderRead fil_reader).2).1,
      (xmlTextReaderRead (xmlTextReaderRead oth_reader).2).1,
      (xmlTextReaderRead (xmlTextReaderRead pri_reader).2).2,
      (xmlTextReaderRead (xmlTextReaderRead fil_reader).2).2,
      (xmlTextReaderRead (xmlTextReaderRead oth_reader).2).2⟩ _ (KeysSubset.refl _)
  simp only [] at this
  rw [this]

/-! ## The loop bound of `parse_xml_metadata` is never reached -/

theorem read_length (r : xmlTextReader) (h : (xmlTextReaderRead r).1 ≠ 0) :
    (xmlTextReaderRead r).2.remaining.length < r.remaining.length := by
  unfold xmlTextReaderRead at h ⊢
  cases hr : r.remaining with
  | nil => simp [hr] at h
  | cons e es => simp

theorem next_length (r : xmlTextReader) (h : (xmlTextReaderNext r).1 ≠ 0) :
    (xmlTextReaderNext r).2.remaining.length < r.remaining.length := by
  unfold xmlTextReaderNext at h ⊢
  split at h
  · rename_i n a cs hcur
    simp only [hcur] at h ⊢
    have := read_length _ h
    simp only [List.length_drop] at this
    omega
  · exact read_length r h

theorem parseLoop_fuel (dump : XmlNode → Option String) (fuel : Nat) :
    ∀ (st : LoopState) (extra : Nat),
      (st.pri_ret ≠ 0 → st.pri_reader.remaining.length < fuel) →
      parseLoop dump (fuel + extra) st = parseLoop dump fuel st := by
  induction fuel with
  | zero =>
    intro st extra h
    have h0 : st.pri_ret = 0 := by
      by_contra hne
      exact absurd (h hne) (Nat.not_lt_zero _)
    rw [parseLoop_of_ret_zero _ _ _ (Or.inl h0), parseLoop_of_ret_zero _ _ _ (Or.inl h0)]
  | succ n ih =>
    intro st extra h
    have hrw : n + 1 + extra = (n + extra) + 1 := by omega
    rw [hrw]
    simp only [parseLoop]
    split
    · rename_i hcond
      apply ih
      intro hret
      have h1 := h hcond.1
      have h2 : (xmlTextReaderNext st.pri_reader).2.remaining.length
          < st.pri_reader.remaining.length := next_length _ hret
      simp only [loopBody]
      omega
    · rfl

/-! ## Supporting lemmas: `locate_metadata_via_repomd` -/

theorem g_str_has_suffix_append (s t : String) : g_str_has_suffix (s ++ t) t = true := by
  simp [g_str_has_suffix, String.data_append]

theorem g_strconcat_slash (repopath : String) (location_href : Option String) :
    g_strconcat [some (repopath ++ "/"), location_href] =
      g_strconcat [some repopath, some "/", location_href] := by
  cases location_href with
  | none => simp [g_strconcat, String.append_assoc]
  | some h => simp [g_strconcat, String.append_assoc]

theorem processData_slash (repopath : String) (mdloc : MetadataLocation) (node : XmlNode) :
    processData (repopath ++ "/") true mdloc node = processData repopath false mdloc node := by
  simp only [processData, if_true, Bool.false_eq_true, if_false, g_strconcat_slash]

theorem dataLoop_slash (repopath : String) (fuel : Nat) :
    ∀ (ret : Int) (reader : xmlTextReader) (mdloc : MetadataLocation),
      dataLoop (repopath ++ "/") true fuel ret reader mdloc =
        dataLoop repopath false fuel ret reader mdloc := by
  induction fuel with
  | zero => intro ret reader mdloc; rfl
  | succ n ih =>
    intro ret reader mdloc
    simp only [dataLoop, ih, processData_slash]

theorem storeLocation_repomd (mdloc : MetadataLocation) (data_type : Option String)
    (full : String) : (storeLocation mdloc data_type full).repomd = mdloc.repomd := by
  unfold storeLocation
  split_ifs <;> rfl

theorem dataLoop_repomd (repopath : String) (ends : Bool) (fuel : Nat) :
    ∀ (ret : Int) (reader : xmlTextReader) (mdloc : MetadataLocation),
      (dataLoop repopath ends fuel ret reader mdloc).repomd = mdloc.repomd := by
  induction fuel with
  | zero => intro ret reader mdloc; rfl
  | succ n ih =>
    intro ret reader mdloc
    simp only [dataLoop]
    split_ifs
    · exact ih _ _ _
    · split
      · rfl
      · rw [ih]
        exact storeLocation_repomd _ _ _
    · rfl

theorem repomd_path_slash (repopath : String) :
    g_strconcat [some (repopath ++ "/"), some "repodata/repomd.xml"] =
      g_strconcat [some repopath, some "/repodata/repomd.xml"] := by
  simp only [g_strconcat, String.append_assoc]
  rfl

theorem locate_slash (fs : FileSystem) (repopath : String)
    (hR : g_str_has_suffix repopath "/" = false)
    (hfs : fs.g_file_test (repopath ++ "/") = fs.g_file_test repopath) :
    locate_metadata_via_repomd fs (repopath ++ "/") = locate_metadata_via_repomd fs repopath := by
  unfold locate_metadata_via_repomd
  simp only [g_str_has_suffix_append, hR, if_true, Bool.false_eq_true, if_false, hfs,
    repomd_path_slash, dataLoop_slash]

theorem locate_repomd (fs : FileSystem) (repopath : String)
    (hR : g_str_has_suffix repopath "/" = false) (ml : MetadataLocation)
    (h : locate_metadata_via_repomd fs repopath = some ml) :
    ml.repomd = some (repopath ++ "/repodata/repomd.xml") := by
  unfold locate_metadata_via_repomd at h
  simp only [hR, Bool.false_eq_true, if_false] at h
  split_ifs at h
  simp only [Option.some.injEq] at h
  rw [← h, dataLoop_repomd]
  simp [g_strconcat]

theorem findDataLoop_found (xs : List ReaderNode) :
    ∀ (fuel : Nat) (ret : Int) (cur : Option ReaderNode) (e : ReaderNode)
      (ys : List ReaderNode), ret ≠ 0 → xs.length + 1 ≤ fuel →
      (∀ x ∈ xs, x.node.name ≠ "data") → e.node.name = "data" →
      findDataLoop fuel ret ⟨cur, xs ++ e :: ys⟩ = (1, ⟨some e, ys⟩) := by
  induction xs with
  | nil =>
    intro fuel ret cur e ys hret hfuel _ he
    obtain ⟨k, rfl⟩ : ∃ k, fuel = k + 1 := ⟨fuel - 1, by simp at hfuel; omega⟩
    simp [findDataLoop, hret, xmlTextReaderRead, xmlTextReaderName, g_strcmp0_eq_zero, he]
  | cons x xs ih =>
    intro fuel ret cur e ys hret hfuel hxs he
    obtain ⟨k, rfl⟩ : ∃ k, fuel = k + 1 := ⟨fuel - 1, by simp at hfuel; omega⟩
    have hx : x.node.name ≠ "data" := hxs x (List.mem_cons_self _ _)
    simp only [findDataLoop, hret, ne_eq, not_false_eq_true, if_true, xmlTextReaderRead,
      List.cons_append, xmlTextReaderName, Option.map, g_strcmp0_eq_zero, Option.some.injEq,
      hx, if_false]
    exact ih k 1 (some x) e ys (by decide) (by simp at hfuel; omega)
      (fun y hy => hxs y (List.mem_cons_of_mem _ hy)) he

theorem storeLocation_field (mdloc : MetadataLocation) (data_type : Option String)
    (full type : String) (h : data_type ≠ some type) :
    (storeLocation mdloc data_type full).field type = mdloc.field type := by
  unfold storeLocation
  simp only [g_strcmp0_eq_zero]
  by_cases h0 : data_type = some "primary"
  · have hT : type ≠ "primary" := fun e => h (by rw [h0, e])
    simp only [h0, if_true, MetadataLocation.field, hT, if_false]
  · simp only [h0, if_false]
    by_cases h1 : data_type = some "filelists"
    · have hT : type ≠ "filelists" := fun e => h (by rw [h1, e])
      simp only [h1, if_true, MetadataLocation.field, hT, if_false]
    · simp only [h1, if_false]
      by_cases h2 : data_type = some "other"
      · have hT : type ≠ "other" := fun e => h (by rw [h2, e])
        simp only [h2, if_true, MetadataLocation.field, hT, if_false]
      · simp only [h2, if_false]
        by_cases h3 : data_type = some "primary_db"
        · have hT : type ≠ "primary_db" := fun e => h (by rw [h3, e])
          simp only [h3, if_true, MetadataLocation.field, hT, if_false]
        · simp only [h3, if_false]
          by_cases h4 : data_type = some "filelists_db"
          · have hT : type ≠ "filelists_db" := fun e => h (by rw [h4, e])
            simp only [h4, if_true, MetadataLocation.field, hT, if_false]
          · simp only [h4, if_false]
            by_cases h5 : data_type = some "other_db"
            · have hT : type ≠ "other_db" := fun e => h (by rw [h5, e])
              simp only [h5, if_true, MetadataLocation.field, hT, if_false]
            · simp only [h5, if_false]
              by_cases h6 : data_type = some "group"
              · have hT : type ≠ "group" := fun e => h (by rw [h6, e])
                simp only [h6, if_true, MetadataLocation.field, hT, if_false]
              · simp only [h6, if_false]
                by_cases h7 : data_type = some "group_gz"
                · have hT : type ≠ "group_gz" := fun e => h (by rw [h7, e])
                  simp only [h7, if_true, MetadataLocation.field, hT, if_false]
                · simp only [h7, if_false]

theorem nodeType_readerOn_ne {n : XmlNode} (h : n.isElement = false) (cs : List XmlNode)
    (tail : List ReaderNode) : xmlTextReaderNodeType (readerOn n cs tail) ≠ 1 := by
  cases n <;> simp_all [xmlTextReaderNodeType, readerOn, XmlNode.isElement]

theorem dataLoop_ret_zero (repopath : String) (ends : Bool) (fuel : Nat)
    (reader : xmlTextReader) (mdloc : MetadataLocation) :
    dataLoop repopath ends fuel 0 reader mdloc = mdloc := by
  cases fuel <;> simp [dataLoop]

theorem dataLoop_end (repopath : String) (ends : Bool) (fuel : Nat) (ret : Int)
    (n : String) (a : List (String × String)) (cs : List XmlNode) (mdloc : MetadataLocation) :
    dataLoop repopath ends fuel ret ⟨some ⟨.element n a cs, true⟩, []⟩ mdloc = mdloc := by
  cases fuel with
  | zero => rfl
  | succ k =>
    simp only [dataLoop]
    split_ifs with h1 h2
    · rw [next_end, dataLoop_ret_zero]
    · simp [xmlTextReaderNodeType] at h2
    · rfl

theorem dataLoop_step (repopath : String) (ends : Bool) (fuel : Nat) (c : XmlNode)
    (cs : List XmlNode) (tail : List ReaderNode) (mdloc : MetadataLocation) :
    dataLoop repopath ends (fuel + 1) 1 (readerOn c cs tail) mdloc =
      dataLoop repopath ends fuel (xmlTextReaderNext (readerOn c cs tail)).1
        (xmlTextReaderNext (readerOn c cs tail)).2 (dataStep repopath ends mdloc c) := by
  simp only [dataLoop, dataStep]
  cases hc : c.isElement with
  | false =>
    have := nodeType_readerOn_ne hc cs tail
    simp [this]
  | true =>
    have := nodeType_readerOn hc cs tail
    simp only [this, ne_eq, not_true_eq_false, if_false, one_ne_zero, not_false_eq_true,
      if_true]
    rfl

theorem dataLoop_siblings (repopath : String) (ends : Bool) (n : String)
    (a : List (String × String)) (k : List XmlNode) (cs : List XmlNode) :
    ∀ (c : XmlNode) (mdloc : MetadataLocation) (fuel : Nat), cs.length + 2 ≤ fuel →
      dataLoop repopath ends fuel 1 (readerOn c cs [⟨.element n a k, true⟩]) mdloc =
        (c :: cs).foldl (dataStep repopath ends) mdloc := by
  induction cs with
  | nil =>
    intro c mdloc fuel hfuel
    obtain ⟨f, rfl⟩ : ∃ f, fuel = f + 1 := ⟨fuel - 1, by omega⟩
    rw [dataLoop_step, next_readerOn_nil, dataLoop_end]
    rfl
  | cons c1 cs ih =>
    intro c mdloc fuel hfuel
    obtain ⟨f, rfl⟩ : ∃ f, fuel = f + 1 := ⟨fuel - 1, by omega⟩
    rw [dataLoop_step, next_readerOn_cons, ih c1 _ f (by simp at hfuel; omega)]
    rfl

theorem locate_rootDoc (fs : FileSystem) (repopath : String) (a : List (String × String))
    (rev d0 : XmlNode) (ds : List XmlNode)
    (hdir : fs.g_file_test repopath = true)
    (hfile : fs.g_file_test (repomdPath repopath) = true)
    (hdoc : fs.xmlReaderForFile (repomdPath repopath) =
      xmlReaderForDoc (rootDoc "repomd" a (rev :: d0 :: ds)))
    (hrev : rev.name = "revision") (hsub : ∀ e ∈ subEvents rev, e.node.name ≠ "data")
    (hd0 : d0.name = "data") :
    locate_metadata_via_repomd fs repopath =
      some ((d0 :: ds).foldl (dataStep repopath (g_str_has_suffix repopath "/"))
        ⟨none, none, none, none, none, none, none, none, some (repomdPath repopath)⟩) := by
  have hpath : (if g_str_has_suffix repopath "/" = true then
      g_strconcat [some repopath, some "repodata/repomd.xml"]
      else g_strconcat [some repopath, some "/repodata/repomd.xml"]) = repomdPath repopath := rfl
  have hfind : ∀ fuel, (subEvents rev).length + 1 ≤ fuel →
      findDataLoop fuel 1 (readerOn rev (d0 :: ds)
        [⟨.element "repomd" a (rev :: d0 :: ds), true⟩]) =
      (1, readerOn d0 ds [⟨.element "repomd" a (rev :: d0 :: ds), true⟩]) := by
    intro fuel hfuel
    have := findDataLoop_found (subEvents rev) fuel 1 (some ⟨rev, false⟩) ⟨d0, false⟩
      (subEvents d0 ++ (eventsList ds ++ [⟨.element "repomd" a (rev :: d0 :: ds), true⟩]))
      (by decide) hfuel hsub hd0
    simpa [readerOn, eventsList, events_eq] using this
  unfold locate_metadata_via_repomd
  simp only [hdir, hpath, hfile, hdoc, Bool.not_true, Bool.false_eq_true, if_false, ne_eq,
    g_strcmp0_eq_zero, read_rootDoc, read_children, name_element, name_readerOn, hrev,
    not_true_eq_false]
  rw [hfind _ (by simp [readerOn])]
  simp only [one_ne_zero, if_false]
  rw [dataLoop_siblings]
  simp only [readerOn, List.length_append, List.length_cons, List.length_nil]
  have := length_le_eventsList ds
  omega

theorem scanLocation_eq (l : List XmlNode) :
    ∀ x : Option String, scanLocation x l =
      match (l.filter (isNamed "location")).getLast? with
      | some c => xmlGetProp c "href"
      | none => x := by
  induction l with
  | nil => intro x; rfl
  | cons c l ih =>
    intro x
    by_cases hc : c.isElement = true
    · by_cases hn : c.name = "location"
      · have hnamed : isNamed "location" c = true := by simp [isNamed, hc, hn]
        simp only [scanLocation, hc, if_true, g_strcmp0_eq_zero, hn, List.filter_cons, hnamed]
        rw [ih]
        cases hl : (l.filter (isNamed "location")) with
        | nil => simp
        | cons y ys =>
          have hne : (y :: ys).getLast? = some ((y :: ys).getLast (by simp)) :=
            List.getLast?_eq_getLast _ _
          simp only [List.getLast?_cons_cons, hne]
      · have hnamed : isNamed "location" c = false := by simp [isNamed, hn]
        simp only [scanLocation, hc, if_true, g_strcmp0_eq_zero, Option.some.injEq, hn,
          if_false, List.filter_cons, hnamed, Bool.false_eq_true]
        exact ih x
    · have hnamed : isNamed "location" c = false := by simp [isNamed, hc]
      simp only [scanLocation, hc, if_false, List.filter_cons, hnamed, Bool.false_eq_true]
      exact ih x

theorem foldl_dataStep_field (repopath : String) (ends : Bool) (type : String)
    (l : List XmlNode) :
    ∀ mdloc : MetadataLocation, (∀ n ∈ l, xmlGetProp n "type" ≠ some type) →
      (l.foldl (dataStep repopath ends) mdloc).field type = mdloc.field type := by
  induction l with
  | nil => intro mdloc _; rfl
  | cons c l ih =>
    intro mdloc h
    rw [List.foldl_cons, ih _ (fun n hn => h n (List.mem_cons_of_mem _ hn))]
    unfold dataStep
    split
    · exact storeLocation_field _ _ _ _ (h c (List.mem_cons_self _ _))
    · rfl

/-- C9: the trailing separator of the repository path does not matter. For every path `R`
that does not end in `/` (and names the same directory as `R/`), the calls with `R` and
with `R/` return the same result, field by field, and the index path is
`R/repodata/repomd.xml`. When the index document lists, after its `revision` element, a
`data` element of type `primary` whose `location` child has the href `h` (and no later
entry of that type), both calls resolve the primary document to `R/h`: for
`h = repodata/primary.xml.gz` to `R/repodata/primary.xml.gz`. -/
theorem locate_trailing_slash (fs : FileSystem) (R : String)
    (hR : g_str_has_suffix R "/" = false)
    (hfs : fs.g_file_test (R ++ "/") = fs.g_file_test R) :
    locate_metadata_via_repomd fs (R ++ "/") = locate_metadata_via_repomd fs R ∧
      (∀ ml, locate_metadata_via_repomd fs R = some ml →
        ml.repomd = some (R ++ "/repodata/repomd.xml")) ∧
      ∀ (a : List (String × String)) (rev d loc : XmlNode) (pre post : List XmlNode)
        (h : String),
        fs.g_file_test R = true → fs.g_file_test (R ++ "/repodata/repomd.xml") = true →
        fs.xmlReaderForFile (R ++ "/repodata/repomd.xml") =
          xmlReaderForDoc (rootDoc "repomd" a (rev :: (pre ++ d :: post))) →
        rev.name = "revision" → (∀ e ∈ subEvents rev, e.node.name ≠ "data") →
        (pre ++ d :: post).head?.map XmlNode.name = some "data" →
        d.isElement = true → xmlGetProp d "type" = some "primary" →
        d.children.filter (isNamed "location") = [loc] → xmlGetProp loc "href" = some h →
        (∀ n ∈ post, xmlGetProp n "type" ≠ some "primary") →
        ∃ ml, locate_metadata_via_repomd fs R = some ml ∧
          locate_metadata_via_repomd fs (R ++ "/") = some ml ∧
          ml.pri_xml_href = some (R ++ "/" ++ h) := by
  have hslash := locate_slash fs R hR hfs
  refine ⟨hslash, fun ml hml => locate_repomd fs R hR ml hml, ?_⟩
  intro a rev d loc pre post h hdir hfile hdoc hrev hsub hhead hd htype hloc hhref hpost
  have hpath : repomdPath R = R ++ "/repodata/repomd.xml" := by
    simp [repomdPath, hR, g_strconcat]
  obtain ⟨d0, ds, hds, hd0⟩ := head_name hhead
  rw [hds] at hdoc
  have hlocate := locate_rootDoc fs R a rev d0 ds hdir (by rw [hpath]; exact hfile)
    (by rw [hpath]; exact hdoc) hrev hsub hd0
  rw [← hds] at hlocate
  refine ⟨_, hlocate, by rw [hslash]; exact hlocate, ?_⟩
  rw [List.foldl_append, List.foldl_cons]
  have hfield := foldl_dataStep_field R (g_str_has_suffix R "/") "primary" post
    (dataStep R (g_str_has_suffix R "/")
      (List.foldl (dataStep R (g_str_has_suffix R "/"))
        ⟨none, none, none, none, none, none, none, none, some (repomdPath R)⟩ pre) d) hpost
  simp only [MetadataLocation.field, if_true] at hfield
  rw [hfield]
  simp only [dataStep, hd, if_true, processData, htype, hR, Bool.false_eq_true, if_false,
    scanLocation_eq, hloc, List.getLast?_singleton, hhref, storeLocation, g_strcmp0_eq_zero]
  simp [g_strconcat, String.append_assoc]

theorem locate_trailing_slash_witness :
    g_str_has_suffix "/srv/repo" "/" = false ∧
      (sampleFs sampleIndex).g_file_test ("/srv/repo" ++ "/") =
        (sampleFs sampleIndex).g_file_test "/srv/repo" ∧
      locate_metadata_via_repomd (sampleFs sampleIndex) ("/srv/repo" ++ "/") =
        locate_metadata_via_repomd (sampleFs sampleIndex) "/srv/repo" ∧
      ∃ ml, locate_metadata_via_repomd (sampleFs sampleIndex) "/srv/repo" = some ml ∧
        locate_metadata_via_repomd (sampleFs sampleIndex) ("/srv/repo" ++ "/") = some ml ∧
        ml.pri_xml_href = some ("/srv/repo" ++ "/" ++ "repodata/primary.xml.gz") :=
  ⟨by decide, rfl,
    (locate_trailing_slash (sampleFs sampleIndex) "/srv/repo" (by decide) rfl).1,
    (locate_trailing_slash (sampleFs sampleIndex) "/srv/repo" (by decide) rfl).2.2
      [("xmlns", "http://linux.duke.edu/metadata/repo")]
      (.element "revision" [] [.text "1300000000"])
      (.element "data" [("type", "primary")]
        [.emptyElement "checksum" [("type", "sha256")],
         .emptyElement "location" [("href", "repodata/primary.xml.gz")],
         .emptyElement "timestamp" []])
      (.emptyElement "location" [("href", "repodata/primary.xml.gz")])
      [.element "data" [("type", "filelists")]
        [.emptyElement "checksum" [("type", "sha256")],
         .emptyElement "location" [("href", "repodata/filelists.xml.gz")]]]
      [] "repodata/primary.xml.gz" rfl rfl rfl rfl (by decide) rfl rfl rfl rfl rfl
      (by simp)⟩

/-! ## The loop bounds of `locate_metadata_via_repomd` are never reached -/

theorem findDataLoop_ret_zero (fuel : Nat) (reader : xmlTextReader) :
    findDataLoop fuel 0 reader = (0, reader) := by
  cases fuel <;> simp [findDataLoop]

theorem findDataLoop_fuel (fuel : Nat) :
    ∀ (ret : Int) (reader : xmlTextReader) (extra : Nat),
      (ret ≠ 0 → reader.remaining.length < fuel) →
      findDataLoop (fuel + extra) ret reader = findDataLoop fuel ret reader := by
  induction fuel with
  | zero =>
    intro ret reader extra h
    have h0 : ret = 0 := by
      by_contra hne
      exact absurd (h hne) (Nat.not_lt_zero _)
    rw [h0, findDataLoop_ret_zero, findDataLoop_ret_zero]
  | succ n ih =>
    intro ret reader extra h
    have hrw : n + 1 + extra = (n + extra) + 1 := by omega
    rw [hrw]
    simp only [findDataLoop]
    split_ifs with h1 h2
    · rfl
    · apply ih
      intro hret
      have := read_length reader hret
      have := h h1
      omega
    · rfl

theorem dataLoop_fuel (repopath : String) (ends : Bool) (fuel : Nat) :
    ∀ (ret : Int) (reader : xmlTextReader) (mdloc : MetadataLocation) (extra : Nat),
      (ret ≠ 0 → reader.remaining.length < fuel) →
      dataLoop repopath ends (fuel + extra) ret reader mdloc =
        dataLoop repopath ends fuel ret reader mdloc := by
  induction fuel with
  | zero =>
    intro ret reader mdloc extra h
    have h0 : ret = 0 := by
      by_contra hne
      exact absurd (h hne) (Nat.not_lt_zero _)
    rw [h0, dataLoop_ret_zero, dataLoop_ret_zero]
  | succ n ih =>
    intro ret reader mdloc extra h
    have hrw : n + 1 + extra = (n + extra) + 1 := by omega
    rw [hrw]
    simp only [dataLoop]
    have hnext : ret ≠ 0 → (xmlTextReaderNext reader).1 ≠ 0 →
        (xmlTextReaderNext reader).2.remaining.length < n := by
      intro h1 hret
      have := next_length reader hret
      have := h h1
      omega
    split_ifs with h1 h2
    · exact ih _ _ _ _ (hnext h1)
    · split
      · rfl
      · exact ih _ _ _ _ (hnext h1)
    · rfl

/-! ## The effect of one `data` element (C11) -/

theorem storeLocation_field_self (mdloc : MetadataLocation) (full type : String)
    (h : type ∈ knownTypes) :
    (storeLocation mdloc (some type) full).field type = some full := by
  simp only [knownTypes, List.mem_cons, List.mem_singleton, List.not_mem_nil, or_false] at h
  rcases h with rfl | rfl | rfl | rfl | rfl | rfl | rfl | rfl <;>
    simp [storeLocation, MetadataLocation.field, g_strcmp0]

theorem storeLocation_unknown (mdloc : MetadataLocation) (data_type : Option String)
    (full : String) (h : ∀ type ∈ knownTypes, data_type ≠ some type) :
    storeLocation mdloc data_type full = mdloc := by
  have h0 := h "primary" (by simp [knownTypes])
  have h1 := h "filelists" (by simp [knownTypes])
  have h2 := h "other" (by simp [knownTypes])
  have h3 := h "primary_db" (by simp [knownTypes])
  have h4 := h "filelists_db" (by simp [knownTypes])
  have h5 := h "other_db" (by simp [knownTypes])
  have h6 := h "group" (by simp [knownTypes])
  have h7 := h "group_gz" (by simp [knownTypes])
  simp only [storeLocation, g_strcmp0_eq_zero, h0, h1, h2, h3, h4, h5, h6, h7, if_false]

/-- C11: what one `data` element does in `locate_metadata_via_repomd`. The pass of the loop
on an element node replaces the location by `processData` of it. That leaves the index path
and the field of every type other than the `type` attribute of the element as they are.
When the type is one of the eight known ones and the element has one `location` child
with href `h`, the field of that type becomes the repository path joined with `h`. When
the type is none of the eight, or absent, the location is unchanged. -/
theorem data_element_effect (repopath : String) (mdloc : MetadataLocation)
    (data_node : XmlNode) :
    (∀ type : String, xmlGetProp data_node "type" ≠ some type →
        (processData repopath (g_str_has_suffix repopath "/") mdloc data_node).field type =
          mdloc.field type) ∧
      (processData repopath (g_str_has_suffix repopath "/") mdloc data_node).repomd =
        mdloc.repomd ∧
      (∀ (type h : String) (loc : XmlNode), xmlGetProp data_node "type" = some type →
        type ∈ knownTypes → data_node.children.filter (isNamed "location") = [loc] →
        xmlGetProp loc "href" = some h →
        (processData repopath (g_str_has_suffix repopath "/") mdloc data_node).field type =
          some (joinRoot repopath h)) ∧
      ((∀ type ∈ knownTypes, xmlGetProp data_node "type" ≠ some type) →
        processData repopath (g_str_has_suffix repopath "/") mdloc data_node = mdloc) ∧
      (data_node.isElement = true →
        ∀ (fuel : Nat) (siblings : List XmlNode) (tail : List ReaderNode),
          dataLoop repopath (g_str_has_suffix repopath "/") (fuel + 1) 1
            (readerOn data_node siblings tail) mdloc =
          dataLoop repopath (g_str_has_suffix repopath "/") fuel
            (xmlTextReaderNext (readerOn data_node siblings tail)).1
            (xmlTextReaderNext (readerOn data_node siblings tail)).2
            (processData repopath (g_str_has_suffix repopath "/") mdloc data_node)) := by
  refine ⟨?_, ?_, ?_, ?_, ?_⟩
  · intro type h
    exact storeLocation_field _ _ _ _ h
  · exact storeLocation_repomd _ _ _
  · intro type h loc htype hknown hloc hhref
    simp only [processData, htype, scanLocation_eq, hloc, List.getLast?_singleton, hhref]
    rw [storeLocation_field_self _ _ _ hknown]
    cases hs : g_str_has_suffix repopath "/" <;>
      simp [joinRoot, hs, g_strconcat, String.append_assoc]
  · intro h
    exact storeLocation_unknown _ _ _ h
  · intro hel fuel siblings tail
    rw [dataLoop_step]
    simp only [dataStep, hel, if_true]

theorem data_element_effect_witness :
    (XmlNode.element "data" [("type", "group_gz")]
        [.emptyElement "location" [("href", "repodata/comps.xml.gz")]]).isElement = true ∧
      (processData "/srv/repo" (g_str_has_suffix "/srv/repo" "/")
        ⟨none, none, none, none, none, none, none, none, some "/srv/repo/repodata/repomd.xml"⟩
        (.element "data" [("type", "group_gz")]
          [.emptyElement "location" [("href", "repodata/comps.xml.gz")]])).field "group_gz" =
        some (joinRoot "/srv/repo" "repodata/comps.xml.gz") :=
  ⟨rfl,
    (data_element_effect "/srv/repo"
      ⟨none, none, none, none, none, none, none, none, some "/srv/repo/repodata/repomd.xml"⟩
      (.element "data" [("type", "group_gz")]
        [.emptyElement "location" [("href", "repodata/comps.xml.gz")]])).2.2.1
      "group_gz" "repodata/comps.xml.gz"
      (.emptyElement "location" [("href", "repodata/comps.xml.gz")]) rfl (by decide) rfl rfl⟩

/-! ## The list of locations (C15) -/

theorem foldl_removePath_attempted (disk : Disk) (paths : List String) :
    ∀ st : RemoveState,
      (paths.foldl (removePath disk) st).attempted = st.attempted ++ paths := by
  induction paths with
  | nil => intro st; simp
  | cons p ps ih =>
    intro st
    rw [List.foldl_cons, ih]
    have : (removePath disk st p).attempted = st.attempted ++ [p] := by
      unfold removePath
      split <;> rfl
    rw [this]
    simp

/-- C15: `get_list_of_md_locations` returns the empty list for a `NULL` location, and for
a location the non-`NULL` ones of its nine fields, each field once (in reverse order of
the structure), so the length of the list is the number of non-`NULL` fields. The first
phase of `remove_old_metadata` calls `g_remove` on exactly the paths of this list, in
order. -/
theorem get_list_of_md_locations_spec (disk : Disk) (st : RemoveState) (repopath : String) :
    get_list_of_md_locations none = [] ∧
      (∀ ml : MetadataLocation,
        get_list_of_md_locations (some ml) = (ml.fields.filterMap id).reverse ∧
        (get_list_of_md_locations (some ml)).length =
          (ml.fields.filter Option.isSome).length ∧
        ∀ path, path ∈ get_list_of_md_locations (some ml) ↔ some path ∈ ml.fields) ∧
      (removeListed disk st repopath).attempted =
        st.attempted ++
          get_list_of_md_locations (locate_metadata_via_repomd disk.fs repopath) := by
  refine ⟨rfl, ?_, ?_⟩
  · intro ml
    have heq : get_list_of_md_locations (some ml) = (ml.fields.filterMap id).reverse := by
      obtain ⟨a, b, c, d, e, f, g, h, i⟩ := ml
      cases a <;> cases b <;> cases c <;> cases d <;> cases e <;> cases f <;> cases g <;>
        cases h <;> cases i <;> rfl
    refine ⟨heq, ?_, ?_⟩
    · rw [heq, List.length_reverse]
      generalize ml.fields = l
      induction l with
      | nil => rfl
      | cons x xs ih => cases x <;> simp [List.filterMap_cons, List.filter_cons, ih]
    · intro path
      rw [heq]
      simp [List.mem_filterMap]
  · unfold removeListed
    cases hl : locate_metadata_via_repomd disk.fs repopath with
    | none => simp [get_list_of_md_locations]
    | some ml => exact foldl_removePath_attempted disk _ st

/-! ## The directory scan (C12) -/

theorem isOldMetadataName_iff (file : String) :
    isOldMetadataName file = true ↔ IsRecognizedName file := by
  simp only [isOldMetadataName, IsRecognizedName, Bool.or_eq_true, decide_eq_true_eq,
    g_strcmp0_eq_zero, Option.some.injEq, List.mem_cons, List.mem_singleton,
    List.not_mem_nil, or_false, exists_eq_or_imp, exists_eq_left]
  have e1 : "primary.xml" ++ "" = "primary.xml" := by decide
  have e2 : "primary.xml" ++ ".gz" = "primary.xml.gz" := by decide
  have e3 : "primary.xml" ++ ".bz2" = "primary.xml.bz2" := by decide
  have e4 : "filelists.xml" ++ "" = "filelists.xml" := by decide
  have e5 : "filelists.xml" ++ ".gz" = "filelists.xml.gz" := by decide
  have e6 : "filelists.xml" ++ ".bz2" = "filelists.xml.bz2" := by decide
  have e7 : "other.xml" ++ "" = "other.xml" := by decide
  have e8 : "other.xml" ++ ".gz" = "other.xml.gz" := by decide
  have e9 : "other.xml" ++ ".bz2" = "other.xml.bz2" := by decide
  simp only [e1, e2, e3, e4, e5, e6, e7, e8, e9]
  tauto

theorem g_strconcat_two (a b : String) : g_strconcat [some a, some b] = a ++ b := by
  simp [g_strconcat]

theorem string_append_cancel {a b c : String} (h : a ++ b = a ++ c) : b = c := by
  have := congrArg String.data h
  simp only [String.data_append, List.append_cancel_left_eq] at this
  exact String.ext this


/-! ## Supporting lemmas: paths and the files they name -/

theorem collapseSlashes_cons (c : Char) (rest : List Char) :
    collapseSlashes (c :: rest) =
      if c = '/' ∧ rest.head? = some '/' then collapseSlashes rest
      else c :: collapseSlashes rest := by
  rw [collapseSlashes]

theorem collapseSlashes_of_no_slash (s : List Char) (h : '/' ∉ s) : collapseSlashes s = s := by
  induction s with
  | nil => rfl
  | cons c s ih =>
    simp only [List.mem_cons, not_or] at h
    have hc : ¬ c = '/' := fun e => h.1 e.symm
    rw [collapseSlashes_cons, if_neg (fun h1 => hc h1.1), ih h.2]

theorem collapseSlashes_append_no_slash (l s : List Char) (h : '/' ∉ s) :
    collapseSlashes (l ++ s) = collapseSlashes l ++ s := by
  induction l with
  | nil => simpa using collapseSlashes_of_no_slash s h
  | cons c l ih =>
    have hhead : (l ++ s).head? = some '/' ↔ l.head? = some '/' := by
      cases l with
      | nil =>
        cases s with
        | nil => simp
        | cons d s =>
          simp only [List.mem_cons, not_or] at h
          simp only [List.nil_append, List.head?_cons, Option.some.injEq, List.head?_nil]
          constructor
          · intro e; exact absurd e.symm h.1
          · intro e; exact absurd e (by simp)
      | cons d l => simp
    rw [List.cons_append, collapseSlashes_cons, collapseSlashes_cons, ih]
    by_cases hc : c = '/' ∧ l.head? = some '/'
    · rw [if_pos hc, if_pos ⟨hc.1, hhead.mpr hc.2⟩]
    · rw [if_neg hc, if_neg (fun h1 => hc ⟨h1.1, hhead.mp h1.2⟩)]
      rfl

theorem collapseSlashes_eq_nil {l : List Char} (h : collapseSlashes l = []) : l = [] := by
  induction l with
  | nil => rfl
  | cons c l ih =>
    rw [collapseSlashes_cons] at h
    split at h
    · rename_i hc
      have := ih h
      rw [this] at hc
      simp at hc
    · simp at h

theorem collapseSlashes_length_append (a b : List Char) :
    (collapseSlashes a).length ≤ (collapseSlashes (a ++ b)).length := by
  induction a with
  | nil => simp [collapseSlashes]
  | cons c a ih =>
    cases a with
    | nil =>
      have h1 : collapseSlashes [c] = [c] := by
        rw [collapseSlashes_cons]
        simp [collapseSlashes]
      rw [h1, List.cons_append, List.nil_append, collapseSlashes_cons]
      split
      · rename_i hc
        cases b with
        | nil => simp at hc
        | cons d b =>
          have hne : collapseSlashes (d :: b) ≠ [] := fun e => by
            have := collapseSlashes_eq_nil e
            simp at this
          have := List.length_pos.mpr hne
          simp only [List.length_cons, List.length_nil]
          omega
      · simp
    | cons d a =>
      rw [List.cons_append, collapseSlashes_cons, collapseSlashes_cons c]
      have hh : ((d :: a) ++ b).head? = (d :: a).head? := by simp
      rw [hh]
      split
      · exact ih
      · simp only [List.length_cons]
        omega

theorem collapseSlashes_double (a b : List Char) :
    collapseSlashes (a ++ '/' :: '/' :: b) = collapseSlashes (a ++ '/' :: b) := by
  induction a with
  | nil => simp [collapseSlashes]
  | cons c a ih =>
    have hhead : (a ++ '/' :: '/' :: b).head? = (a ++ '/' :: b).head? := by
      cases a <;> simp
    rw [List.cons_append, List.cons_append, collapseSlashes_cons, collapseSlashes_cons, hhead,
      ih]

theorem fileOf_append_no_slash (p s : String) (h : '/' ∉ s.data) :
    fileOf (p ++ s) = fileOf p ++ s := by
  apply String.ext
  simp [fileOf, String.data_append, collapseSlashes_append_no_slash _ _ h]

theorem fileOf_double_slash (a b : String) : fileOf (a ++ "/" ++ "/" ++ b) = fileOf (a ++ "/" ++ b) := by
  apply String.ext
  have h1 : (a ++ "/" ++ "/" ++ b).data = a.data ++ '/' :: '/' :: b.data := by
    simp [String.data_append]
  have h2 : (a ++ "/" ++ b).data = a.data ++ '/' :: b.data := by
    simp [String.data_append]
  simp only [fileOf, h1, h2, collapseSlashes_double]

theorem collapseSlashes_length_le (l : List Char) : (collapseSlashes l).length ≤ l.length := by
  induction l with
  | nil => simp [collapseSlashes]
  | cons c l ih =>
    rw [collapseSlashes_cons]
    split
    · simp only [List.length_cons]
      omega
    · simp only [List.length_cons]
      omega

/-- A path without repeated `/` has no repeated `/` in any part it starts with. -/
theorem collapseSlashes_prefix (a b : List Char) (h : collapseSlashes (a ++ b) = a ++ b) :
    collapseSlashes a = a := by
  induction a with
  | nil => simp [collapseSlashes]
  | cons c a ih =>
    rw [List.cons_append, collapseSlashes_cons] at h
    by_cases hc : c = '/' ∧ (a ++ b).head? = some '/'
    · rw [if_pos hc] at h
      have h1 := collapseSlashes_length_le (a ++ b)
      rw [h] at h1
      simp only [List.length_cons] at h1
      omega
    · rw [if_neg hc] at h
      have h2 : collapseSlashes (a ++ b) = a ++ b := (List.cons.inj h).2
      have hc1 : ¬ (c = '/' ∧ a.head? = some '/') := by
        intro hca
        apply hc
        refine ⟨hca.1, ?_⟩
        cases a with
        | nil => simp at hca
        | cons d a => simpa using hca.2
      rw [collapseSlashes_cons, if_neg hc1, ih h2]

theorem suffix_of_isSuffixOf {s l : List Char} (h : s.isSuffixOf l = true) :
    ∃ t, l = t ++ s := by
  obtain ⟨t, ht⟩ := List.isSuffixOf_iff_suffix.mp h
  exact ⟨t, ht.symm⟩

theorem isOldMetadataName_suffix (file : String) :
    isOldMetadataName file = true ↔
      (∃ s ∈ recognizedSuffixes, g_str_has_suffix file s = true) ∨ file = "repomd.xml" := by
  simp only [isOldMetadataName, recognizedSuffixes, Bool.or_eq_true, decide_eq_true_eq,
    g_strcmp0_eq_zero, Option.some.injEq, List.mem_cons, List.mem_singleton,
    List.not_mem_nil, or_false, exists_eq_or_imp, exists_eq_left]
  tauto

theorem recognizedSuffixes_no_slash : ∀ s ∈ recognizedSuffixes, '/' ∉ s.data := by
  decide

/-- Two names of one directory name different files when one passes the test of the scan
and the other, a name without `/`, does not. -/
theorem fileOf_scan_ne (full e file : String) (he : isOldMetadataName e = true)
    (hslash : '/' ∉ file.data) (hfile : isOldMetadataName file = false) :
    fileOf (full ++ e) ≠ fileOf (full ++ file) := by
  intro heq
  rw [fileOf_append_no_slash full file hslash] at heq
  rcases (isOldMetadataName_suffix e).mp he with ⟨s, hs, hsuf⟩ | rfl
  · obtain ⟨t, ht⟩ := suffix_of_isSuffixOf hsuf
    have hsl := recognizedSuffixes_no_slash s hs
    have hdata := congrArg String.data heq
    simp only [fileOf, String.data_append, ht] at hdata
    rw [← List.append_assoc, collapseSlashes_append_no_slash _ _ hsl] at hdata
    have hlen := collapseSlashes_length_append full.data t
    rcases List.append_eq_append_iff.mp hdata with ⟨a, ha, hb⟩ | ⟨c, hc, hd⟩
    · have hl := congrArg List.length ha
      simp only [List.length_append] at hl
      have ha0 : a = [] := List.length_eq_zero.mp (by omega)
      rw [ha0, List.nil_append] at hb
      have : isOldMetadataName file = true :=
        (isOldMetadataName_suffix file).mpr
          (Or.inl ⟨s, hs, by
            unfold g_str_has_suffix
            rw [← hb]
            exact List.isSuffixOf_iff_suffix.mpr (List.suffix_refl _)⟩)
      rw [this] at hfile
      exact absurd hfile (by decide)
    · have : isOldMetadataName file = true :=
        (isOldMetadataName_suffix file).mpr
          (Or.inl ⟨s, hs, by
            unfold g_str_has_suffix
            rw [hd]
            exact List.isSuffixOf_iff_suffix.mpr (List.suffix_append _ _)⟩)
      rw [this] at hfile
      exact absurd hfile (by decide)
  · rw [fileOf_append_no_slash full "repomd.xml" (by decide)] at heq
    have := string_append_cancel heq
    rw [← this] at hfile
    exact absurd hfile (by decide)

/-- A name that passes the test of the scan does not name the file of a path that is
spelled without repeated `/` and ends with a name that does not pass. -/
theorem fileOf_scan_ne_of_normal (full e file : String) (he : isOldMetadataName e = true)
    (hnorm : fileOf (full ++ file) = full ++ file) (hfile : isOldMetadataName file = false) :
    fileOf (full ++ e) ≠ full ++ file := by
  intro heq
  have hn : collapseSlashes (full.data ++ file.data) = full.data ++ file.data := by
    have := congrArg String.data hnorm
    simpa [fileOf, String.data_append] using this
  have hfull : collapseSlashes full.data = full.data := collapseSlashes_prefix _ _ hn
  rcases (isOldMetadataName_suffix e).mp he with ⟨s, hs, hsuf⟩ | rfl
  · obtain ⟨t, ht⟩ := suffix_of_isSuffixOf hsuf
    have hsl := recognizedSuffixes_no_slash s hs
    have hdata := congrArg String.data heq
    simp only [fileOf, String.data_append, ht] at hdata
    rw [← List.append_assoc, collapseSlashes_append_no_slash _ _ hsl] at hdata
    have hlen := collapseSlashes_length_append full.data t
    rw [hfull] at hlen
    rcases List.append_eq_append_iff.mp hdata with ⟨a, ha, hb⟩ | ⟨c, hc, hd⟩
    · have hl := congrArg List.length ha
      simp only [List.length_append] at hl
      have ha0 : a = [] := List.length_eq_zero.mp (by omega)
      rw [ha0, List.nil_append] at hb
      have : isOldMetadataName file = true :=
        (isOldMetadataName_suffix file).mpr
          (Or.inl ⟨s, hs, by
            unfold g_str_has_suffix
            rw [← hb]
            exact List.isSuffixOf_iff_suffix.mpr (List.suffix_refl _)⟩)
      rw [this] at hfile
      exact absurd hfile (by decide)
    · have : isOldMetadataName file = true :=
        (isOldMetadataName_suffix file).mpr
          (Or.inl ⟨s, hs, by
            unfold g_str_has_suffix
            rw [hd]
            exact List.isSuffixOf_iff_suffix.mpr (List.suffix_append _ _)⟩)
      rw [this] at hfile
      exact absurd hfile (by decide)
  · rw [fileOf_append_no_slash full "repomd.xml" (by decide)] at heq
    have hf : fileOf full = full := String.ext (by simpa [fileOf] using hfull)
    rw [hf] at heq
    have := string_append_cancel heq
    rw [← this] at hfile
    exact absurd hfile (by decide)

theorem g_str_has_suffix_slash {repopath : String} (h : g_str_has_suffix repopath "/" = true) :
    ∃ r : String, repopath = r ++ "/" := by
  obtain ⟨t, ht⟩ := suffix_of_isSuffixOf h
  exact ⟨String.mk t, String.ext (by simpa [String.data_append] using ht)⟩

/-- The path `locate_metadata_via_repomd` builds for an href and the path with a `/`
always put in between name the same file. -/
theorem fileOf_joinRoot (repopath href : String) :
    fileOf (joinRoot repopath href) = fileOf (repopath ++ "/" ++ href) := by
  unfold joinRoot
  split
  · rename_i h
    obtain ⟨r, rfl⟩ := g_str_has_suffix_slash h
    exact (fileOf_double_slash r href).symm
  · rfl

theorem repomdPath_eq_joinRoot (repopath : String) :
    repomdPath repopath = joinRoot repopath "repodata/repomd.xml" := by
  unfold repomdPath joinRoot
  split
  · rw [g_strconcat_two]
  · rw [g_strconcat_two, String.append_assoc]
    rfl

theorem removePath_files (disk : Disk) (st : RemoveState) (path : String) :
    ((removePath disk st path).files = st.files ∧
        (removePath disk st path).removed_files = st.removed_files) ∨
      (fileOf path ∈ st.files ∧ disk.canRemove path = true ∧
        (removePath disk st path).files = st.files.erase (fileOf path) ∧
        (removePath disk st path).removed_files = st.removed_files + 1) := by
  unfold removePath g_remove
  by_cases h : fileOf path ∈ st.files ∧ disk.canRemove path = true
  · right
    simp [h]
  · left
    simp [h]

theorem removePath_of_not_mem (disk : Disk) (st : RemoveState) (path : String)
    (h : fileOf path ∉ st.files) :
    (removePath disk st path).files = st.files ∧
      (removePath disk st path).removed_files = st.removed_files := by
  unfold removePath g_remove
  simp [h]

theorem removePath_of_mem (disk : Disk) (st : RemoveState) (path : String)
    (h : fileOf path ∈ st.files) (hcan : disk.canRemove path = true) :
    removePath disk st path =
      ⟨st.removed_files + 1, st.files.erase (fileOf path), st.attempted ++ [path]⟩ := by
  unfold removePath g_remove
  simp [h, hcan]

theorem removePath_subset (disk : Disk) (st : RemoveState) (path p : String)
    (h : p ∈ (removePath disk st path).files) : p ∈ st.files := by
  rcases removePath_files disk st path with ⟨h1, -⟩ | ⟨-, -, h1, -⟩
  · rwa [h1] at h
  · rw [h1] at h
    exact List.mem_of_mem_erase h

theorem removePath_keeps (disk : Disk) (st : RemoveState) (path p : String)
    (h : p ∈ st.files) (hne : p ≠ fileOf path) : p ∈ (removePath disk st path).files := by
  rcases removePath_files disk st path with ⟨h1, -⟩ | ⟨-, -, h1, -⟩
  · rwa [h1]
  · rw [h1]
    exact (List.mem_erase_of_ne hne).mpr h

theorem removePath_nodup (disk : Disk) (st : RemoveState) (path : String)
    (h : st.files.Nodup) : (removePath disk st path).files.Nodup := by
  rcases removePath_files disk st path with ⟨h1, -⟩ | ⟨-, -, h1, -⟩
  · rwa [h1]
  · rw [h1]
    exact h.erase _

theorem removePath_count (disk : Disk) (st : RemoveState) (path : String) :
    (removePath disk st path).removed_files + ((removePath disk st path).files.length : Int) =
      st.removed_files + (st.files.length : Int) := by
  rcases removePath_files disk st path with ⟨h1, h2⟩ | ⟨hm, -, h1, h2⟩
  · rw [h1, h2]
  · rw [h1, h2, List.length_erase_of_mem hm]
    have : 0 < st.files.length := List.length_pos_of_mem hm
    omega

theorem removePath_gone (disk : Disk) (st : RemoveState) (path : String)
    (hnd : st.files.Nodup) (hcan : disk.canRemove path = true) :
    fileOf path ∉ (removePath disk st path).files := by
  by_cases hmem : fileOf path ∈ st.files
  · rw [removePath_of_mem disk st path hmem hcan]
    intro h
    exact ((List.Nodup.mem_erase_iff hnd).mp h).1 rfl
  · rw [(removePath_of_not_mem disk st path hmem).1]
    exact hmem

theorem scanEntry_subset (disk : Disk) (full : String) (st : RemoveState) (file p : String)
    (h : p ∈ (scanEntry disk full st file).files) : p ∈ st.files := by
  unfold scanEntry at h
  split at h
  · exact removePath_subset _ _ _ _ h
  · exact h

theorem scanEntry_nodup (disk : Disk) (full : String) (st : RemoveState) (file : String)
    (h : st.files.Nodup) : (scanEntry disk full st file).files.Nodup := by
  unfold scanEntry
  split
  · exact removePath_nodup _ _ _ h
  · exact h

theorem scanEntry_count (disk : Disk) (full : String) (st : RemoveState) (file : String) :
    (scanEntry disk full st file).removed_files +
        ((scanEntry disk full st file).files.length : Int) =
      st.removed_files + (st.files.length : Int) := by
  unfold scanEntry
  split
  · exact removePath_count _ _ _
  · rfl

theorem scanDirectory_subset (disk : Disk) (full : String) (entries : List String) :
    ∀ (st : RemoveState) (p : String),
      p ∈ (scanDirectory disk full st entries).files → p ∈ st.files := by
  induction entries with
  | nil => intro st p h; exact h
  | cons e es ih =>
    intro st p h
    exact scanEntry_subset _ _ _ _ _ (ih _ p h)

theorem scanDirectory_nodup (disk : Disk) (full : String) (entries : List String) :
    ∀ st : RemoveState, st.files.Nodup →
      (scanDirectory disk full st entries).files.Nodup := by
  induction entries with
  | nil => intro st h; exact h
  | cons e es ih => intro st h; exact ih _ (scanEntry_nodup _ _ _ _ h)

theorem scanDirectory_count (disk : Disk) (full : String) (entries : List String) :
    ∀ st : RemoveState,
      (scanDirectory disk full st entries).removed_files +
          ((scanDirectory disk full st entries).files.length : Int) =
        st.removed_files + (st.files.length : Int) := by
  induction entries with
  | nil => intro st; rfl
  | cons e es ih =>
    intro st
    have h1 := ih (scanEntry disk full st e)
    have h2 := scanEntry_count disk full st e
    simp only [scanDirectory, List.foldl_cons] at h1 ⊢
    omega

theorem scanDirectory_attempted (disk : Disk) (full : String) (entries : List String) :
    ∀ st : RemoveState,
      (scanDirectory disk full st entries).attempted =
        st.attempted ++ (entries.filter isOldMetadataName).map (fun file => full ++ file) := by
  induction entries with
  | nil => intro st; simp [scanDirectory]
  | cons e es ih =>
    intro st
    have h1 := ih (scanEntry disk full st e)
    simp only [scanDirectory, List.foldl_cons] at h1 ⊢
    rw [h1]
    unfold scanEntry
    cases he : isOldMetadataName e with
    | false => simp [he]
    | true =>
      have : (removePath disk st (g_strconcat [some full, some e])).attempted =
          st.attempted ++ [full ++ e] := by
        unfold removePath
        split <;> simp [g_strconcat_two]
      simp [he, this]

/-- A file stays through the scan when no listed name that passes the test names it. -/
theorem scanDirectory_keeps_file (disk : Disk) (full : String) (entries : List String) :
    ∀ (st : RemoveState) (p : String), p ∈ st.files →
      (∀ e ∈ entries, isOldMetadataName e = true → fileOf (full ++ e) ≠ p) →
      p ∈ (scanDirectory disk full st entries).files := by
  induction entries with
  | nil => intro st p h _; exact h
  | cons e es ih =>
    intro st p h hne
    simp only [scanDirectory, List.foldl_cons]
    apply ih _ p _ (fun e1 h1 => hne e1 (List.mem_cons_of_mem _ h1))
    unfold scanEntry
    cases he : isOldMetadataName e with
    | false => simpa using h
    | true =>
      simp only [if_true]
      apply removePath_keeps _ _ _ _ h
      rw [g_strconcat_two]
      exact fun heq => hne e (List.mem_cons_self _ _) he heq.symm

theorem scanDirectory_keeps (disk : Disk) (full : String) (entries : List String)
    (st : RemoveState) (file : String) (hslash : '/' ∉ file.data)
    (hfile : isOldMetadataName file = false) (h : fileOf (full ++ file) ∈ st.files) :
    fileOf (full ++ file) ∈ (scanDirectory disk full st entries).files :=
  scanDirectory_keeps_file disk full entries st _ h
    (fun e _ he => fileOf_scan_ne full e file he hslash hfile)

theorem scanDirectory_removes (disk : Disk) (full : String) (entries : List String) :
    ∀ (st : RemoveState) (file : String), st.files.Nodup → file ∈ entries →
      isOldMetadataName file = true → disk.canRemove (full ++ file) = true →
      fileOf (full ++ file) ∉ (scanDirectory disk full st entries).files := by
  induction entries with
  | nil => intro st file _ h; simp at h
  | cons e es ih =>
    intro st file hnd hmem hfile hcan
    simp only [scanDirectory, List.foldl_cons]
    rcases List.mem_cons.mp hmem with rfl | hmem
    · intro h
      have h1 := scanDirectory_subset disk full es _ _ h
      unfold scanEntry at h1
      rw [if_pos hfile, g_strconcat_two] at h1
      exact removePath_gone disk st _ hnd hcan h1
    · exact ih _ file (scanEntry_nodup _ _ _ _ hnd) hmem hfile hcan

/-- The scan changes neither the files nor the counter when no listed name that passes the
test names an existing file. -/
theorem scanDirectory_of_not_mem (disk : Disk) (full : String) (entries : List String) :
    ∀ st : RemoveState,
      (∀ e ∈ entries, isOldMetadataName e = true → fileOf (full ++ e) ∉ st.files) →
      (scanDirectory disk full st entries).files = st.files ∧
        (scanDirectory disk full st entries).removed_files = st.removed_files := by
  induction entries with
  | nil => intro st _; exact ⟨rfl, rfl⟩
  | cons e es ih =>
    intro st h
    simp only [scanDirectory, List.foldl_cons]
    have hstep : (scanEntry disk full st e).files = st.files ∧
        (scanEntry disk full st e).removed_files = st.removed_files := by
      unfold scanEntry
      cases he : isOldMetadataName e with
      | false => exact ⟨rfl, rfl⟩
      | true =>
        simp only [if_true]
        apply removePath_of_not_mem
        rw [g_strconcat_two]
        exact h e (List.mem_cons_self _ _) he
    have h2 := ih (scanEntry disk full st e) (fun e1 h1 he1 => by
      rw [hstep.1]
      exact h e1 (List.mem_cons_of_mem _ h1) he1)
    simp only [scanDirectory] at h2
    rw [h2.1, h2.2]
    exact hstep

/-- C12: the directory scan of `remove_old_metadata` selects a file exactly when its name
ends with `primary.xml`, `filelists.xml` or `other.xml`, each optionally followed by `.gz`
or `.bz2`, or is `repomd.xml`. The test of the scan is true for exactly these names;
`g_remove` is called on exactly the listed names passing the test (in order); a listed
file that passes and may be removed is gone after the scan; a file that no listed name
passing the test names is still there; and so is every file of the directory whose name
(a name holds no `/`) does not pass, `notes.txt` for one, and every file whose path, spelled
without repeated `/`, is the directory path followed by a name that does not pass. -/
theorem directory_scan_selects (disk : Disk) (full_repopath : String) (st : RemoveState)
    (entries : List String) :
    (∀ file, isOldMetadataName file = true ↔ IsRecognizedName file) ∧
      (scanDirectory disk full_repopath st entries).attempted =
        st.attempted ++
          (entries.filter isOldMetadataName).map (fun file => full_repopath ++ file) ∧
      (∀ file, st.files.Nodup → file ∈ entries → IsRecognizedName file →
        disk.canRemove (full_repopath ++ file) = true →
        fileOf (full_repopath ++ file) ∉ (scanDirectory disk full_repopath st entries).files) ∧
      (∀ p ∈ st.files,
        (∀ e ∈ entries, IsRecognizedName e → fileOf (full_repopath ++ e) ≠ p) →
        p ∈ (scanDirectory disk full_repopath st entries).files) ∧
      (∀ file, '/' ∉ file.data → ¬ IsRecognizedName file →
        fileOf (full_repopath ++ file) ∈ st.files →
        fileOf (full_repopath ++ file) ∈
          (scanDirectory disk full_repopath st entries).files) ∧
      (∀ file, ¬ IsRecognizedName file →
        fileOf (full_repopath ++ file) = full_repopath ++ file →
        full_repopath ++ file ∈ st.files →
        full_repopath ++ file ∈ (scanDirectory disk full_repopath st entries).files) ∧
      ¬ IsRecognizedName "notes.txt" := by
  have hnot : ∀ file, ¬ IsRecognizedName file → isOldMetadataName file = false := by
    intro file hrec
    cases h : isOldMetadataName file with
    | false => rfl
    | true => exact absurd ((isOldMetadataName_iff file).mp h) hrec
  refine ⟨isOldMetadataName_iff, scanDirectory_attempted _ _ _ _, ?_, ?_, ?_, ?_, ?_⟩
  · intro file hnd hmem hrec hcan
    exact scanDirectory_removes _ _ _ _ _ hnd hmem ((isOldMetadataName_iff file).mpr hrec) hcan
  · intro p hp hne
    exact scanDirectory_keeps_file _ _ _ _ p hp
      (fun e he hold => hne e he ((isOldMetadataName_iff e).mp hold))
  · intro file hslash hrec hmem
    exact scanDirectory_keeps _ _ _ _ _ hslash (hnot file hrec) hmem
  · intro file hrec hnorm hmem
    exact scanDirectory_keeps_file _ _ _ _ _ hmem
      (fun e _ he => fileOf_scan_ne_of_normal _ e file he hnorm (hnot file hrec))
  · intro h
    have := (isOldMetadataName_iff "notes.txt").mpr h
    exact absurd this (by decide)

theorem directory_scan_selects_witness :
    ¬ IsRecognizedName "notes.txt" ∧
      fileOf ("/srv/repo//repodata/" ++ "notes.txt") ∈
        (⟨0, ["/srv/repo/repodata/primary.xml.gz", "/srv/repo/repodata/notes.txt"], []⟩ :
          RemoveState).files ∧
      fileOf ("/srv/repo//repodata/" ++ "notes.txt") ∈
        (scanDirectory (sampleDisk ["primary.xml.gz", "notes.txt"]) "/srv/repo//repodata/"
          ⟨0, ["/srv/repo/repodata/primary.xml.gz", "/srv/repo/repodata/notes.txt"], []⟩
          ["primary.xml.gz", "notes.txt"]).files ∧
      fileOf ("/srv/repo//repodata/" ++ "primary.xml.gz") ∉
        (scanDirectory (sampleDisk ["primary.xml.gz", "notes.txt"]) "/srv/repo//repodata/"
          ⟨0, ["/srv/repo/repodata/primary.xml.gz", "/srv/repo/repodata/notes.txt"], []⟩
          ["primary.xml.gz", "notes.txt"]).files :=
  ⟨(directory_scan_selects (sampleDisk ["primary.xml.gz", "notes.txt"]) "/srv/repo//repodata/"
      ⟨0, ["/srv/repo/repodata/primary.xml.gz", "/srv/repo/repodata/notes.txt"], []⟩
      ["primary.xml.gz", "notes.txt"]).2.2.2.2.2.2,
    by decide,
    (directory_scan_selects (sampleDisk ["primary.xml.gz", "notes.txt"]) "/srv/repo//repodata/"
      ⟨0, ["/srv/repo/repodata/primary.xml.gz", "/srv/repo/repodata/notes.txt"], []⟩
      ["primary.xml.gz", "notes.txt"]).2.2.2.2.1 "notes.txt" (by decide)
      (directory_scan_selects (sampleDisk ["primary.xml.gz", "notes.txt"])
        "/srv/repo//repodata/"
        ⟨0, ["/srv/repo/repodata/primary.xml.gz", "/srv/repo/repodata/notes.txt"], []⟩
        ["primary.xml.gz", "notes.txt"]).2.2.2.2.2.2
      (by decide),
    (directory_scan_selects (sampleDisk ["primary.xml.gz", "notes.txt"]) "/srv/repo//repodata/"
      ⟨0, ["/srv/repo/repodata/primary.xml.gz", "/srv/repo/repodata/notes.txt"], []⟩
      ["primary.xml.gz", "notes.txt"]).2.2.1 "primary.xml.gz" (by decide) (by decide)
      (((directory_scan_selects (sampleDisk ["primary.xml.gz", "notes.txt"])
        "/srv/repo//repodata/"
        ⟨0, ["/srv/repo/repodata/primary.xml.gz", "/srv/repo/repodata/notes.txt"], []⟩
        ["primary.xml.gz", "notes.txt"]).1 "primary.xml.gz").mp (by decide))
      rfl⟩

/-! ## The number of removed files (C13) -/

theorem foldl_removePath_count (disk : Disk) (paths : List String) :
    ∀ st : RemoveState,
      (paths.foldl (removePath disk) st).removed_files +
          ((paths.foldl (removePath disk) st).files.length : Int) =
        st.removed_files + (st.files.length : Int) := by
  induction paths with
  | nil => intro st; rfl
  | cons p ps ih =>
    intro st
    have h1 := ih (removePath disk st p)
    have h2 := removePath_count disk st p
    simp only [List.foldl_cons]
    omega

theorem foldl_removePath_nodup (disk : Disk) (paths : List String) :
    ∀ st : RemoveState, st.files.Nodup → (paths.foldl (removePath disk) st).files.Nodup := by
  induction paths with
  | nil => intro st h; exact h
  | cons p ps ih => intro st h; exact ih _ (removePath_nodup _ _ _ h)

theorem foldl_removePath_subset (disk : Disk) (paths : List String) :
    ∀ (st : RemoveState) (p : String),
      p ∈ (paths.foldl (removePath disk) st).files → p ∈ st.files := by
  induction paths with
  | nil => intro st p h; exact h
  | cons q qs ih => intro st p h; exact removePath_subset _ _ _ _ (ih _ p h)

theorem removeListed_count (disk : Disk) (st : RemoveState) (repopath : String) :
    (removeListed disk st repopath).removed_files +
        ((removeListed disk st repopath).files.length : Int) =
      st.removed_files + (st.files.length : Int) := by
  unfold removeListed
  split
  · exact foldl_removePath_count _ _ _
  · rfl

theorem removeListed_nodup (disk : Disk) (st : RemoveState) (repopath : String)
    (h : st.files.Nodup) : (removeListed disk st repopath).files.Nodup := by
  unfold removeListed
  split
  · exact foldl_removePath_nodup _ _ _ h
  · exact h

theorem removeListed_subset (disk : Disk) (st : RemoveState) (repopath p : String)
    (h : p ∈ (removeListed disk st repopath).files) : p ∈ st.files := by
  unfold removeListed at h
  split at h
  · exact foldl_removePath_subset _ _ _ _ h
  · exact h

/-- The file a name of the repodata directory names, reached through the path
`locate_metadata_via_repomd` builds for it. -/
theorem fileOf_joinRoot_repodata (repopath name : String) (h : '/' ∉ name.data) :
    fileOf (joinRoot repopath ("repodata/" ++ name)) =
      fileOf (repopath ++ "/repodata/") ++ name := by
  rw [fileOf_joinRoot, ← fileOf_append_no_slash _ _ h]
  congr 1
  have e : ("/repodata/" : String) = "/" ++ "repodata/" := by decide
  rw [e]
  simp only [String.append_assoc]

theorem fileOf_repodata (repopath name : String) (h : '/' ∉ name.data) :
    fileOf (repopath ++ ("/repodata/" ++ name)) = fileOf (repopath ++ "/repodata/") ++ name := by
  rw [← String.append_assoc, fileOf_append_no_slash _ _ h]

/-- C13: `remove_old_metadata` returns the number of files removed in both phases, each
file counted once. For a duplicate-free list `files` of existing files the call either fails
with `-1` and removes nothing, or returns the number of files of `files` that are gone
afterwards; a file removed in the first phase cannot be removed again by the scan, also when
the scan spells its path with `//`. For a repodata directory that holds `repomd.xml`,
`primary.xml.gz` and `notes.txt`, with an index that names `primary.xml.gz`, the result is
`2` and only `notes.txt` is left, whatever names the directory listing returns and whether
or not `repopath` ends with `/`. -/
theorem remove_old_metadata_counts_once (disk : Disk) (files : List String)
    (repopath : String) (hnd : files.Nodup) :
    (((remove_old_metadata disk files repopath).1 = -1 ∧
          (remove_old_metadata disk files repopath).2.files = files) ∨
        (remove_old_metadata disk files repopath).1 =
          (files.length : Int) - ((remove_old_metadata disk files repopath).2.files.length : Int)) ∧
      (remove_old_metadata disk files repopath).2.files.Nodup ∧
      (∀ p ∈ (remove_old_metadata disk files repopath).2.files, p ∈ files) ∧
      ∀ entries : List String,
        disk.fs.g_file_test repopath = true →
        disk.g_dir_open (repopath ++ "/repodata/") = some entries →
        locate_metadata_via_repomd disk.fs repopath =
          some ⟨some (joinRoot repopath "repodata/primary.xml.gz"), none, none, none, none,
            none, none, none, some (repomdPath repopath)⟩ →
        disk.canRemove (joinRoot repopath "repodata/primary.xml.gz") = true →
        disk.canRemove (repomdPath repopath) = true →
        (remove_old_metadata disk
          [fileOf (repopath ++ "/repodata/repomd.xml"),
            fileOf (repopath ++ "/repodata/primary.xml.gz"),
            fileOf (repopath ++ "/repodata/notes.txt")] repopath).1 = 2 ∧
        (remove_old_metadata disk
          [fileOf (repopath ++ "/repodata/repomd.xml"),
            fileOf (repopath ++ "/repodata/primary.xml.gz"),
            fileOf (repopath ++ "/repodata/notes.txt")] repopath).2.files =
          [fileOf (repopath ++ "/repodata/notes.txt")] := by
  refine ⟨?_, ?_, ?_, ?_⟩
  · unfold remove_old_metadata
    split
    · exact Or.inl ⟨rfl, rfl⟩
    · split
      · exact Or.inl ⟨rfl, rfl⟩
      · rename_i entries _
        right
        have h1 := scanDirectory_count disk (g_strconcat [some repopath, some "/repodata/"])
          entries (removeListed disk ⟨0, files, []⟩ repopath)
        have h2 := removeListed_count disk ⟨0, files, []⟩ repopath
        simp only [] at h1 h2 ⊢
        omega
  · unfold remove_old_metadata
    split
    · exact hnd
    · split
      · exact hnd
      · exact scanDirectory_nodup _ _ _ _ (removeListed_nodup _ _ _ hnd)
  · intro p hp
    unfold remove_old_metadata at hp
    split at hp
    · exact hp
    · split at hp
      · exact hp
      · exact removeListed_subset disk ⟨0, files, []⟩ repopath p
          (scanDirectory_subset _ _ _ _ _ hp)
  · intro entries hdir hopen hloc hc1 hc2
    have hA : fileOf (repopath ++ "/repodata/repomd.xml") =
        fileOf (repopath ++ "/repodata/") ++ "repomd.xml" :=
      fileOf_repodata repopath "repomd.xml" (by decide)
    have hB : fileOf (repopath ++ "/repodata/primary.xml.gz") =
        fileOf (repopath ++ "/repodata/") ++ "primary.xml.gz" :=
      fileOf_repodata repopath "primary.xml.gz" (by decide)
    have hC : fileOf (repopath ++ "/repodata/notes.txt") =
        fileOf (repopath ++ "/repodata/") ++ "notes.txt" :=
      fileOf_repodata repopath "notes.txt" (by decide)
    have hA1 : fileOf (repomdPath repopath) =
        fileOf (repopath ++ "/repodata/") ++ "repomd.xml" := by
      rw [repomdPath_eq_joinRoot]
      exact fileOf_joinRoot_repodata repopath "repomd.xml" (by decide)
    have hB1 : fileOf (joinRoot repopath "repodata/primary.xml.gz") =
        fileOf (repopath ++ "/repodata/") ++ "primary.xml.gz" :=
      fileOf_joinRoot_repodata repopath "primary.xml.gz" (by decide)
    rw [hA, hB, hC]
    generalize hP : fileOf (repopath ++ "/repodata/") = P at hA hB hC hA1 hB1
    have hab : P ++ "primary.xml.gz" ≠ P ++ "repomd.xml" := fun h =>
      absurd (string_append_cancel h) (by decide)
    have h1 : removePath disk ⟨0, [P ++ "repomd.xml", P ++ "primary.xml.gz", P ++ "notes.txt"],
        []⟩ (repomdPath repopath) =
        ⟨1, [P ++ "primary.xml.gz", P ++ "notes.txt"], [repomdPath repopath]⟩ := by
      rw [removePath_of_mem disk _ _ (by rw [hA1]; exact List.mem_cons_self _ _) hc2, hA1]
      simp
    have h2 : removePath disk ⟨1, [P ++ "primary.xml.gz", P ++ "notes.txt"],
        [repomdPath repopath]⟩ (joinRoot repopath "repodata/primary.xml.gz") =
        ⟨2, [P ++ "notes.txt"],
          [repomdPath repopath, joinRoot repopath "repodata/primary.xml.gz"]⟩ := by
      rw [removePath_of_mem disk _ _ (by rw [hB1]; exact List.mem_cons_self _ _) hc1, hB1]
      simp
    have hphase1 : removeListed disk
        ⟨0, [P ++ "repomd.xml", P ++ "primary.xml.gz", P ++ "notes.txt"], []⟩ repopath =
        ⟨2, [P ++ "notes.txt"],
          [repomdPath repopath, joinRoot repopath "repodata/primary.xml.gz"]⟩ := by
      simp only [removeListed, hloc, get_list_of_md_locations, prependField, List.foldl_cons,
        List.foldl_nil, h1, h2]
    simp only [remove_old_metadata, hdir, g_strconcat_two, hopen, hphase1, Bool.not_true,
      Bool.false_eq_true, if_false]
    have hscan := scanDirectory_of_not_mem disk (repopath ++ "/repodata/") entries
      ⟨2, [P ++ "notes.txt"],
        [repomdPath repopath, joinRoot repopath "repodata/primary.xml.gz"]⟩
      (fun e _ he hmem => by
        simp only [List.mem_singleton] at hmem
        rw [← hP, ← fileOf_append_no_slash _ _ (by decide)] at hmem
        exact fileOf_scan_ne _ e "notes.txt" he (by decide) (by decide) hmem)
    exact ⟨hscan.2, hscan.1⟩

theorem remove_old_metadata_counts_once_witness :
    [fileOf ("/srv/repo/" ++ "/repodata/repomd.xml"),
        fileOf ("/srv/repo/" ++ "/repodata/primary.xml.gz"),
        fileOf ("/srv/repo/" ++ "/repodata/notes.txt")].Nodup ∧
      ((remove_old_metadata (cleanerDisk ["repomd.xml", "primary.xml.gz", "notes.txt"])
          [fileOf ("/srv/repo/" ++ "/repodata/repomd.xml"),
            fileOf ("/srv/repo/" ++ "/repodata/primary.xml.gz"),
            fileOf ("/srv/repo/" ++ "/repodata/notes.txt")] "/srv/repo/").1 = 2 ∧
        (remove_old_metadata (cleanerDisk ["repomd.xml", "primary.xml.gz", "notes.txt"])
          [fileOf ("/srv/repo/" ++ "/repodata/repomd.xml"),
            fileOf ("/srv/repo/" ++ "/repodata/primary.xml.gz"),
            fileOf ("/srv/repo/" ++ "/repodata/notes.txt")] "/srv/repo/").2.files =
          [fileOf ("/srv/repo/" ++ "/repodata/notes.txt")]) ∧
      fileOf ("/srv/repo/" ++ "/repodata/notes.txt") = "/srv/repo/repodata/notes.txt" ∧
      remove_old_metadata
          (cleanerDisk ["repomd.xml", "primary.xml.gz", "old-other.xml", "notes.txt"])
          ["/srv/repo/repodata/repomd.xml", "/srv/repo/repodata/primary.xml.gz",
            "/srv/repo/repodata/old-other.xml", "/srv/repo/repodata/notes.txt"]
          "/srv/repo/" =
        (3, ⟨3, ["/srv/repo/repodata/notes.txt"],
          ["/srv/repo/repodata/repomd.xml", "/srv/repo/repodata/primary.xml.gz",
            "/srv/repo//repodata/repomd.xml", "/srv/repo//repodata/primary.xml.gz",
            "/srv/repo//repodata/old-other.xml"]⟩) :=
  ⟨by decide,
    (remove_old_metadata_counts_once
      (cleanerDisk ["repomd.xml", "primary.xml.gz", "notes.txt"])
      [fileOf ("/srv/repo/" ++ "/repodata/repomd.xml"),
        fileOf ("/srv/repo/" ++ "/repodata/primary.xml.gz"),
        fileOf ("/srv/repo/" ++ "/repodata/notes.txt")] "/srv/repo/" (by decide)).2.2.2
      ["repomd.xml", "primary.xml.gz", "notes.txt"] rfl rfl (by decide) rfl rfl,
    by decide, by decide⟩

/-! ## Extraction only adds to the table (C16) -/

theorem lookup_append_of_fresh (new t : GHashTable) (key : String) (v : PackageMetadata)
    (hfresh : ∀ e ∈ new, g_hash_table_lookup t e.1 = none)
    (h : g_hash_table_lookup t key = some v) :
    g_hash_table_lookup (new ++ t) key = some v := by
  induction new with
  | nil => exact h
  | cons e es ih =>
    obtain ⟨k, w⟩ := e
    have hk : g_hash_table_lookup t k = none := hfresh (k, w) (List.mem_cons_self _ _)
    have hne : (key == k) = false := by
      apply beq_false_of_ne
      intro heq
      rw [heq, hk] at h
      simp at h
    have := ih (fun e he => hfresh e (List.mem_cons_of_mem _ he))
    simp only [g_hash_table_lookup, List.cons_append, List.lookup_cons, hne] at this ⊢
    exact this

theorem lookup_of_append_none (new t : GHashTable) (key : String)
    (h : g_hash_table_lookup (new ++ t) key = none) : g_hash_table_lookup t key = none := by
  induction new with
  | nil => exact h
  | cons e es ih =>
    obtain ⟨k, w⟩ := e
    simp only [g_hash_table_lookup, List.cons_append, List.lookup_cons] at h ih ⊢
    cases hk : key == k with
    | true => rw [hk] at h; simp at h
    | false => rw [hk] at h; exact ih h

theorem process_node_extends (dump : XmlNode → Option String) (t : GHashTable)
    (p f o : xmlTextReader) :
    ∃ new : GHashTable, process_node dump t p f o = new ++ t ∧ new.length ≤ 1 ∧
      ∀ e ∈ new, g_hash_table_lookup t e.1 = none := by
  rw [process_node_eq]
  cases hc : candidate dump p f o with
  | none => exact ⟨[], rfl, by simp, by simp⟩
  | some c =>
    obtain ⟨k, v⟩ := c
    simp only [storeCandidate]
    cases hl : g_hash_table_lookup t k with
    | some w => exact ⟨[], by simp, by simp, by simp⟩
    | none => exact ⟨[(k, v)], by simp, by simp, by simpa using hl⟩

/-- C16: extraction only adds to the table. `process_node` returns the table it was given
with at most one entry put in front of it, stored under a key the table did not have;
`parse_xml_metadata` returns the table it was given with entries put in front of it, all
under keys the table did not have. So every key present before either call is present
afterwards and a lookup of it returns the same record. -/
theorem extraction_only_adds (dump : XmlNode → Option String) (metadata : GHashTable)
    (pri_reader fil_reader oth_reader : xmlTextReader) :
    (∃ new : GHashTable,
        process_node dump metadata pri_reader fil_reader oth_reader = new ++ metadata ∧
        new.length ≤ 1 ∧ ∀ e ∈ new, g_hash_table_lookup metadata e.1 = none) ∧
      (∃ new : GHashTable,
        (parse_xml_metadata dump metadata pri_reader fil_reader oth_reader).hashtable =
          new ++ metadata ∧
        ∀ e ∈ new, g_hash_table_lookup metadata e.1 = none) ∧
      ∀ (key : String) (record : PackageMetadata),
        g_hash_table_lookup metadata key = some record →
        g_hash_table_lookup (process_node dump metadata pri_reader fil_reader oth_reader) key =
          some record ∧
        g_hash_table_lookup
          (parse_xml_metadata dump metadata pri_reader fil_reader oth_reader).hashtable key =
          some record := by
  have hproc := process_node_extends dump metadata pri_reader fil_reader oth_reader
  have hparse : ∃ new : GHashTable,
      (parse_xml_metadata dump metadata pri_reader fil_reader oth_reader).hashtable =
        new ++ metadata ∧ ∀ e ∈ new, g_hash_table_lookup metadata e.1 = none := by
    apply parse_invariant dump
      (fun t => ∃ new : GHashTable, t = new ++ metadata ∧
        ∀ e ∈ new, g_hash_table_lookup metadata e.1 = none)
    · intro t p f o ⟨new, ht, hfresh⟩
      obtain ⟨add, h1, -, h3⟩ := process_node_extends dump t p f o
      refine ⟨add ++ new, by rw [h1, ht, List.append_assoc], ?_⟩
      intro e he
      rcases List.mem_append.mp he with h | h
      · have := h3 e h
        rw [ht] at this
        exact lookup_of_append_none _ _ _ this
      · exact hfresh e h
    · exact ⟨[], rfl, by simp⟩
  refine ⟨hproc, hparse, ?_⟩
  intro key record hl
  obtain ⟨n1, h1, -, h2⟩ := hproc
  obtain ⟨n2, h3, h4⟩ := hparse
  exact ⟨by rw [h1]; exact lookup_append_of_fresh _ _ _ _ h2 hl,
    by rw [h3]; exact lookup_append_of_fresh _ _ _ _ h4 hl⟩


/-! ## The lockstep invariant of the extraction loop (C14) -/

theorem nextStream_ret_zero (fuel : Nat) (r : xmlTextReader) : nextStream fuel 0 r = [] := by
  cases fuel <;> simp [nextStream]

theorem nextStream_length_le (fuel : Nat) :
    ∀ (ret : Int) (r : xmlTextReader), (nextStream fuel ret r).length ≤ fuel := by
  induction fuel with
  | zero => intro ret r; simp [nextStream]
  | succ n ih =>
    intro ret r
    simp only [nextStream]
    split
    · simp only [List.length_cons]
      have := ih (xmlTextReaderNext r).1 (xmlTextReaderNext r).2
      omega
    · simp

theorem nextStream_take (fuel : Nat) :
    ∀ (extra : Nat) (ret : Int) (r : xmlTextReader),
      nextStream fuel ret r = (nextStream (fuel + extra) ret r).take fuel := by
  induction fuel with
  | zero => intro extra ret r; simp [nextStream]
  | succ n ih =>
    intro extra ret r
    have hrw : n + 1 + extra = (n + extra) + 1 := by omega
    rw [hrw]
    simp only [nextStream]
    split
    · rw [List.take_succ_cons, ← ih]
    · simp

theorem nextStream_fuel (fuel : Nat) :
    ∀ (extra : Nat) (ret : Int) (r : xmlTextReader),
      (ret ≠ 0 → r.remaining.length < fuel) →
      nextStream (fuel + extra) ret r = nextStream fuel ret r := by
  induction fuel with
  | zero =>
    intro extra ret r h
    have h0 : ret = 0 := by
      by_contra hne
      exact absurd (h hne) (Nat.not_lt_zero _)
    rw [h0, nextStream_ret_zero, nextStream_ret_zero]
  | succ n ih =>
    intro extra ret r h
    have hrw : n + 1 + extra = (n + extra) + 1 := by omega
    rw [hrw]
    simp only [nextStream]
    split
    · rename_i hret
      rw [ih]
      intro hnext
      have := next_length r hnext
      have := h hret
      omega
    · rfl

theorem nextStream_eq_take (fuel : Nat) (ret : Int) (r : xmlTextReader) :
    nextStream fuel ret r = (nodeStream ret r).take fuel := by
  unfold nodeStream
  by_cases h : fuel ≤ r.remaining.length + 1
  · obtain ⟨e, he⟩ : ∃ e, r.remaining.length + 1 = fuel + e := ⟨_, (Nat.add_sub_cancel' h).symm⟩
    rw [he]
    exact nextStream_take fuel e ret r
  · obtain ⟨e, he⟩ : ∃ e, fuel = r.remaining.length + 1 + e :=
      ⟨_, (Nat.add_sub_cancel' (by omega)).symm⟩
    rw [he, nextStream_fuel _ _ _ _ (fun _ => Nat.lt_succ_self _)]
    rw [List.take_of_length_le]
    have := nextStream_length_le (r.remaining.length + 1) ret r
    omega

theorem nextStream_get (fuel : Nat) :
    ∀ (ret : Int) (r x : xmlTextReader) (i : Nat),
      (nextStream fuel ret r)[i]? = some x → x = advance i r := by
  induction fuel with
  | zero => intro ret r x i h; simp [nextStream] at h
  | succ n ih =>
    intro ret r x i h
    simp only [nextStream] at h
    split at h
    · cases i with
      | zero =>
        simp only [List.getElem?_cons_zero, Option.some.injEq] at h
        rw [← h]
        rfl
      | succ j =>
        rw [List.getElem?_cons_succ] at h
        have := ih _ _ _ _ h
        exact this
    · simp at h

theorem zip_take_of_length_le {α β γ : Type} (xs : List α) :
    ∀ (fuel : Nat) (ys : List β) (zs : List γ), xs.length ≤ fuel →
      xs.zip ((ys.take fuel).zip (zs.take fuel)) = xs.zip (ys.zip zs) := by
  induction xs with
  | nil => intro fuel ys zs _; simp
  | cons x xs ih =>
    intro fuel ys zs h
    obtain ⟨k, rfl⟩ : ∃ k, fuel = k + 1 := ⟨fuel - 1, by simp at h; omega⟩
    cases ys with
    | nil => simp
    | cons y ys =>
      cases zs with
      | nil => simp
      | cons z zs =>
        simp only [List.take_succ_cons, List.zip_cons_cons, List.cons.injEq, true_and]
        exact ih k ys zs (by simpa using h)

theorem parseLoop_lockstep (dump : XmlNode → Option String) (fuel : Nat) :
    ∀ st : LoopState,
      (parseLoop dump fuel st).hashtable =
          ((nextStream fuel st.pri_ret st.pri_reader).zip
            ((nextStream fuel st.fil_ret st.fil_reader).zip
              (nextStream fuel st.oth_ret st.oth_reader))).foldl
            (processReaders dump) st.hashtable ∧
        (parseLoop dump fuel st).pri_reader =
          advance ((nextStream fuel st.pri_ret st.pri_reader).zip
            ((nextStream fuel st.fil_ret st.fil_reader).zip
              (nextStream fuel st.oth_ret st.oth_reader))).length st.pri_reader ∧
        (parseLoop dump fuel st).fil_reader =
          advance ((nextStream fuel st.pri_ret st.pri_reader).zip
            ((nextStream fuel st.fil_ret st.fil_reader).zip
              (nextStream fuel st.oth_ret st.oth_reader))).length st.fil_reader ∧
        (parseLoop dump fuel st).oth_reader =
          advance ((nextStream fuel st.pri_ret st.pri_reader).zip
            ((nextStream fuel st.fil_ret st.fil_reader).zip
              (nextStream fuel st.oth_ret st.oth_reader))).length st.oth_reader := by
  induction fuel with
  | zero => intro st; simp [parseLoop, nextStream, advance]
  | succ n ih =>
    intro st
    simp only [parseLoop, nextStream]
    by_cases hc : st.pri_ret ≠ 0 ∧ st.fil_ret ≠ 0 ∧ st.oth_ret ≠ 0
    · obtain ⟨h1, h2, h3, h4⟩ := ih (loopBody dump st)
      simp only [if_pos hc, if_pos hc.1, if_pos hc.2.1, if_pos hc.2.2, List.zip_cons_cons,
        List.foldl_cons, List.length_cons, advance]
      exact ⟨h1, h2, h3, h4⟩
    · rw [if_neg hc]
      have hz : (if st.pri_ret ≠ 0 then
            st.pri_reader :: nextStream n (xmlTextReaderNext st.pri_reader).1
              (xmlTextReaderNext st.pri_reader).2 else []).zip
          ((if st.fil_ret ≠ 0 then
            st.fil_reader :: nextStream n (xmlTextReaderNext st.fil_reader).1
              (xmlTextReaderNext st.fil_reader).2 else []).zip
          (if st.oth_ret ≠ 0 then
            st.oth_reader :: nextStream n (xmlTextReaderNext st.oth_reader).1
              (xmlTextReaderNext st.oth_reader).2 else [])) = [] := by
        by_cases h1 : st.pri_ret ≠ 0
        · by_cases h2 : st.fil_ret ≠ 0
          · have h3 : ¬ st.oth_ret ≠ 0 := fun h3 => hc ⟨h1, h2, h3⟩
            simp [h3]
          · simp [h2]
        · simp [h1]
      rw [hz]
      simp [advance]

theorem parse_of_ret_one (dump : XmlNode → Option String) (metadata : GHashTable)
    (p f o : xmlTextReader) (h : (parse_xml_metadata dump metadata p f o).ret = 1) :
    (parse_xml_metadata dump metadata p f o).hashtable =
        (parseLoop dump ((firstPackage p).2.remaining.length + 1)
          ⟨metadata, (firstPackage p).1, (firstPackage f).1, (firstPackage o).1,
            (firstPackage p).2, (firstPackage f).2, (firstPackage o).2⟩).hashtable ∧
      (parse_xml_metadata dump metadata p f o).pri_reader =
        (parseLoop dump ((firstPackage p).2.remaining.length + 1)
          ⟨metadata, (firstPackage p).1, (firstPackage f).1, (firstPackage o).1,
            (firstPackage p).2, (firstPackage f).2, (firstPackage o).2⟩).pri_reader ∧
      (parse_xml_metadata dump metadata p f o).fil_reader =
        (parseLoop dump ((firstPackage p).2.remaining.length + 1)
          ⟨metadata, (firstPackage p).1, (firstPackage f).1, (firstPackage o).1,
            (firstPackage p).2, (firstPackage f).2, (firstPackage o).2⟩).fil_reader ∧
      (parse_xml_metadata dump metadata p f o).oth_reader =
        (parseLoop dump ((firstPackage p).2.remaining.length + 1)
          ⟨metadata, (firstPackage p).1, (firstPackage f).1, (firstPackage o).1,
            (firstPackage p).2, (firstPackage f).2, (firstPackage o).2⟩).oth_reader := by
  unfold parse_xml_metadata at h ⊢
  simp only [] at h ⊢
  split_ifs at h ⊢ <;> first
    | exact ⟨rfl, rfl, rfl, rfl⟩
    | (simp at h)

theorem foldl_processReaders_mem (dump : XmlNode → Option String)
    (ts : List (xmlTextReader × xmlTextReader × xmlTextReader)) :
    ∀ (t0 : GHashTable) (e : String × PackageMetadata),
      e ∈ ts.foldl (processReaders dump) t0 → e ∉ t0 →
      ∃ t ∈ ts, candidate dump t.1 t.2.1 t.2.2 = some e := by
  induction ts with
  | nil => intro t0 e h hn; exact absurd h hn
  | cons t ts ih =>
    intro t0 e h hn
    rw [List.foldl_cons] at h
    by_cases hmem : e ∈ processReaders dump t0 t
    · exact ⟨t, List.mem_cons_self _ _, mem_process_node dump t0 _ _ _ e hmem hn⟩
    · obtain ⟨t1, ht1, hc⟩ := ih _ e h hmem
      exact ⟨t1, List.mem_cons_of_mem _ ht1, hc⟩


theorem nodeStream_cons (ret : Int) (r : xmlTextReader) (h : ret ≠ 0) :
    nodeStream ret r = r :: nodeStream (xmlTextReaderNext r).1 (xmlTextReaderNext r).2 := by
  unfold nodeStream
  rw [nextStream, if_pos h]
  congr 1
  by_cases hn : (xmlTextReaderNext r).1 = 0
  · rw [hn, nextStream_ret_zero, nextStream_ret_zero]
  · have hlen := next_length r hn
    obtain ⟨e, he⟩ : ∃ e, r.remaining.length = (xmlTextReaderNext r).2.remaining.length + 1 + e :=
      ⟨_, (Nat.add_sub_cancel' (by omega)).symm⟩
    rw [he]
    exact nextStream_fuel _ _ _ _ (fun _ => Nat.lt_succ_self _)

theorem nodeStream_rootEnd (n : String) (a : List (String × String)) (cs : List XmlNode) :
    nodeStream 1 (rootEnd (.element n a cs)) = [rootEnd (.element n a cs)] := by
  rw [nodeStream_cons _ _ (by decide)]
  simp only [rootEnd, next_end]
  simp [nodeStream, nextStream]

theorem nodeStream_readerOn (n : String) (a : List (String × String)) (k : List XmlNode)
    (cs : List XmlNode) :
    ∀ c : XmlNode, nodeStream 1 (readerOn c cs [⟨.element n a k, true⟩]) =
      siblingReaders (c :: cs) [⟨.element n a k, true⟩] ++ [rootEnd (.element n a k)] := by
  induction cs with
  | nil =>
    intro c
    rw [nodeStream_cons _ _ (by decide), next_readerOn_nil]
    simp only [siblingReaders, List.cons_append, List.nil_append, List.cons.injEq, true_and]
    exact nodeStream_rootEnd n a k
  | cons c1 cs ih =>
    intro c
    rw [nodeStream_cons _ _ (by decide), next_readerOn_cons]
    simp only [ih c1, siblingReaders, List.cons_append]

/-- The stream of nodes `parse_xml_metadata` walks in a document that consists of one root
element: the children of the root, then its end tag. -/
theorem nodeStream_rootDoc (n : String) (a : List (String × String)) (cs : List XmlNode) :
    nodeStream (firstPackage (xmlReaderForDoc (rootDoc n a cs))).1
        (firstPackage (xmlReaderForDoc (rootDoc n a cs))).2 =
      siblingStream (.element n a cs) := by
  unfold firstPackage siblingStream
  rw [read_rootDoc]
  cases cs with
  | nil =>
    have h : xmlTextReaderRead
        ⟨some ⟨.element n a [], false⟩, eventsList [] ++ [⟨.element n a [], true⟩]⟩ =
        (1, rootEnd (.element n a [])) := by
      simp [xmlTextReaderRead, eventsList, rootEnd]
    simp only [h, XmlNode.children, siblingReaders, List.nil_append]
    exact nodeStream_rootEnd n a []
  | cons c cs =>
    simp only [read_children, XmlNode.children]
    exact nodeStream_readerOn n a (c :: cs) cs c

theorem siblingReaders_length (cs : List XmlNode) (tail : List ReaderNode) :
    (siblingReaders cs tail).length = cs.length := by
  induction cs with
  | nil => rfl
  | cons c cs ih => simp [siblingReaders, ih]

theorem siblingStream_length (n : String) (a : List (String × String)) (cs : List XmlNode) :
    (siblingStream (.element n a cs)).length = cs.length + 1 := by
  simp [siblingStream, siblingReaders_length, XmlNode.children]

theorem siblingReaders_getElem? (tail : List ReaderNode) (cs : List XmlNode) :
    ∀ i : Nat, (siblingReaders cs tail)[i]? =
      cs[i]?.map (fun c => readerOn c (cs.drop (i + 1)) tail) := by
  induction cs with
  | nil => intro i; simp [siblingReaders]
  | cons c cs ih =>
    intro i
    cases i with
    | zero => simp [siblingReaders]
    | succ i => simp [siblingReaders, ih i]

/-- Position `k` of the stream of nodes below a root with at least `k` children: the reader
on child `k`, or the reader on the end tag of the root when there are exactly `k`
children. -/
theorem siblingStream_at (n : String) (a : List (String × String)) (cs : List XmlNode)
    (k : Nat) (hk : k ≤ cs.length) :
    ∃ x, (siblingStream (.element n a cs))[k]? = some x ∧
      (∀ c, cs[k]? = some c → x = readerOn c (cs.drop (k + 1)) [⟨.element n a cs, true⟩]) ∧
      (cs.length = k → x = rootEnd (.element n a cs)) := by
  by_cases hlt : k < cs.length
  · refine ⟨readerOn cs[k] (cs.drop (k + 1)) [⟨.element n a cs, true⟩], ?_, ?_, ?_⟩
    · unfold siblingStream
      simp only [XmlNode.children]
      rw [List.getElem?_append_left (by rw [siblingReaders_length]; exact hlt),
        siblingReaders_getElem?]
      simp [List.getElem?_eq_getElem hlt]
    · intro c hc
      rw [List.getElem?_eq_getElem hlt] at hc
      rw [Option.some.inj hc]
    · intro h
      omega
  · have hkl : k = cs.length := by omega
    refine ⟨rootEnd (.element n a cs), ?_, ?_, fun _ => rfl⟩
    · unfold siblingStream
      simp only [XmlNode.children]
      rw [hkl, List.getElem?_append_right (by rw [siblingReaders_length])]
      simp [siblingReaders_length]
    · intro c hc
      rw [hkl, List.getElem?_eq_none (le_refl _)] at hc
      exact absurd hc (by simp)

theorem processReaders_of_rootEnd (dump : XmlNode → Option String) (m : GHashTable)
    (t : xmlTextReader × xmlTextReader × xmlTextReader)
    (h : (∃ n a cs, t.1 = rootEnd (.element n a cs)) ∨
      (∃ n a cs, t.2.1 = rootEnd (.element n a cs)) ∨
      (∃ n a cs, t.2.2 = rootEnd (.element n a cs))) :
    processReaders dump m t = m := by
  unfold processReaders
  rw [process_node_eq, candidate_of_type_ne]
  · rfl
  · rcases h with ⟨n, a, cs, h⟩ | ⟨n, a, cs, h⟩ | ⟨n, a, cs, h⟩
    · exact Or.inl (by rw [h]; simp [rootEnd, xmlTextReaderNodeType])
    · exact Or.inr (Or.inl (by rw [h]; simp [rootEnd, xmlTextReaderNodeType]))
    · exact Or.inr (Or.inr (by rw [h]; simp [rootEnd, xmlTextReaderNodeType]))

/-- Calling `process_node` along the three streams of nodes below three roots gives the
lockstep processing of the three lists of children. -/
theorem foldl_siblingStreams (dump : XmlNode → Option String)
    (np nf no : String) (ap af ao : List (String × String)) (kp kf ko : List XmlNode)
    (ps : List XmlNode) :
    ∀ (fs os : List XmlNode) (m : GHashTable),
      ((siblingReaders ps [⟨.element np ap kp, true⟩] ++ [rootEnd (.element np ap kp)]).zip
        ((siblingReaders fs [⟨.element nf af kf, true⟩] ++ [rootEnd (.element nf af kf)]).zip
          (siblingReaders os [⟨.element no ao ko, true⟩] ++
            [rootEnd (.element no ao ko)]))).foldl (processReaders dump) m =
        processAll dump m ps fs os := by
  induction ps with
  | nil =>
    intro fs os m
    cases fs <;> cases os <;>
      simp only [siblingReaders, List.nil_append, List.cons_append, List.zip_cons_cons,
        List.zip_nil_right, List.zip_nil_left, List.foldl_cons, List.foldl_nil, processAll] <;>
      exact processReaders_of_rootEnd dump m _ (Or.inl ⟨_, _, _, rfl⟩)
  | cons p ps ih =>
    intro fs os m
    cases fs with
    | nil =>
      cases os <;>
        simp only [siblingReaders, List.nil_append, List.cons_append, List.zip_cons_cons,
          List.zip_nil_right, List.zip_nil_left, List.foldl_cons, List.foldl_nil,
          processAll] <;>
        exact processReaders_of_rootEnd dump m _ (Or.inr (Or.inl ⟨_, _, _, rfl⟩))
    | cons f fs =>
      cases os with
      | nil =>
        simp only [siblingReaders, List.nil_append, List.cons_append, List.zip_cons_cons,
          List.zip_nil_right, List.zip_nil_left, List.foldl_cons, List.foldl_nil, processAll]
        exact processReaders_of_rootEnd dump m _ (Or.inr (Or.inr ⟨_, _, _, rfl⟩))
      | cons o os =>
        simp only [siblingReaders, List.cons_append, List.zip_cons_cons, List.foldl_cons]
        rw [ih fs os, processAll_cons]
        congr 1

/-- C14 (as amended): the lockstep invariant of the loop of `parse_xml_metadata`. Every pass
moves each of the three readers by one call of `xmlTextReaderNext`, whatever `process_node`
did. When the call returns `1`, its table is the result of calling `process_node` on the
positions `i = 0, 1, ...` of the three streams of nodes, position `i` being each reader
after `i` moves; the number of passes is the length of the shortest of the three streams,
and the readers end after that many moves. Every record the call adds is the candidate of
one position, so its three fragments are the dumps of the nodes at the same position of the
three streams. For three documents that consist of one root element each, the stream of a
document is the children of its root followed by the end tag of the root: with `k` the
least number of children, there are `k + 1` passes; pass `i < k` has the three readers on
child `i` of each root; the last pass has a reader of a shortest document on the end tag of
its root and the reader of a longer document on its child `k`, and `process_node` stores
nothing in it; there is no position after that one, so the children after `k` are not
visited, and the table is the lockstep processing of the first `k` children. -/
theorem extraction_lockstep (dump : XmlNode → Option String) (metadata : GHashTable)
    (pri_reader fil_reader oth_reader : xmlTextReader)
    (hret : (parse_xml_metadata dump metadata pri_reader fil_reader oth_reader).ret = 1) :
    (∀ st : LoopState,
        (loopBody dump st).pri_reader = (xmlTextReaderNext st.pri_reader).2 ∧
        (loopBody dump st).fil_reader = (xmlTextReaderNext st.fil_reader).2 ∧
        (loopBody dump st).oth_reader = (xmlTextReaderNext st.oth_reader).2) ∧
      (parse_xml_metadata dump metadata pri_reader fil_reader oth_reader).hashtable =
        (lockstepPositions pri_reader fil_reader oth_reader).foldl (processReaders dump)
          metadata ∧
      (∀ (i : Nat) (t : xmlTextReader × xmlTextReader × xmlTextReader),
        (lockstepPositions pri_reader fil_reader oth_reader)[i]? = some t →
        t = (advance i (firstPackage pri_reader).2, advance i (firstPackage fil_reader).2,
          advance i (firstPackage oth_reader).2)) ∧
      (lockstepPositions pri_reader fil_reader oth_reader).length =
        min (nodeStream (firstPackage pri_reader).1 (firstPackage pri_reader).2).length
          (min (nodeStream (firstPackage fil_reader).1 (firstPackage fil_reader).2).length
            (nodeStream (firstPackage oth_reader).1 (firstPackage oth_reader).2).length) ∧
      (parse_xml_metadata dump metadata pri_reader fil_reader oth_reader).pri_reader =
        advance (lockstepPositions pri_reader fil_reader oth_reader).length
          (firstPackage pri_reader).2 ∧
      (parse_xml_metadata dump metadata pri_reader fil_reader oth_reader).fil_reader =
        advance (lockstepPositions pri_reader fil_reader oth_reader).length
          (firstPackage fil_reader).2 ∧
      (parse_xml_metadata dump metadata pri_reader fil_reader oth_reader).oth_reader =
        advance (lockstepPositions pri_reader fil_reader oth_reader).length
          (firstPackage oth_reader).2 ∧
      (∀ e ∈ (parse_xml_metadata dump metadata pri_reader fil_reader oth_reader).hashtable,
        e ∉ metadata →
        ∃ (i : Nat) (t : xmlTextReader × xmlTextReader × xmlTextReader),
          (lockstepPositions pri_reader fil_reader oth_reader)[i]? = some t ∧
          candidate dump t.1 t.2.1 t.2.2 = some e ∧
          e.2.primary_xml = xmlNodeDump dump (xmlTextReaderExpand t.1) ∧
          e.2.filelists_xml = xmlNodeDump dump (xmlTextReaderExpand t.2.1) ∧
          e.2.other_xml = xmlNodeDump dump (xmlTextReaderExpand t.2.2)) ∧
      ∀ (np nf no : String) (ap af ao : List (String × String)) (ps fs os : List XmlNode),
        pri_reader = xmlReaderForDoc (rootDoc np ap ps) →
        fil_reader = xmlReaderForDoc (rootDoc nf af fs) →
        oth_reader = xmlReaderForDoc (rootDoc no ao os) →
        lockstepPositions pri_reader fil_reader oth_reader =
          (siblingStream (.element np ap ps)).zip
            ((siblingStream (.element nf af fs)).zip (siblingStream (.element no ao os))) ∧
        (lockstepPositions pri_reader fil_reader oth_reader).length =
          min ps.length (min fs.length os.length) + 1 ∧
        (∀ (i : Nat) (t : xmlTextReader × xmlTextReader × xmlTextReader),
          (lockstepPositions pri_reader fil_reader oth_reader)[i]? = some t →
          i ≤ min ps.length (min fs.length os.length)) ∧
        (∀ i, i < min ps.length (min fs.length os.length) →
          ∃ p f o, ps[i]? = some p ∧ fs[i]? = some f ∧ os[i]? = some o ∧
            (lockstepPositions pri_reader fil_reader oth_reader)[i]? =
              some (readerOn p (ps.drop (i + 1)) [⟨.element np ap ps, true⟩],
                readerOn f (fs.drop (i + 1)) [⟨.element nf af fs, true⟩],
                readerOn o (os.drop (i + 1)) [⟨.element no ao os, true⟩])) ∧
        (∃ t, (lockstepPositions pri_reader fil_reader oth_reader)[
              min ps.length (min fs.length os.length)]? = some t ∧
          (∀ m, processReaders dump m t = m) ∧
          (∀ p, ps[min ps.length (min fs.length os.length)]? = some p →
            t.1 = readerOn p (ps.drop (min ps.length (min fs.length os.length) + 1))
              [⟨.element np ap ps, true⟩]) ∧
          (∀ f, fs[min ps.length (min fs.length os.length)]? = some f →
            t.2.1 = readerOn f (fs.drop (min ps.length (min fs.length os.length) + 1))
              [⟨.element nf af fs, true⟩]) ∧
          (∀ o, os[min ps.length (min fs.length os.length)]? = some o →
            t.2.2 = readerOn o (os.drop (min ps.length (min fs.length os.length) + 1))
              [⟨.element no ao os, true⟩]) ∧
          (ps.length = min ps.length (min fs.length os.length) →
            t.1 = rootEnd (.element np ap ps)) ∧
          (fs.length = min ps.length (min fs.length os.length) →
            t.2.1 = rootEnd (.element nf af fs)) ∧
          (os.length = min ps.length (min fs.length os.length) →
            t.2.2 = rootEnd (.element no ao os))) ∧
        (parse_xml_metadata dump metadata pri_reader fil_reader oth_reader).hashtable =
          processAll dump metadata ps fs os := by
  obtain ⟨h1, h2, h3, h4⟩ := parse_of_ret_one dump metadata _ _ _ hret
  obtain ⟨l1, l2, l3, l4⟩ := parseLoop_lockstep dump
    ((firstPackage pri_reader).2.remaining.length + 1)
    ⟨metadata, (firstPackage pri_reader).1, (firstPackage fil_reader).1,
      (firstPackage oth_reader).1, (firstPackage pri_reader).2, (firstPackage fil_reader).2,
      (firstPackage oth_reader).2⟩
  have hzip : (nextStream ((firstPackage pri_reader).2.remaining.length + 1)
        (firstPackage pri_reader).1 (firstPackage pri_reader).2).zip
      ((nextStream ((firstPackage pri_reader).2.remaining.length + 1)
        (firstPackage fil_reader).1 (firstPackage fil_reader).2).zip
      (nextStream ((firstPackage pri_reader).2.remaining.length + 1)
        (firstPackage oth_reader).1 (firstPackage oth_reader).2)) =
      lockstepPositions pri_reader fil_reader oth_reader := by
    rw [nextStream_eq_take _ (firstPackage fil_reader).1,
      nextStream_eq_take _ (firstPackage oth_reader).1]
    exact zip_take_of_length_le _ _ _ _ (nextStream_length_le _ _ _)
  simp only [hzip] at l1 l2 l3 l4
  have htable : (parse_xml_metadata dump metadata pri_reader fil_reader oth_reader).hashtable =
      (lockstepPositions pri_reader fil_reader oth_reader).foldl (processReaders dump)
        metadata := by rw [h1, l1]
  refine ⟨fun st => ⟨rfl, rfl, rfl⟩, htable, ?_, ?_, by rw [h2, l2], by rw [h3, l3],
    by rw [h4, l4], ?_, ?_⟩
  · intro i t ht
    obtain ⟨a, b⟩ := List.getElem?_zip_eq_some.mp ht
    obtain ⟨c, d⟩ := List.getElem?_zip_eq_some.mp b
    have ha := nextStream_get _ _ _ _ _ a
    have hc := nextStream_get _ _ _ _ _ c
    have hd := nextStream_get _ _ _ _ _ d
    obtain ⟨t1, t2, t3⟩ := t
    simp only at ha hc hd
    rw [ha, hc, hd]
  · simp only [lockstepPositions, List.length_zip]
  · intro e he hnew
    rw [htable] at he
    obtain ⟨t, ht, hc⟩ := foldl_processReaders_mem dump _ _ e he hnew
    obtain ⟨i, hi⟩ := List.mem_iff_getElem?.mp ht
    obtain ⟨k, r⟩ := e
    obtain ⟨node, href, ct, -, -, -, -, -, hr, -⟩ := candidate_some dump _ _ _ _ _ hc
    exact ⟨i, t, hi, hc, by rw [hr], by rw [hr], by rw [hr]⟩
  · intro np nf no ap af ao ps fs os hp hf ho
    have hpos : lockstepPositions pri_reader fil_reader oth_reader =
        (siblingStream (.element np ap ps)).zip
          ((siblingStream (.element nf af fs)).zip (siblingStream (.element no ao os))) := by
      unfold lockstepPositions
      rw [hp, hf, ho, nodeStream_rootDoc, nodeStream_rootDoc, nodeStream_rootDoc]
    have hlen : (lockstepPositions pri_reader fil_reader oth_reader).length =
        min ps.length (min fs.length os.length) + 1 := by
      rw [hpos]
      simp only [List.length_zip, siblingStream_length]
      omega
    refine ⟨hpos, hlen, ?_, ?_, ?_, ?_⟩
    · intro i t ht
      by_contra hgt
      rw [List.getElem?_eq_none (by omega)] at ht
      exact absurd ht (by simp)
    · intro i hi
      have hip : i < ps.length := by omega
      have hif : i < fs.length := by omega
      have hio : i < os.length := by omega
      obtain ⟨xp, hxp, hxp1, -⟩ := siblingStream_at np ap ps i (by omega)
      obtain ⟨xf, hxf, hxf1, -⟩ := siblingStream_at nf af fs i (by omega)
      obtain ⟨xo, hxo, hxo1, -⟩ := siblingStream_at no ao os i (by omega)
      refine ⟨ps[i], fs[i], os[i], List.getElem?_eq_getElem hip, List.getElem?_eq_getElem hif,
        List.getElem?_eq_getElem hio, ?_⟩
      rw [hpos]
      apply List.getElem?_zip_eq_some.mpr
      refine ⟨?_, List.getElem?_zip_eq_some.mpr ⟨?_, ?_⟩⟩
      · rw [hxp, hxp1 _ (List.getElem?_eq_getElem hip)]
      · rw [hxf, hxf1 _ (List.getElem?_eq_getElem hif)]
      · rw [hxo, hxo1 _ (List.getElem?_eq_getElem hio)]
    · generalize hk : min ps.length (min fs.length os.length) = k
      obtain ⟨xp, hxp, hxp1, hxp2⟩ := siblingStream_at np ap ps k (by omega)
      obtain ⟨xf, hxf, hxf1, hxf2⟩ := siblingStream_at nf af fs k (by omega)
      obtain ⟨xo, hxo, hxo1, hxo2⟩ := siblingStream_at no ao os k (by omega)
      refine ⟨(xp, xf, xo), ?_, ?_, hxp1, hxf1, hxo1, hxp2, hxf2, hxo2⟩
      · rw [hpos]
        exact List.getElem?_zip_eq_some.mpr ⟨hxp, List.getElem?_zip_eq_some.mpr ⟨hxf, hxo⟩⟩
      · intro m
        apply processReaders_of_rootEnd
        have hcase : ps.length = k ∨ fs.length = k ∨ os.length = k := by omega
        rcases hcase with h | h | h
        · exact Or.inl ⟨_, _, _, hxp2 h⟩
        · exact Or.inr (Or.inl ⟨_, _, _, hxf2 h⟩)
        · exact Or.inr (Or.inr ⟨_, _, _, hxo2 h⟩)
    · rw [htable, hpos]
      unfold siblingStream
      simp only [XmlNode.children]
      exact foldl_siblingStreams dump np nf no ap af ao ps fs os ps fs os metadata

theorem extraction_lockstep_witness :
    (parse_xml_metadata sampleDump []
        (xmlReaderForDoc (rootDoc "metadata" [] threePrimaries))
        (xmlReaderForDoc (rootDoc "filelists" [] samplePackages))
        (xmlReaderForDoc (rootDoc "otherdata" [] threePackages))).ret = 1 ∧
      (parse_xml_metadata sampleDump []
        (xmlReaderForDoc (rootDoc "metadata" [] threePrimaries))
        (xmlReaderForDoc (rootDoc "filelists" [] samplePackages))
        (xmlReaderForDoc (rootDoc "otherdata" [] threePackages))).hashtable =
        (lockstepPositions (xmlReaderForDoc (rootDoc "metadata" [] threePrimaries))
          (xmlReaderForDoc (rootDoc "filelists" [] samplePackages))
          (xmlReaderForDoc (rootDoc "otherdata" [] threePackages))).foldl
          (processReaders sampleDump) [] ∧
      (lockstepPositions (xmlReaderForDoc (rootDoc "metadata" [] threePrimaries))
        (xmlReaderForDoc (rootDoc "filelists" [] samplePackages))
        (xmlReaderForDoc (rootDoc "otherdata" [] threePackages))).length =
        min threePrimaries.length (min samplePackages.length threePackages.length) + 1 ∧
      (parse_xml_metadata sampleDump []
        (xmlReaderForDoc (rootDoc "metadata" [] threePrimaries))
        (xmlReaderForDoc (rootDoc "filelists" [] samplePackages))
        (xmlReaderForDoc (rootDoc "otherdata" [] threePackages))).hashtable =
        processAll sampleDump [] threePrimaries samplePackages threePackages ∧
      (parse_xml_metadata sampleDump []
        (xmlReaderForDoc (rootDoc "metadata" [] threePrimaries))
        (xmlReaderForDoc (rootDoc "filelists" [] samplePackages))
        (xmlReaderForDoc (rootDoc "otherdata" [] threePackages))).hashtable.length = 2 :=
  ⟨by decide,
    (extraction_lockstep sampleDump []
      (xmlReaderForDoc (rootDoc "metadata" [] threePrimaries))
      (xmlReaderForDoc (rootDoc "filelists" [] samplePackages))
      (xmlReaderForDoc (rootDoc "otherdata" [] threePackages)) (by decide)).2.1,
    ((extraction_lockstep sampleDump []
      (xmlReaderForDoc (rootDoc "metadata" [] threePrimaries))
      (xmlReaderForDoc (rootDoc "filelists" [] samplePackages))
      (xmlReaderForDoc (rootDoc "otherdata" [] threePackages)) (by decide)).2.2.2.2.2.2.2.2
      "metadata" "filelists" "otherdata" [] [] [] threePrimaries samplePackages threePackages
      rfl rfl rfl).2.1,
    ((extraction_lockstep sampleDump []
      (xmlReaderForDoc (rootDoc "metadata" [] threePrimaries))
      (xmlReaderForDoc (rootDoc "filelists" [] samplePackages))
      (xmlReaderForDoc (rootDoc "otherdata" [] threePackages)) (by decide)).2.2.2.2.2.2.2.2
      "metadata" "filelists" "otherdata" [] [] [] threePrimaries samplePackages threePackages
      rfl rfl rfl).2.2.2.2.2,
    by decide⟩

/-- C14 as stated fails on the code. With three primary records, two filelists records and
three other records the shortest document has two records, yet the loop makes three passes,
and the third pass hands `process_node` the third primary record `b/foo.rpm` and the third
other record, trailing records of the longer documents, while the filelists reader stands
on the end tag of its root. -/
theorem extraction_lockstep_counterexample :
    (parse_xml_metadata sampleDump []
        (xmlReaderForDoc (rootDoc "metadata" [] threePrimaries))
        (xmlReaderForDoc (rootDoc "filelists" [] samplePackages))
        (xmlReaderForDoc (rootDoc "otherdata" [] threePackages))).ret = 1 ∧
      threePrimaries.length = 3 ∧ samplePackages.length = 2 ∧ threePackages.length = 3 ∧
      (lockstepPositions (xmlReaderForDoc (rootDoc "metadata" [] threePrimaries))
        (xmlReaderForDoc (rootDoc "filelists" [] samplePackages))
        (xmlReaderForDoc (rootDoc "otherdata" [] threePackages))).length = 3 ∧
      (threePrimaries[2]?).bind hrefOf = some "b/foo.rpm" ∧
      ((lockstepPositions (xmlReaderForDoc (rootDoc "metadata" [] threePrimaries))
        (xmlReaderForDoc (rootDoc "filelists" [] samplePackages))
        (xmlReaderForDoc (rootDoc "otherdata" [] threePackages)))[2]?).map
          (fun t => (xmlTextReaderNodeType t.1, (xmlTextReaderExpand t.1).bind hrefOf,
            xmlTextReaderNodeType t.2.1, xmlTextReaderName t.2.1,
            xmlTextReaderNodeType t.2.2, xmlTextReaderName t.2.2)) =
        some ((1 : Int), some "b/foo.rpm", (15 : Int), some "filelists", (1 : Int),
          some "package") :=
  ⟨by decide, rfl, rfl, rfl, by decide, by decide, rfl⟩

end LoadMetadata
